import Mathlib

/-!
# Minesweeper rule engine (package `game`)

A shallow embedding of `game/minesweeper.go`.

* A Go `[][]tile` is a list of columns; `b[x][y]` is a checked read that
  faults with `Fault.indexOutOfRange` where Go would panic.
* Go `int` fields are `Int`; they only ever move by one from the constructor
  arguments or from counts bounded by the board size, so the wrap-around of
  64-bit arithmetic is not modelled.  Coordinates and board sizes are slice
  indices and lengths; they are `Nat` here (a negative index or length panics
  in Go), and `max 0 (x - 1)` on `Nat` has the value of Go's `max(0, x-1)`
  for every `x ≥ 0`.
* `math/rand` is replaced by an explicit list of draws.
* No statement of the package changes the length of a slice after
  `newTileGrid` has allocated it, so the bound of a `for` loop is read once,
  when the loop is entered.
* The mutual recursion `RevealAt ↔ revealChain` is indexed by a fuel
  counter that bounds the call depth; running out of it is the separate
  fault `Fault.outOfFuel`.
-/

namespace Minesweeper

/-- The per-cell record `tile`. -/
structure tile where
  adjacentMines : Int
  mine : Bool
  flagged : Bool
  revealed : Bool
deriving DecidableEq, Repr

instance : Inhabited tile := ⟨⟨0, false, false, false⟩⟩

/-- The type `board [][]tile`: `b[x]` is column `x`, `b[x][y]` a tile. -/
abbrev board := List (List tile)

/-- The two ways an embedded call can fail to return a value. -/
inductive Fault where
  | indexOutOfRange
  | outOfFuel
deriving DecidableEq, Repr

/-- The anonymous struct `Game.State`. -/
structure GameState where
  GameOver : Bool
  disarms : Int
  flags : Int
  mines : Int
deriving DecidableEq, Repr

/-- The anonymous struct `Game.options`. -/
structure GameOptions where
  chainRevealing : Bool
deriving DecidableEq, Repr

/-- The struct `Game`. -/
structure Game where
  State : GameState
  board : board
  options : GameOptions
deriving DecidableEq, Repr

/-- The slice read `b[x]`. -/
def readCol (b : board) (x : Nat) : Except Fault (List tile) :=
  match b[x]? with
  | some col => .ok col
  | none => .error .indexOutOfRange

/-- The slice read `b[x][y]`. -/
def readTile (b : board) (x y : Nat) : Except Fault tile :=
  match b[x]? with
  | none => .error .indexOutOfRange
  | some col =>
    match col[y]? with
    | some t => .ok t
    | none => .error .indexOutOfRange

/-- The field assignment `b[x][y].fld = v`, as `b[x][y] = f b[x][y]`. -/
def modifyTile (b : board) (x y : Nat) (f : tile → tile) : Except Fault board :=
  match b[x]? with
  | none => .error .indexOutOfRange
  | some col =>
    match col[y]? with
    | some t => .ok (b.set x (col.set y (f t)))
    | none => .error .indexOutOfRange

/-- The loop `for i := lo; i < hi; i++ { s = body i s }`. -/
def forRange {σ : Type} (lo hi : Nat) (body : Nat → σ → Except Fault σ) (s : σ) :
    Except Fault σ :=
  (List.range' lo (hi - lo)).foldlM (fun s i => body i s) s

/-- The method `minesAdjacentTo`. -/
def minesAdjacentTo (b : board) (x y : Nat) : Except Fault Int :=
  forRange (max 0 (x - 1)) (min b.length (x + 2)) (fun i mineCount =>
    (readCol b i).bind fun col =>
    forRange (max 0 (y - 1)) (min col.length (y + 2)) (fun j mineCount =>
      (readTile b i j).bind fun t =>
      .ok (if t.mine then mineCount + 1 else mineCount)) mineCount) 0

/-- The method `flagsAdjacentTo`. -/
def flagsAdjacentTo (b : board) (x y : Nat) : Except Fault Int :=
  forRange (max 0 (x - 1)) (min b.length (x + 2)) (fun i adjacentFlags =>
    (readCol b i).bind fun col =>
    forRange (max 0 (y - 1)) (min col.length (y + 2)) (fun j adjacentFlags =>
      (readTile b i j).bind fun t =>
      .ok (if t.flagged then adjacentFlags + 1 else adjacentFlags)) adjacentFlags) 0

/-- The method `propagateMineAdjacency`. -/
def propagateMineAdjacency (b : board) : Except Fault board :=
  forRange 0 b.length (fun i b =>
    (readCol b i).bind fun col =>
    forRange 0 col.length (fun j b =>
      (readTile b i j).bind fun t =>
      if t.mine then .ok b
      else
        (minesAdjacentTo b i j).bind fun n =>
        modifyTile b i j (fun t => { t with adjacentMines := n })) b) b

/-- The loop of `propagateMines`: `draws` are the successive pairs of raw
random values, `rand.IntN(n)` being the raw value modulo `n`; the loop
faults with `outOfFuel` when the draws are used up before it ends. -/
def propagateMinesLoop (target : Int) :
    List (Nat × Nat) → Int → board → Except Fault board
  | [], minesPlaced, b =>
    if minesPlaced < target then .error .outOfFuel else .ok b
  | d :: draws, minesPlaced, b =>
    if minesPlaced < target then
      (readCol b 0).bind fun col0 =>
      let px := d.1 % b.length
      let py := d.2 % col0.length
      (readTile b px py).bind fun t =>
      if t.mine == false then
        (modifyTile b px py (fun t => { t with mine := true })).bind fun b =>
        propagateMinesLoop target draws (minesPlaced + 1) b
      else propagateMinesLoop target draws minesPlaced b
    else .ok b

/-- The method `propagateMines`; the loop condition reads `(*b)[0]`. -/
def propagateMines (draws : List (Nat × Nat)) (b : board) (n : Int) : Except Fault board :=
  (readCol b 0).bind fun col0 =>
  propagateMinesLoop (min n ((b.length : Int) * (col0.length : Int))) draws 0 b

/-- The function `newTileGrid`. -/
def newTileGrid (draws : List (Nat × Nat)) (width height : Nat) (numMines : Int) :
    Except Fault board :=
  let grid : board := List.replicate width (List.replicate height ⟨0, false, false, false⟩)
  (propagateMines draws grid numMines).bind fun grid =>
  propagateMineAdjacency grid

/-- The function `NewGame`. -/
def NewGame (draws : List (Nat × Nat)) (boardWidth boardHeight : Nat)
    (numDisarms numMines : Int) (chainRevealing : Bool) : Except Fault Game :=
  (newTileGrid draws boardWidth boardHeight numMines).bind fun b =>
  .ok { State := { GameOver := false, disarms := numDisarms, flags := 0, mines := numMines },
        board := b,
        options := { chainRevealing := chainRevealing } }

/-- The method `disarmAt`. -/
def disarmAt (g : Game) (x y : Nat) : Except Fault Game :=
  (readTile g.board x y).bind fun t =>
  if !t.mine then .ok g
  else
    (modifyTile g.board x y (fun t => { t with mine := false })).bind fun b =>
    let st := { g.State with mines := g.State.mines - 1 }
    (forRange (max 0 (x - 1)) (min b.length (x + 2)) (fun i b =>
      (readCol b i).bind fun col =>
      forRange (max 0 (y - 1)) (min col.length (y + 2)) (fun j b =>
        (readTile b i j).bind fun t =>
        if t.adjacentMines > 0 then
          modifyTile b i j (fun t => { t with adjacentMines := t.adjacentMines - 1 })
        else .ok b) b) b).bind fun b =>
    (minesAdjacentTo b x y).bind fun n =>
    (modifyTile b x y (fun t => { t with adjacentMines := n })).bind fun b =>
    .ok { g with State := st, board := b }

/-- The loops of `revealChain`, over the callee `reveal` of the recursive call. -/
def revealChainWith (reveal : Game → Nat → Nat → Except Fault Game) (g : Game) (x y : Nat) :
    Except Fault Game :=
  forRange (max 0 (x - 1)) (min g.board.length (x + 2)) (fun i g =>
    (readCol g.board 0).bind fun col0 =>
    forRange (max 0 (y - 1)) (min col0.length (y + 2)) (fun j g =>
      (readTile g.board i j).bind fun t =>
      if !t.revealed then reveal g i j else .ok g) g) g

/-- The method `RevealAt`; `fuel` bounds the depth of the recursion through
`revealChain`. -/
def RevealAt : Nat → Game → Nat → Nat → Except Fault Game
  | 0, _, _, _ => .error .outOfFuel
  | fuel + 1, g, x, y =>
    (readTile g.board x y).bind fun t =>
    if t.flagged then .ok g
    else
      (if g.State.disarms > 0 then
        (disarmAt g x y).bind fun g =>
        .ok { g with State := { g.State with disarms := g.State.disarms - 1 } }
      else .ok g).bind fun g =>
      (modifyTile g.board x y (fun t => { t with revealed := true })).bind fun b =>
      let g := { g with board := b }
      (readTile g.board x y).bind fun t =>
      (if t.adjacentMines == 0 && g.options.chainRevealing then
        revealChainWith (RevealAt fuel) g x y
      else .ok g).bind fun g =>
      (readTile g.board x y).bind fun t =>
      if t.mine then .ok { g with State := { g.State with GameOver := true } }
      else .ok g

/-- The method `revealChain`, called from `RevealAt` with one unit of fuel less. -/
def revealChain (fuel : Nat) (g : Game) (x y : Nat) : Except Fault Game :=
  revealChainWith (RevealAt fuel) g x y

/-- The method `SmartReveal`. -/
def SmartReveal (fuel : Nat) (g : Game) (x y : Nat) : Except Fault Game :=
  (readTile g.board x y).bind fun t =>
  if !t.revealed then .ok g
  else
    (flagsAdjacentTo g.board x y).bind fun n =>
    if t.adjacentMines != n then .ok g
    else
      forRange (max 0 (x - 1)) (min g.board.length (x + 2)) (fun i g =>
        (readCol g.board i).bind fun col =>
        forRange (max 0 (y - 1)) (min col.length (y + 2)) (fun j g =>
          (readTile g.board i j).bind fun t =>
          if !t.flagged then RevealAt fuel g i j else .ok g) g) g

/-- The method `ToggleFlaggedAt`. -/
def ToggleFlaggedAt (g : Game) (x y : Nat) : Except Fault Game :=
  if g.State.flags > g.State.mines then .ok g
  else
    (readTile g.board x y).bind fun t =>
    if !t.revealed then
      let st := if t.flagged then { g.State with flags := g.State.flags - 1 }
                else { g.State with flags := g.State.flags + 1 }
      (modifyTile g.board x y (fun t => { t with flagged := !t.flagged })).bind fun b =>
      .ok { g with State := st, board := b }
    else .ok g

/-- The method `UnflaggedMines`. -/
def UnflaggedMines (g : Game) : Int :=
  g.State.mines - g.State.flags

/-! ## Specification vocabulary -/

/-- The tile at `(x, y)`, the default tile outside the board. -/
def tileAt (b : board) (x y : Nat) : tile := ((b[x]?.getD [])[y]?).getD default

/-- A `w × h` rectangle: `w` columns, each of `h` tiles. -/
def Rect (w h : Nat) (b : board) : Prop := b.length = w ∧ ∀ col ∈ b, col.length = h

/-- The board with the tile at `(x, y)` replaced by its image under `f`. -/
def updTile (b : board) (x y : Nat) (f : tile → tile) : board :=
  b.set x ((b[x]?.getD []).set y (f (tileAt b x y)))

/-- The cells visited by two nested loops, in the order of the visits. -/
def cells (lox hix loy hiy : Nat) : List (Nat × Nat) :=
  (List.range' lox (hix - lox)).flatMap fun i => (List.range' loy (hiy - loy)).map fun j => (i, j)

/-- The clamped 3x3 neighbourhood of `(x, y)` on a `w × h` board. -/
def nbhd (w h x y : Nat) : List (Nat × Nat) :=
  cells (max 0 (x - 1)) (min w (x + 2)) (max 0 (y - 1)) (min h (y + 2))

/-- The number of cells of the clamped neighbourhood of `(x, y)` whose tile
satisfies `p`. -/
def countNear (p : tile → Bool) (w h : Nat) (b : board) (x y : Nat) : Nat :=
  (nbhd w h x y).countP fun q => p (tileAt b q.1 q.2)

/-- Written from the claim: the number of mine tiles `(i, j)` inside the
`w × h` grid with `|i - x| ≤ 1` and `|j - y| ≤ 1`. -/
def minesAround (w h : Nat) (b : board) (x y : Nat) : Nat :=
  ((Finset.range w ×ˢ Finset.range h).filter fun q =>
    Int.natAbs ((q.1 : Int) - x) ≤ 1 ∧ Int.natAbs ((q.2 : Int) - y) ≤ 1 ∧
      (tileAt b q.1 q.2).mine = true).card

/-- The tile written by `propagateMineAdjacency`. -/
def setAdj (n : Int) (t : tile) : tile := { t with adjacentMines := n }

/-- A 3x3 board with its only mine at `(1, 1)`, as allocated and mined. -/
def board3 : board :=
  [[⟨0, false, false, false⟩, ⟨0, false, false, false⟩, ⟨0, false, false, false⟩],
   [⟨0, false, false, false⟩, ⟨0, true, false, false⟩, ⟨0, false, false, false⟩],
   [⟨0, false, false, false⟩, ⟨0, false, false, false⟩, ⟨0, false, false, false⟩]]

/-- The tile written by the decrement loop of `disarmAt`. -/
def decAdj (t : tile) : tile :=
  if t.adjacentMines > 0 then { t with adjacentMines := t.adjacentMines - 1 } else t

/-- The adjacency invariant: every non-mine tile of the `w × h` board carries
the number of mines of its clamped 3x3 neighbourhood. -/
def AdjInv (w h : Nat) (b : board) : Prop :=
  ∀ x < w, ∀ y < h, (tileAt b x y).mine = false →
    (tileAt b x y).adjacentMines = (countNear (fun t => t.mine) w h b x y : Nat)

/-- The 3x3 board of scenario 1: the mine at `(1, 1)`, every border tile
carrying `adjacentMines = 1`. -/
def board3adj : board :=
  [[⟨1, false, false, false⟩, ⟨1, false, false, false⟩, ⟨1, false, false, false⟩],
   [⟨1, false, false, false⟩, ⟨0, true, false, false⟩, ⟨1, false, false, false⟩],
   [⟨1, false, false, false⟩, ⟨1, false, false, false⟩, ⟨1, false, false, false⟩]]

/-- A fresh session on `board3adj` with the given mercy credits and chain option. -/
def game3 (disarms : Int) (chain : Bool) : Game :=
  { State := { GameOver := false, disarms := disarms, flags := 0, mines := 1 },
    board := board3adj,
    options := { chainRevealing := chain } }

/-- The mercy step of `RevealAt`: `if disarms > 0 { disarmAt(x, y); disarms-- }`. -/
def mercy (g : Game) (x y : Nat) : Except Fault Game :=
  if g.State.disarms > 0 then
    (disarmAt g x y).bind fun g =>
    .ok { g with State := { g.State with disarms := g.State.disarms - 1 } }
  else .ok g

/-- The session after `board[x][y].revealed = true`. -/
def markRevealed (g : Game) (x y : Nat) : Game :=
  { g with board := updTile g.board x y (fun t => { t with revealed := true }) }

/-- The last statement of `RevealAt`: `if board[x][y].mine { GameOver = true }`. -/
def finish (g : Game) (x y : Nat) : Game :=
  if (tileAt g.board x y).mine then { g with State := { g.State with GameOver := true } }
  else g

/-- One iteration of the loops of `revealChain` at the cell `q`. -/
def chainStep (fuel : Nat) (g : Game) (q : Nat × Nat) : Except Fault Game :=
  if (tileAt g.board q.1 q.2).revealed then .ok g else RevealAt fuel g q.1 q.2

/-- The chain-reveal statement of `RevealAt` on a `w × h` board:
`if adjacentMines == 0 && chainRevealing { revealChain(x, y) }`. -/
def chainPhase (w h fuel : Nat) (g : Game) (x y : Nat) : Except Fault Game :=
  if (tileAt g.board x y).adjacentMines == 0 && g.options.chainRevealing then
    (nbhd w h x y).foldlM (chainStep fuel) g
  else .ok g

/-- The number of tiles of the `w × h` board that are neither revealed nor flagged. -/
def hiddenCount (w h : Nat) (b : board) : Nat :=
  (cells 0 w 0 h).countP fun q => !(tileAt b q.1 q.2).revealed && !(tileAt b q.1 q.2).flagged

/-- The number of mine tiles of the `w × h` board. -/
def mineTotal (w h : Nat) (b : board) : Nat :=
  (cells 0 w 0 h).countP fun q => (tileAt b q.1 q.2).mine

/-- What every call of `RevealAt` leaves alone, relating the session before
(`g`) to the session after (`g'`) on a `w × h` board. -/
structure Frame (w h : Nat) (g g' : Game) : Prop where
  options_eq : g'.options = g.options
  flags_eq : g'.State.flags = g.State.flags
  flagged_eq : ∀ i j, (tileAt g'.board i j).flagged = (tileAt g.board i j).flagged
  revealed_mono : ∀ i j, (tileAt g.board i j).revealed = true →
    (tileAt g'.board i j).revealed = true
  mine_anti : ∀ i j, (tileAt g'.board i j).mine = true → (tileAt g.board i j).mine = true
  gameOver_mono : g.State.GameOver = true → g'.State.GameOver = true
  adjInv : AdjInv w h g.board → AdjInv w h g'.board
  no_credit : g.State.disarms ≤ 0 →
    g'.State.disarms = g.State.disarms ∧ g'.State.mines = g.State.mines ∧
    ∀ i j, (tileAt g'.board i j).mine = (tileAt g.board i j).mine ∧
      (tileAt g'.board i j).adjacentMines = (tileAt g.board i j).adjacentMines
  mines_kept : g'.State.mines - (mineTotal w h g'.board : Int)
    = g.State.mines - (mineTotal w h g.board : Int)

/-- One iteration of the loops of `SmartReveal` at the cell `q`. -/
def smartStep (fuel : Nat) (g : Game) (q : Nat × Nat) : Except Fault Game :=
  if (tileAt g.board q.1 q.2).flagged then .ok g else RevealAt fuel g q.1 q.2

/-- The session `ToggleFlaggedAt` returns at an in-range coordinate. -/
def toggled (g : Game) (x y : Nat) : Game :=
  if g.State.flags > g.State.mines then g
  else if (tileAt g.board x y).revealed then g
  else
    { g with
      State := if (tileAt g.board x y).flagged
        then { g.State with flags := g.State.flags - 1 }
        else { g.State with flags := g.State.flags + 1 }
      board := updTile g.board x y (fun t => { t with flagged := !t.flagged }) }

/-- A sequence of top-level `RevealAt` calls, at the coordinates `cs` in turn. -/
def revealAll (fuel : Nat) (g : Game) (cs : List (Nat × Nat)) : Except Fault Game :=
  cs.foldlM (fun s c => RevealAt fuel s c.1 c.2) g

/-- A 3x1 board: a safe tile with no mine around, a safe tile next to the
mine, and the mine. -/
def board31 : board :=
  [[⟨0, false, false, false⟩], [⟨1, false, false, false⟩], [⟨0, true, false, false⟩]]

/-- A fresh session on `board31` with the given mercy credits and chain option. -/
def game31 (disarms : Int) (chain : Bool) : Game :=
  { State := { GameOver := false, disarms := disarms, flags := 0, mines := 1 },
    board := board31,
    options := { chainRevealing := chain } }

/-- The three public operations, with their coordinate. -/
inductive Op where
  | reveal (x y : Nat)
  | smart (x y : Nat)
  | toggle (x y : Nat)
deriving DecidableEq, Repr

/-- The coordinate an operation is called at. -/
def Op.coord : Op → Nat × Nat
  | .reveal x y => (x, y)
  | .smart x y => (x, y)
  | .toggle x y => (x, y)

/-- One public call on the session. -/
def step (fuel : Nat) (g : Game) : Op → Except Fault Game
  | .reveal x y => RevealAt fuel g x y
  | .smart x y => SmartReveal fuel g x y
  | .toggle x y => ToggleFlaggedAt g x y

/-- A sequence of public calls on the session. -/
def run (fuel : Nat) (g : Game) (ops : List Op) : Except Fault Game :=
  ops.foldlM (step fuel) g

/-- Whatever a reveal adds to the revealed mines comes with `GameOver`. -/
def Blame (g g' : Game) : Prop :=
  ∀ i j, (tileAt g'.board i j).revealed = true → (tileAt g'.board i j).mine = true →
    ((tileAt g.board i j).revealed = true ∧ (tileAt g.board i j).mine = true) ∨
      g'.State.GameOver = true

/-- A 2x2 board with mines at `(0, 0)` and `(1, 1)`. -/
def board22 : board :=
  [[⟨0, true, false, false⟩, ⟨2, false, false, false⟩],
   [⟨2, false, false, false⟩, ⟨0, true, false, false⟩]]

/-- A fresh session on `board22`: two mines, no flag, no credit. -/
def game22 : Game :=
  { State := { GameOver := false, disarms := 0, flags := 0, mines := 2 },
    board := board22,
    options := { chainRevealing := true } }

/-- The session `game3 0 false` after `RevealAt (1, 1)` has revealed the mine
and ended the game. -/
def game3over : Game :=
  { State := { GameOver := true, disarms := 0, flags := 0, mines := 1 },
    board :=
      [[⟨1, false, false, false⟩, ⟨1, false, false, false⟩, ⟨1, false, false, false⟩],
       [⟨1, false, false, false⟩, ⟨0, true, false, true⟩, ⟨1, false, false, false⟩],
       [⟨1, false, false, false⟩, ⟨1, false, false, false⟩, ⟨1, false, false, false⟩]],
    options := { chainRevealing := false } }

/-- An in-range tile that is unflagged, not a mine, and has `adjacentMines = 0`. -/
def ZeroTile (w h : Nat) (b : board) (q : Nat × Nat) : Prop :=
  q.1 < w ∧ q.2 < h ∧ (tileAt b q.1 q.2).flagged = false ∧ (tileAt b q.1 q.2).mine = false ∧
    (tileAt b q.1 q.2).adjacentMines = 0

/-- Two distinct cells that touch by a side or a corner. -/
def Adj8 (p q : Nat × Nat) : Prop :=
  p ≠ q ∧ p.1 ≤ q.1 + 1 ∧ q.1 ≤ p.1 + 1 ∧ p.2 ≤ q.2 + 1 ∧ q.2 ≤ p.2 + 1

/-- The maximal 8-connected region of zero tiles that contains `s`: the cells
reached from `s` by steps between 8-adjacent zero tiles. -/
def Region (w h : Nat) (b : board) (s q : Nat × Nat) : Prop :=
  Relation.ReflTransGen (fun a c => ZeroTile w h b a ∧ ZeroTile w h b c ∧ Adj8 a c) s q

/-- The cells the claim says a reveal at `s` opens: the region of `s` and the
unflagged in-range cells 8-adjacent to a cell of the region. -/
def Opened (w h : Nat) (b : board) (s q : Nat × Nat) : Prop :=
  Region w h b s q ∨
    (q.1 < w ∧ q.2 < h ∧ (tileAt b q.1 q.2).flagged = false ∧ ∃ p, Region w h b s p ∧ Adj8 p q)

/-- The session has no mercy credit and its tiles carry the flags, counts and
mines of the board `b0`. -/
def Static (b0 : board) (g : Game) : Prop :=
  g.State.disarms ≤ 0 ∧
  ∀ i j, (tileAt g.board i j).flagged = (tileAt b0 i j).flagged ∧
    (tileAt g.board i j).adjacentMines = (tileAt b0 i j).adjacentMines ∧
    (tileAt g.board i j).mine = (tileAt b0 i j).mine

/-- Every revealed unflagged tile with `adjacentMines = 0` outside `E` has its
unflagged neighbours revealed. -/
def Done (w h : Nat) (b0 : board) (E : Nat × Nat → Prop) (g : Game) : Prop :=
  ∀ q : Nat × Nat, q.1 < w → q.2 < h → (tileAt g.board q.1 q.2).revealed = true → ¬ E q →
    (tileAt b0 q.1 q.2).flagged = false → (tileAt b0 q.1 q.2).adjacentMines = 0 →
    ∀ r ∈ nbhd w h q.1 q.2, (tileAt b0 r.1 r.2).flagged = false →
      (tileAt g.board r.1 r.2).revealed = true

/-- The 5x5 board of scenario 3: no mine, no flag, nothing revealed. -/
def board5 : board :=
  List.replicate 5 (List.replicate 5 ⟨0, false, false, false⟩)

/-- A fresh session on `board5` with chain reveal enabled. -/
def game5 : Game :=
  { State := { GameOver := false, disarms := 0, flags := 0, mines := 0 },
    board := board5,
    options := { chainRevealing := true } }

/-- The board `board5` with every tile revealed. -/
def board5open : board :=
  List.replicate 5 (List.replicate 5 ⟨0, false, false, true⟩)

/-- What every call of `RevealAt` leaves alone besides `Frame`: a flagged tile
keeps its `revealed` field, and the mercy credits only go down, never below
zero. -/
structure Keeps (g g' : Game) : Prop where
  frozen : ∀ i j, (tileAt g.board i j).flagged = true →
    (tileAt g'.board i j).revealed = (tileAt g.board i j).revealed
  disarms_le : g'.State.disarms ≤ g.State.disarms
  disarms_nonneg : 0 ≤ g.State.disarms → 0 ≤ g'.State.disarms

/-- The number of flagged tiles of the `w × h` board. -/
def flagTotal (w h : Nat) (b : board) : Nat :=
  (cells 0 w 0 h).countP fun q => (tileAt b q.1 q.2).flagged

/-- The session `game3 1 true` after `ToggleFlaggedAt (1, 1)`: the mine is
flagged. -/
def game3flagged : Game :=
  { State := { GameOver := false, disarms := 1, flags := 1, mines := 1 },
    board :=
      [[⟨1, false, false, false⟩, ⟨1, false, false, false⟩, ⟨1, false, false, false⟩],
       [⟨1, false, false, false⟩, ⟨0, true, true, false⟩, ⟨1, false, false, false⟩],
       [⟨1, false, false, false⟩, ⟨1, false, false, false⟩, ⟨1, false, false, false⟩]],
    options := { chainRevealing := true } }

/-- The session `game22` after `RevealAt (0, 1)` and `ToggleFlaggedAt (0, 0)`:
the revealed tile shows 2 and has one flagged neighbour. -/
def game22one : Game :=
  { State := { GameOver := false, disarms := 0, flags := 1, mines := 2 },
    board :=
      [[⟨0, true, true, false⟩, ⟨2, false, false, true⟩],
       [⟨2, false, false, false⟩, ⟨0, true, false, false⟩]],
    options := { chainRevealing := true } }

/-- The session `game22one` after `ToggleFlaggedAt (1, 1)`: the revealed tile
shows 2 and has two flagged neighbours. -/
def game22two : Game :=
  { State := { GameOver := false, disarms := 0, flags := 2, mines := 2 },
    board :=
      [[⟨0, true, true, false⟩, ⟨2, false, false, true⟩],
       [⟨2, false, false, false⟩, ⟨0, true, true, false⟩]],
    options := { chainRevealing := true } }

/-- Every tile is as `make` allocated it, but for its `mine` field. -/
def Fresh (b : board) : Prop :=
  ∀ i j, (tileAt b i j).flagged = false ∧ (tileAt b i j).revealed = false ∧
    (tileAt b i j).adjacentMines = 0

/-- The call did not panic on a slice index. -/
def NoPanic {α : Type} (r : Except Fault α) : Prop :=
  r ≠ .error .indexOutOfRange

/-- No tile is both flagged and revealed. -/
def Excl (b : board) : Prop :=
  ∀ i j, ¬ ((tileAt b i j).flagged = true ∧ (tileAt b i j).revealed = true)

/-- The adjacency counts of the `w × h` board are right: every non-mine tile
`(x, y)` carries the number of mine tiles `(i, j)` of the grid with
`|i - x| ≤ 1` and `|j - y| ≤ 1`, which is what `minesAdjacentTo (x, y)`
returns, and every mine tile carries 0. -/
def Counted (w h : Nat) (b : board) : Prop :=
  ∀ x < w, ∀ y < h,
    ((tileAt b x y).mine = false →
      (tileAt b x y).adjacentMines = (minesAround w h b x y : Nat) ∧
      minesAdjacentTo b x y = .ok (tileAt b x y).adjacentMines) ∧
    ((tileAt b x y).mine = true → (tileAt b x y).adjacentMines = 0)

/-- A call of `RevealAt (x, y)` that chain-reveals an unflagged tile: chain
reveal is enabled, the tile has `adjacentMines = 0` once the mercy step has
run (`g1` is the session after it), and some other tile of the clamped
neighbourhood is neither revealed nor flagged. -/
def Chains (w h : Nat) (g g1 : Game) (x y : Nat) : Prop :=
  g.options.chainRevealing = true ∧ (tileAt g1.board x y).adjacentMines = 0 ∧
  ∃ q ∈ nbhd w h x y, q ≠ (x, y) ∧ (tileAt g.board q.1 q.2).revealed = false ∧
    (tileAt g.board q.1 q.2).flagged = false

/-! ## Theorems -/

theorem Rect.col_length {w h : Nat} {b : board} (hb : Rect w h b) {x : Nat} (hx : x < w) :
    ∃ col, b[x]? = some col ∧ col.length = h := by
  obtain ⟨hl, hc⟩ := hb
  have hx' : x < b.length := by omega
  refine ⟨b[x], List.getElem?_eq_getElem hx', hc _ (List.getElem_mem _)⟩

theorem readCol_ok {w h : Nat} {b : board} (hb : Rect w h b) {x : Nat} (hx : x < w) :
    ∃ col, readCol b x = .ok col ∧ col.length = h := by
  obtain ⟨col, h1, h2⟩ := hb.col_length hx
  exact ⟨col, by simp [readCol, h1], h2⟩

theorem readTile_ok {w h : Nat} {b : board} (hb : Rect w h b) {x y : Nat} (hx : x < w)
    (hy : y < h) : readTile b x y = .ok (tileAt b x y) := by
  obtain ⟨col, h1, h2⟩ := hb.col_length hx
  have hy' : y < col.length := by omega
  simp [readTile, tileAt, h1, List.getElem?_eq_getElem hy']

theorem modifyTile_ok {w h : Nat} {b : board} (hb : Rect w h b) {x y : Nat} (hx : x < w)
    (hy : y < h) (f : tile → tile) : modifyTile b x y f = .ok (updTile b x y f) := by
  obtain ⟨col, h1, h2⟩ := hb.col_length hx
  have hy' : y < col.length := by omega
  simp [modifyTile, updTile, tileAt, h1, List.getElem?_eq_getElem hy']

theorem Rect.updTile {w h : Nat} {b : board} (hb : Rect w h b) (x y : Nat) (f : tile → tile) :
    Rect w h (updTile b x y f) := by
  obtain ⟨hl, hc⟩ := hb
  refine ⟨by simp [Minesweeper.updTile, hl], ?_⟩
  intro col hcol
  by_cases hx : x < b.length
  · rcases List.mem_or_eq_of_mem_set hcol with h1 | h1
    · exact hc _ h1
    · subst h1
      simp only [List.length_set]
      simp [List.getElem?_eq_getElem hx]; exact hc _ (List.getElem_mem _)
  · rw [Minesweeper.updTile, List.set_eq_of_length_le (Nat.le_of_not_lt hx)] at hcol
    exact hc _ hcol

theorem tileAt_updTile {w h : Nat} {b : board} (hb : Rect w h b) {x y : Nat} (hx : x < w)
    (hy : y < h) (f : tile → tile) (i j : Nat) :
    tileAt (updTile b x y f) i j = if i = x ∧ j = y then f (tileAt b x y) else tileAt b i j := by
  obtain ⟨col, h1, h2⟩ := hb.col_length hx
  have hxl : x < b.length := by rw [hb.1]; exact hx
  have hy' : y < col.length := by omega
  by_cases hi : i = x
  · subst hi
    by_cases hj : j = y
    · subst hj
      simp [tileAt, updTile, h1, List.getElem?_set, hxl, hy']
    · simp [tileAt, updTile, h1, List.getElem?_set, hxl, hy', hj, Ne.symm hj]
  · simp [tileAt, updTile, h1, List.getElem?_set, hxl, hy', hi, Ne.symm hi]

theorem bind_eq_ok {α β : Type} {e : Except Fault α} {f : α → Except Fault β} {v : β}
    (hbind : e.bind f = .ok v) : ∃ a, e = .ok a ∧ f a = .ok v := by
  cases e with
  | error err => simp [Except.bind] at hbind
  | ok a => exact ⟨a, rfl, hbind⟩

theorem ok_bind {α β : Type} (a : α) (f : α → Except Fault β) :
    (Except.ok a : Except Fault α).bind f = f a := rfl

theorem ok_bind_m {α β : Type} (a : α) (f : α → Except Fault β) :
    ((Except.ok a : Except Fault α) >>= f) = f a := rfl

theorem mem_cells {lox hix loy hiy : Nat} {p : Nat × Nat} :
    p ∈ cells lox hix loy hiy ↔ (lox ≤ p.1 ∧ p.1 < hix) ∧ (loy ≤ p.2 ∧ p.2 < hiy) := by
  obtain ⟨i, j⟩ := p
  simp only [cells, List.mem_flatMap, List.mem_map, List.mem_range', Prod.mk.injEq]
  constructor
  · rintro ⟨a, ⟨k, hk, rfl⟩, b, ⟨l, hl, rfl⟩, rfl, rfl⟩
    omega
  · rintro ⟨⟨h1, h2⟩, h3, h4⟩
    exact ⟨i, ⟨i - lox, by omega, by omega⟩, j, ⟨j - loy, by omega, by omega⟩, rfl, rfl⟩

theorem mem_nbhd {w h x y : Nat} {p : Nat × Nat} :
    p ∈ nbhd w h x y ↔ p.1 < w ∧ p.2 < h ∧ x ≤ p.1 + 1 ∧ p.1 ≤ x + 1 ∧ y ≤ p.2 + 1 ∧ p.2 ≤ y + 1 := by
  rw [nbhd, mem_cells]; omega

theorem nodup_cells (lox hix loy hiy : Nat) : (cells lox hix loy hiy).Nodup := by
  unfold cells
  rw [List.nodup_flatMap]
  refine ⟨fun i _ => (List.nodup_range' _ _).map (fun a b hab => by simpa using hab), ?_⟩
  refine (List.nodup_range' _ _).pairwise_of_forall_ne ?_
  intro a _ b _ hab
  simp only [Function.onFun, List.Disjoint, List.mem_map]
  rintro p ⟨_, _, rfl⟩ ⟨_, _, hp⟩
  simp at hp
  exact hab hp.1.symm

theorem forRange_eq {σ : Type} (lo hi : Nat) (body : Nat → σ → Except Fault σ) (s : σ) :
    forRange lo hi body s = (List.range' lo (hi - lo)).foldlM (fun s i => body i s) s := rfl

/-- Partial-correctness rule of a fold: an invariant kept by every step that
returns is kept by the fold when it returns. -/
theorem foldlM_keeps {σ α : Type} (I : σ → Prop) (f : σ → α → Except Fault σ) (l : List α)
    (hstep : ∀ a ∈ l, ∀ s s', I s → f s a = .ok s' → I s') :
    ∀ s s', I s → l.foldlM f s = .ok s' → I s' := by
  induction l with
  | nil => intro s s' hs h; simp [pure, Except.pure] at h; subst h; exact hs
  | cons a l ih =>
    intro s s' hs h
    rw [List.foldlM_cons] at h
    obtain ⟨s1, h1, h2⟩ := bind_eq_ok h
    exact ih (fun b hb => hstep b (List.mem_cons_of_mem _ hb)) s1 s'
      (hstep a (List.mem_cons_self _ _) s s1 hs h1) h2

/-- Total-correctness rule of a fold: if every step returns and keeps the
invariant, so does the fold. -/
theorem foldlM_total {σ α : Type} (I : σ → Prop) (f : σ → α → Except Fault σ) (l : List α)
    (hstep : ∀ a ∈ l, ∀ s, I s → ∃ s', f s a = .ok s' ∧ I s') :
    ∀ s, I s → ∃ s', l.foldlM f s = .ok s' ∧ I s' := by
  induction l with
  | nil => intro s hs; exact ⟨s, rfl, hs⟩
  | cons a l ih =>
    intro s hs
    obtain ⟨s1, h1, hs1⟩ := hstep a (List.mem_cons_self _ _) s hs
    obtain ⟨s2, h2, hs2⟩ := ih (fun b hb => hstep b (List.mem_cons_of_mem _ hb)) s1 hs1
    refine ⟨s2, ?_, hs2⟩
    rw [List.foldlM_cons, h1]; exact h2

theorem nested_list_fold {σ γ : Type} (D : σ → Prop) (rd : σ → Nat → Except Fault γ) (k : γ → Nat)
    (body : Nat → Nat → σ → Except Fault σ) (P : Nat → Prop) (loy hiy : Nat)
    (hrd : ∀ s i, P i → D s → ∃ c, rd s i = .ok c ∧ k c = hiy)
    (hD : ∀ s s' i j, D s → body i j s = .ok s' → D s') (li : List Nat) :
    (∀ i ∈ li, P i) → ∀ s, D s →
    li.foldlM (fun s i => (rd s i).bind fun c => forRange loy (k c) (body i) s) s
      = (li.flatMap fun i => (List.range' loy (hiy - loy)).map fun j => (i, j)).foldlM
          (fun s p => body p.1 p.2 s) s := by
  induction li with
  | nil => intro _ s _; rfl
  | cons i li ih =>
    intro hP s hs
    obtain ⟨c, hc, hk⟩ := hrd s i (hP i (List.mem_cons_self _ _)) hs
    rw [List.foldlM_cons, hc, List.flatMap_cons, List.foldlM_append, List.foldlM_map]
    simp only [Except.bind, hk, forRange_eq]
    cases hin : List.foldlM (fun s j => body i j s) s (List.range' loy (hiy - loy)) with
    | error e => rfl
    | ok s1 =>
      have hs1 : D s1 := foldlM_keeps D _ _ (fun j _ t t' ht hb => hD t t' i j ht hb) s s1 hs hin
      exact ih (fun j hj => hP j (List.mem_cons_of_mem _ hj)) s1 hs1

/-- Two nested loops whose inner bound is the same at every entry are one
fold over the visited cells. -/
theorem nested_eq_fold {σ γ : Type} (D : σ → Prop) (rd : σ → Nat → Except Fault γ) (k : γ → Nat)
    (body : Nat → Nat → σ → Except Fault σ) (lox hix loy hiy : Nat)
    (hrd : ∀ s i, lox ≤ i → i < hix → D s → ∃ c, rd s i = .ok c ∧ k c = hiy)
    (hD : ∀ s s' i j, D s → body i j s = .ok s' → D s') (s : σ) (hs : D s) :
    forRange lox hix (fun i s => (rd s i).bind fun c => forRange loy (k c) (body i) s) s
      = (cells lox hix loy hiy).foldlM (fun s p => body p.1 p.2 s) s := by
  rw [forRange_eq, cells]
  refine nested_list_fold D rd k body (fun i => lox ≤ i ∧ i < hix) loy hiy
    (fun s i hi => hrd s i hi.1 hi.2) hD _ ?_ s hs
  intro i hi
  rw [List.mem_range'] at hi
  obtain ⟨k, hk, rfl⟩ := hi
  omega

theorem count_fold {w h : Nat} {b : board} (hb : Rect w h b) (p : tile → Bool)
    (l : List (Nat × Nat)) (hl : ∀ q ∈ l, q.1 < w ∧ q.2 < h) (c : Int) :
    l.foldlM (fun (c : Int) q => (readTile b q.1 q.2).bind fun t =>
        Except.ok (if p t then c + 1 else c)) c
      = (.ok (c + (l.countP fun q => p (tileAt b q.1 q.2) : Nat)) : Except Fault Int) := by
  induction l generalizing c with
  | nil => simp [pure, Except.pure]
  | cons q l ih =>
    have hq := hl q (List.mem_cons_self _ _)
    rw [List.foldlM_cons, readTile_ok hb hq.1 hq.2, ok_bind, ok_bind_m]
    rw [ih (fun r hr => hl r (List.mem_cons_of_mem _ hr))]
    by_cases hp : p (tileAt b q.1 q.2) = true
    · simp [List.countP_cons, hp]; omega
    · simp [List.countP_cons, hp]

theorem readCol_bound {w h : Nat} {b : board} (hb : Rect w h b) (x y i : Nat) (hi : i < min w (x + 2)) :
    ∃ c, readCol b i = .ok c ∧ min c.length (y + 2) = min h (y + 2) := by
  obtain ⟨c, h1, h2⟩ := readCol_ok hb (show i < w by omega)
  exact ⟨c, h1, by rw [h2]⟩

theorem minesAdjacentTo_ok {w h : Nat} {b : board} (hb : Rect w h b) (x y : Nat) :
    minesAdjacentTo b x y = .ok (countNear (fun t => t.mine) w h b x y : Nat) := by
  unfold minesAdjacentTo
  rw [hb.1]
  rw [nested_eq_fold (fun _ => True) (fun _ i => readCol b i) (fun c => min c.length (y + 2))
    (fun i j mineCount => (readTile b i j).bind fun t =>
      .ok (if t.mine then mineCount + 1 else mineCount)) _ _ _ (min h (y + 2))
    (fun s i _ hi _ => readCol_bound hb x y i hi) (fun _ _ _ _ _ _ => trivial) 0 trivial]
  have := count_fold hb (fun t => t.mine) (nbhd w h x y)
    (fun q hq => by rw [mem_nbhd] at hq; exact ⟨hq.1, hq.2.1⟩) 0
  simpa [countNear, nbhd] using this

theorem flagsAdjacentTo_ok {w h : Nat} {b : board} (hb : Rect w h b) (x y : Nat) :
    flagsAdjacentTo b x y = .ok (countNear (fun t => t.flagged) w h b x y : Nat) := by
  unfold flagsAdjacentTo
  rw [hb.1]
  rw [nested_eq_fold (fun _ => True) (fun _ i => readCol b i) (fun c => min c.length (y + 2))
    (fun i j adjacentFlags => (readTile b i j).bind fun t =>
      .ok (if t.flagged then adjacentFlags + 1 else adjacentFlags)) _ _ _ (min h (y + 2))
    (fun s i _ hi _ => readCol_bound hb x y i hi) (fun _ _ _ _ _ _ => trivial) 0 trivial]
  have := count_fold hb (fun t => t.flagged) (nbhd w h x y)
    (fun q hq => by rw [mem_nbhd] at hq; exact ⟨hq.1, hq.2.1⟩) 0
  simpa [countNear, nbhd] using this

theorem countNear_congr (p : tile → Bool) (w h : Nat) {b b' : board}
    (hbb : ∀ i j, p (tileAt b i j) = p (tileAt b' i j)) (x y : Nat) :
    countNear p w h b x y = countNear p w h b' x y := by
  unfold countNear
  congr 1
  funext q
  exact hbb q.1 q.2

theorem nodup_nbhd (w h x y : Nat) : (nbhd w h x y).Nodup := nodup_cells _ _ _ _

theorem countNear_mine_eq (w h : Nat) (b : board) (x y : Nat) :
    countNear (fun t => t.mine) w h b x y = minesAround w h b x y := by
  unfold countNear minesAround
  rw [List.countP_eq_length_filter, ← List.toFinset_card_of_nodup
    ((nodup_nbhd w h x y).filter _)]
  congr 1
  ext q
  simp only [List.mem_toFinset, List.mem_filter, mem_nbhd, Finset.mem_filter, Finset.mem_product,
    Finset.mem_range]
  constructor
  · rintro ⟨⟨h1, h2, h3, h4, h5, h6⟩, h7⟩
    exact ⟨⟨h1, h2⟩, by omega, by omega, h7⟩
  · rintro ⟨⟨h1, h2⟩, h3, h4, h7⟩
    exact ⟨⟨h1, h2, by omega, by omega, by omega, by omega⟩, h7⟩

theorem propagate_fold {w h : Nat} (b0 : board) (l : List (Nat × Nat)) (hnd : l.Nodup)
    (hl : ∀ q ∈ l, q.1 < w ∧ q.2 < h) :
    ∀ b, Rect w h b → (∀ i j, (tileAt b i j).mine = (tileAt b0 i j).mine) →
    ∃ b', l.foldlM (fun b q => (readTile b q.1 q.2).bind fun t =>
        if t.mine then Except.ok b
        else (minesAdjacentTo b q.1 q.2).bind fun n =>
          modifyTile b q.1 q.2 (fun t => { t with adjacentMines := n })) b = .ok b' ∧
      Rect w h b' ∧
      ∀ i j, i < w → j < h →
        tileAt b' i j = if (i, j) ∈ l ∧ (tileAt b0 i j).mine = false
          then setAdj (countNear (fun t => t.mine) w h b0 i j) (tileAt b i j)
          else tileAt b i j := by
  induction l with
  | nil => intro b hb _; exact ⟨b, rfl, hb, by simp⟩
  | cons q l ih =>
    intro b hb hm
    have hq := hl q (List.mem_cons_self _ _)
    have hql : q ∉ l := (List.nodup_cons.1 hnd).1
    rw [List.foldlM_cons, readTile_ok hb hq.1 hq.2, ok_bind]
    by_cases hmine : (tileAt b q.1 q.2).mine = true
    · rw [if_pos hmine, ok_bind_m]
      obtain ⟨b', h1, h2, h3⟩ := ih (List.nodup_cons.1 hnd).2
        (fun r hr => hl r (List.mem_cons_of_mem _ hr)) b hb hm
      refine ⟨b', h1, h2, fun i j hi hj => ?_⟩
      rw [h3 i j hi hj]
      by_cases hij : (i, j) = q
      · subst hij
        have : (tileAt b0 i j).mine = true := by rw [← hm]; exact hmine
        simp [hql, this]
      · simp [hij]
    · rw [if_neg hmine, minesAdjacentTo_ok hb, ok_bind, modifyTile_ok hb hq.1 hq.2, ok_bind_m]
      have hb1 := hb.updTile q.1 q.2 (fun t => { t with adjacentMines :=
        ((countNear (fun t => t.mine) w h b q.1 q.2 : Nat) : Int) })
      obtain ⟨b', h1, h2, h3⟩ := ih (List.nodup_cons.1 hnd).2
        (fun r hr => hl r (List.mem_cons_of_mem _ hr)) _ hb1 (by
          intro i j
          rw [tileAt_updTile hb hq.1 hq.2, ← hm]
          split
          · next hh => rw [hh.1, hh.2]
          · rfl)
      refine ⟨b', h1, h2, fun i j hi hj => ?_⟩
      rw [h3 i j hi hj, tileAt_updTile hb hq.1 hq.2]
      have hc : countNear (fun t => t.mine) w h b q.1 q.2
          = countNear (fun t => t.mine) w h b0 q.1 q.2 :=
        countNear_congr _ w h (fun i j => by simp [hm]) _ _
      by_cases hij : (i, j) = q
      · subst hij
        have : (tileAt b0 i j).mine = false := by
          rw [← hm]; simpa using hmine
        simp [hql, this, setAdj, hc]
      · have hij' : ¬ (i = q.1 ∧ j = q.2) := fun hh => hij (Prod.ext hh.1 hh.2)
        simp [hij, hij']

theorem modifyTile_eq {b b' : board} {x y : Nat} {f : tile → tile}
    (hm : modifyTile b x y f = .ok b') : b' = updTile b x y f := by
  unfold modifyTile at hm
  cases hx : b[x]? with
  | none => simp [hx] at hm
  | some col =>
    cases hy : col[y]? with
    | none => simp [hx, hy] at hm
    | some t =>
      simp only [hx, hy, Except.ok.injEq] at hm
      simp [updTile, tileAt, hx, hy, ← hm]

theorem modifyTile_rect {w h : Nat} {b b' : board} {x y : Nat} {f : tile → tile}
    (hm : modifyTile b x y f = .ok b') (hb : Rect w h b) : Rect w h b' := by
  rw [modifyTile_eq hm]; exact hb.updTile x y f

/-- The board `propagateMineAdjacency` returns, tile by tile: the non-mine
tiles get the mine count of their neighbourhood, nothing else is written. -/
theorem propagateMineAdjacency_tiles {w h : Nat} {b : board} (hb : Rect w h b) :
    ∃ b', propagateMineAdjacency b = .ok b' ∧ Rect w h b' ∧
      ∀ i j, i < w → j < h →
        tileAt b' i j = if (i, j) ∈ cells 0 w 0 h ∧ (tileAt b i j).mine = false
          then setAdj (countNear (fun t => t.mine) w h b i j) (tileAt b i j)
          else tileAt b i j := by
  obtain ⟨b', h1, h2, h3⟩ := propagate_fold (w := w) (h := h) b (cells 0 w 0 h)
    (nodup_cells _ _ _ _) (fun q hq => by rw [mem_cells] at hq; exact ⟨hq.1.2, hq.2.2⟩)
    b hb (fun _ _ => rfl)
  have hfold : propagateMineAdjacency b = .ok b' := by
    unfold propagateMineAdjacency
    rw [hb.1, nested_eq_fold (Rect w h) (fun s i => readCol s i) (fun c => c.length)
      (fun i j b => (readTile b i j).bind fun t =>
        if t.mine then Except.ok b
        else (minesAdjacentTo b i j).bind fun n =>
          modifyTile b i j (fun t => { t with adjacentMines := n })) 0 w 0 h
      (fun s i _ hi hs => readCol_ok hs hi) ?_ b hb]
    · exact h1
    · intro s s' i j hs hbody
      obtain ⟨t, _, ht⟩ := bind_eq_ok hbody
      split at ht
      · cases ht; exact hs
      · obtain ⟨n, _, hn⟩ := bind_eq_ok ht
        exact modifyTile_rect hn hs
  exact ⟨b', hfold, h2, h3⟩

/-- The adjacency pass.  On every rectangular board whose tiles still carry
the `adjacentMines = 0` they were allocated with, whatever the placement of
the mines, `propagateMineAdjacency` returns a board of the same shape with
the same mines on which every non-mine tile `(x, y)` has `adjacentMines`
equal to the number of mine tiles `(i, j)` of the grid with `|i - x| ≤ 1` and
`|j - y| ≤ 1`, which is the value `minesAdjacentTo (x, y)` returns there, and
every mine tile has `adjacentMines = 0`. -/
theorem propagateMineAdjacency_counts (w h : Nat) (b : board) (hb : Rect w h b)
    (hfresh : ∀ x < w, ∀ y < h, (tileAt b x y).adjacentMines = 0) :
    ∃ b', propagateMineAdjacency b = .ok b' ∧ Rect w h b' ∧
      ∀ x < w, ∀ y < h,
        (tileAt b' x y).mine = (tileAt b x y).mine ∧
        ((tileAt b' x y).mine = false →
          (tileAt b' x y).adjacentMines = (minesAround w h b' x y : Nat) ∧
          minesAdjacentTo b' x y = .ok (tileAt b' x y).adjacentMines) ∧
        ((tileAt b' x y).mine = true → (tileAt b' x y).adjacentMines = 0) := by
  obtain ⟨b', hfold, h2, h3⟩ := propagateMineAdjacency_tiles hb
  have hmine : ∀ i j, (tileAt b' i j).mine = (tileAt b i j).mine ∨ ¬ (i < w ∧ j < h) := by
    intro i j
    by_cases hij : i < w ∧ j < h
    · left
      rw [h3 i j hij.1 hij.2]
      split <;> rfl
    · exact Or.inr hij
  have hcount : ∀ x y, countNear (fun t => t.mine) w h b' x y
      = countNear (fun t => t.mine) w h b x y := by
    intro x y
    unfold countNear
    apply List.countP_congr
    intro q hq
    rw [mem_nbhd] at hq
    rcases hmine q.1 q.2 with hh | hh
    · simp [hh]
    · exact absurd ⟨hq.1, hq.2.1⟩ hh
  refine ⟨b', hfold, h2, fun x hx y hy => ?_⟩
  have hmxy : (tileAt b' x y).mine = (tileAt b x y).mine := by
    rcases hmine x y with hh | hh
    · exact hh
    · exact absurd ⟨hx, hy⟩ hh
  have hin : (x, y) ∈ cells 0 w 0 h := by rw [mem_cells]; simp [hx, hy]
  refine ⟨hmxy, fun hm => ?_, fun hm => ?_⟩
  · have hadj : (tileAt b' x y).adjacentMines = (minesAround w h b' x y : Nat) := by
      rw [← countNear_mine_eq, hcount, h3 x y hx hy, if_pos ⟨hin, by rw [← hmxy]; exact hm⟩]
      rfl
    refine ⟨hadj, ?_⟩
    rw [minesAdjacentTo_ok h2, hadj, countNear_mine_eq]
  · rw [h3 x y hx hy, if_neg (by rw [← hmxy, hm]; simp)]
    exact hfresh x hx y hy

theorem rect_board3 : Rect 3 3 board3 := ⟨rfl, by decide⟩

theorem dec_fold {w h : Nat} (l : List (Nat × Nat)) (hnd : l.Nodup)
    (hl : ∀ q ∈ l, q.1 < w ∧ q.2 < h) :
    ∀ b, Rect w h b →
    ∃ b', l.foldlM (fun b q => (readTile b q.1 q.2).bind fun t =>
        if t.adjacentMines > 0 then
          modifyTile b q.1 q.2 (fun t => { t with adjacentMines := t.adjacentMines - 1 })
        else Except.ok b) b = .ok b' ∧
      Rect w h b' ∧
      ∀ i j, tileAt b' i j = if (i, j) ∈ l then decAdj (tileAt b i j) else tileAt b i j := by
  induction l with
  | nil => intro b hb; exact ⟨b, rfl, hb, by simp⟩
  | cons q l ih =>
    intro b hb
    have hq := hl q (List.mem_cons_self _ _)
    have hql : q ∉ l := (List.nodup_cons.1 hnd).1
    have ih' := ih (List.nodup_cons.1 hnd).2 (fun r hr => hl r (List.mem_cons_of_mem _ hr))
    rw [List.foldlM_cons, readTile_ok hb hq.1 hq.2, ok_bind]
    by_cases hpos : (tileAt b q.1 q.2).adjacentMines > 0
    · rw [if_pos hpos, modifyTile_ok hb hq.1 hq.2, ok_bind_m]
      obtain ⟨b', h1, h2, h3⟩ := ih' _ (hb.updTile q.1 q.2 _)
      refine ⟨b', h1, h2, fun i j => ?_⟩
      rw [h3 i j, tileAt_updTile hb hq.1 hq.2]
      by_cases hij : (i, j) = q
      · subst hij
        simp [hql, decAdj, hpos]
      · have hij' : ¬ (i = q.1 ∧ j = q.2) := fun hh => hij (Prod.ext hh.1 hh.2)
        simp [hij, hij']
    · rw [if_neg hpos, ok_bind_m]
      obtain ⟨b', h1, h2, h3⟩ := ih' b hb
      refine ⟨b', h1, h2, fun i j => ?_⟩
      rw [h3 i j]
      by_cases hij : (i, j) = q
      · subst hij
        simp [hql, decAdj, hpos]
      · simp [hij]

theorem nbhd_symm {w h x y i j : Nat} (hx : x < w) (hy : y < h) (hi : i < w) (hj : j < h) :
    (x, y) ∈ nbhd w h i j ↔ (i, j) ∈ nbhd w h x y := by
  simp only [mem_nbhd]; omega

theorem self_mem_nbhd {w h x y : Nat} (hx : x < w) (hy : y < h) : (x, y) ∈ nbhd w h x y := by
  simp only [mem_nbhd]; omega

theorem countP_flip {α : Type} (p q : α → Bool) (a : α) (hp : p a = true)
    (hq : q a = false) (hpq : ∀ c, c ≠ a → q c = p c) (l : List α) (hnd : l.Nodup) :
    (a ∈ l → l.countP q + 1 = l.countP p) ∧ (a ∉ l → l.countP q = l.countP p) := by
  induction l with
  | nil => simp
  | cons c l ih =>
    have hcl : c ∉ l := (List.nodup_cons.1 hnd).1
    have ih' := ih (List.nodup_cons.1 hnd).2
    by_cases hca : c = a
    · subst hca
      have := ih'.2 hcl
      simp [List.countP_cons, hp, hq, this]
    · have hac : a ≠ c := fun hh => hca hh.symm
      rw [List.countP_cons, List.countP_cons, hpq c hca]
      simp only [List.mem_cons, hac, false_or]
      constructor
      · intro hh; have := ih'.1 hh; omega
      · intro hh; have := ih'.2 hh; omega

/-- Clearing the mine at `(x, y)` lowers the count of exactly the tiles that
have `(x, y)` in their neighbourhood, by one. -/
theorem countNear_clear {w h : Nat} {b b' : board} {x y : Nat}
    (hmine : (tileAt b x y).mine = true) (hclear : (tileAt b' x y).mine = false)
    (hsame : ∀ i j, ¬ (i = x ∧ j = y) → (tileAt b' i j).mine = (tileAt b i j).mine)
    (i j : Nat) :
    ((x, y) ∈ nbhd w h i j → countNear (fun t => t.mine) w h b' i j + 1
      = countNear (fun t => t.mine) w h b i j) ∧
    ((x, y) ∉ nbhd w h i j → countNear (fun t => t.mine) w h b' i j
      = countNear (fun t => t.mine) w h b i j) := by
  unfold countNear
  refine countP_flip (fun c => (tileAt b c.1 c.2).mine) (fun c => (tileAt b' c.1 c.2).mine)
    (x, y) hmine hclear ?_ _ (nodup_nbhd w h i j)
  intro c hc
  exact hsame c.1 c.2 (fun hh => hc (Prod.ext hh.1 hh.2))

theorem disarmAt_spec {w h : Nat} {g : Game} (hb : Rect w h g.board) {x y : Nat} (hx : x < w)
    (hy : y < h) :
    ∃ g', disarmAt g x y = .ok g' ∧ Rect w h g'.board ∧ g'.options = g.options ∧
      ((tileAt g.board x y).mine = false → g' = g) ∧
      ((tileAt g.board x y).mine = true →
        g'.State = { g.State with mines := g.State.mines - 1 } ∧
        ∀ i j, tileAt g'.board i j =
          if i = x ∧ j = y then
            { tileAt g.board x y with
              mine := false
              adjacentMines := (countNear (fun t => t.mine) w h g'.board x y : Nat) }
          else if (i, j) ∈ nbhd w h x y then decAdj (tileAt g.board i j)
          else tileAt g.board i j) := by
  unfold disarmAt
  rw [readTile_ok hb hx hy, ok_bind]
  by_cases hm : (tileAt g.board x y).mine = true
  · simp only [hm, Bool.not_true, Bool.false_eq_true, if_false]
    rw [modifyTile_ok hb hx hy, ok_bind]
    have hb1 := hb.updTile x y (fun t => { t with mine := false })
    rw [hb1.1, nested_eq_fold (Rect w h) (fun s i => readCol s i)
      (fun c => min c.length (y + 2))
      (fun i j b => (readTile b i j).bind fun t =>
        if t.adjacentMines > 0 then
          modifyTile b i j (fun t => { t with adjacentMines := t.adjacentMines - 1 })
        else Except.ok b) _ _ _ (min h (y + 2))
      (fun s i _ hi hs => readCol_bound hs x y i hi) ?_ _ hb1]
    · obtain ⟨b2, h1, h2, h3⟩ := dec_fold (w := w) (h := h) (nbhd w h x y) (nodup_nbhd w h x y)
        (fun q hq => by rw [mem_nbhd] at hq; exact ⟨hq.1, hq.2.1⟩) _ hb1
      rw [nbhd] at h1
      rw [h1, ok_bind, minesAdjacentTo_ok h2, ok_bind, modifyTile_ok h2 hx hy, ok_bind]
      refine ⟨_, rfl, ?_, rfl, fun hh => by simp [hm] at hh, fun _ => ⟨rfl, ?_⟩⟩
      · dsimp only
        exact h2.updTile _ _ _
      intro i j
      have hcount : countNear (fun t => t.mine) w h
          (updTile b2 x y fun t => { t with adjacentMines :=
            ((countNear (fun t => t.mine) w h b2 x y : Nat) : Int) }) x y
          = countNear (fun t => t.mine) w h b2 x y := by
        apply countNear_congr
        intro i j
        rw [tileAt_updTile h2 hx hy]
        split
        · next hh => rw [hh.1, hh.2]
        · rfl
      simp only [hcount]
      rw [tileAt_updTile h2 hx hy]
      by_cases hij : i = x ∧ j = y
      · rw [if_pos hij, if_pos hij, h3 x y, if_pos (self_mem_nbhd hx hy),
          tileAt_updTile hb hx hy, if_pos ⟨rfl, rfl⟩]
        simp only [decAdj]
        split <;> rfl
      · rw [if_neg hij, if_neg hij, h3 i j, tileAt_updTile hb hx hy, if_neg hij]
    · intro s s' i j hs hbody
      obtain ⟨t, _, ht⟩ := bind_eq_ok hbody
      split at ht
      · exact modifyTile_rect ht hs
      · cases ht; exact hs
  · simp only [hm, Bool.not_false, if_true]
    exact ⟨g, rfl, hb, rfl, fun _ => rfl, fun hh => by cases hh⟩

theorem decAdj_fields (t : tile) :
    (decAdj t).mine = t.mine ∧ (decAdj t).flagged = t.flagged ∧
      (decAdj t).revealed = t.revealed := by
  unfold decAdj; split <;> simp

theorem disarmAt_adjInv {w h : Nat} {g g' : Game} (hb : Rect w h g.board) {x y : Nat}
    (hx : x < w) (hy : y < h) (hd : disarmAt g x y = .ok g') (hinv : AdjInv w h g.board) :
    AdjInv w h g'.board := by
  obtain ⟨g1, h1, _, _, h4, h5⟩ := disarmAt_spec hb hx hy
  rw [h1] at hd
  obtain rfl : g1 = g' := by cases hd; rfl
  by_cases hm : (tileAt g.board x y).mine = true
  · obtain ⟨_, ht⟩ := h5 hm
    have hclear : (tileAt g1.board x y).mine = false := by rw [ht, if_pos ⟨rfl, rfl⟩]
    have hsame : ∀ i j, ¬ (i = x ∧ j = y) → (tileAt g1.board i j).mine = (tileAt g.board i j).mine := by
      intro i j hij
      rw [ht, if_neg hij]
      split
      · exact (decAdj_fields _).1
      · rfl
    intro i hi j hj hnm
    by_cases hij : i = x ∧ j = y
    · rw [hij.1, hij.2, ht x y, if_pos ⟨rfl, rfl⟩]
    · have hnm0 : (tileAt g.board i j).mine = false := by rw [← hsame i j hij]; exact hnm
      have hadj := hinv i hi j hj hnm0
      have hcc := countNear_clear (w := w) (h := h) hm hclear hsame i j
      rw [ht, if_neg hij]
      by_cases hn : (i, j) ∈ nbhd w h x y
      · have hn' : (x, y) ∈ nbhd w h i j := (nbhd_symm hx hy hi hj).2 hn
        have := hcc.1 hn'
        rw [if_pos hn]
        unfold decAdj
        rw [if_pos (by rw [hadj]; omega)]
        simp only [hadj]; omega
      · have hn' : (x, y) ∉ nbhd w h i j := fun hh => hn ((nbhd_symm hx hy hi hj).1 hh)
        rw [if_neg hn, hadj, hcc.2 hn']
  · have : g1 = g := h4 (by simpa using hm)
    rw [this]; exact hinv

/-- The effect of `disarmAt` on a rectangular board, field by field. -/
theorem disarmAt_effect (w h : Nat) (g : Game) (hb : Rect w h g.board) (x y : Nat) (hx : x < w)
    (hy : y < h) :
    ((tileAt g.board x y).mine = false → disarmAt g x y = .ok g) ∧
    ((tileAt g.board x y).mine = true →
      ∃ g', disarmAt g x y = .ok g' ∧ Rect w h g'.board ∧
        (tileAt g'.board x y).mine = false ∧
        g'.State.mines = g.State.mines - 1 ∧
        g'.State.GameOver = g.State.GameOver ∧ g'.State.flags = g.State.flags ∧
        g'.State.disarms = g.State.disarms ∧ g'.options = g.options ∧
        (∀ i j, ¬ (i = x ∧ j = y) → (tileAt g'.board i j).mine = (tileAt g.board i j).mine) ∧
        (∀ i j, (tileAt g'.board i j).flagged = (tileAt g.board i j).flagged ∧
          (tileAt g'.board i j).revealed = (tileAt g.board i j).revealed) ∧
        (AdjInv w h g.board →
          AdjInv w h g'.board ∧
          (∀ i < w, ∀ j < h, ¬ (i = x ∧ j = y) → (tileAt g.board i j).mine = false →
            (i, j) ∈ nbhd w h x y →
            (tileAt g'.board i j).adjacentMines = (tileAt g.board i j).adjacentMines - 1) ∧
          (∀ i j, (i, j) ∉ nbhd w h x y → tileAt g'.board i j = tileAt g.board i j))) := by
  obtain ⟨g', h1, h2, h3, h4, h5⟩ := disarmAt_spec hb hx hy
  refine ⟨fun hm => by rw [h1, h4 hm], fun hm => ?_⟩
  obtain ⟨hst, ht⟩ := h5 hm
  refine ⟨g', h1, h2, by rw [ht, if_pos ⟨rfl, rfl⟩], by rw [hst], by rw [hst], by rw [hst],
    by rw [hst], h3, ?_, ?_, fun hinv => ⟨disarmAt_adjInv hb hx hy h1 hinv, ?_, ?_⟩⟩
  · intro i j hij
    rw [ht, if_neg hij]
    split
    · exact (decAdj_fields _).1
    · rfl
  · intro i j
    rw [ht]
    by_cases hij : i = x ∧ j = y
    · rw [if_pos hij, hij.1, hij.2]; exact ⟨rfl, rfl⟩
    · rw [if_neg hij]
      split
      · exact (decAdj_fields _).2
      · exact ⟨rfl, rfl⟩
  · intro i hi j hj hij hnm hn
    have hn' : (x, y) ∈ nbhd w h i j := (nbhd_symm hx hy hi hj).2 hn
    have hpos : (tileAt g.board i j).adjacentMines > 0 := by
      rw [hinv i hi j hj hnm]
      have : 0 < countNear (fun t => t.mine) w h g.board i j :=
        List.countP_pos_iff.2 ⟨(x, y), hn', hm⟩
      exact_mod_cast this
    rw [ht, if_neg hij, if_pos hn, decAdj, if_pos hpos]
  · intro i j hn
    have hij : ¬ (i = x ∧ j = y) := by
      rintro ⟨rfl, rfl⟩; exact hn (self_mem_nbhd hx hy)
    rw [ht, if_neg hij, if_neg hn]

/-- C3 (disarm).  At an in-range coordinate of a rectangular board:
`disarmAt` on a non-mine tile returns the session unchanged; on a mine it
returns a session in which the tile is no longer a mine, `State.mines` is
one less and the other `State` fields and options are the same, no other
tile's `mine` field and no tile's `flagged` or `revealed` field has changed,
and, when the adjacency invariant held before, it holds again, every other
non-mine tile of the clamped neighbourhood having its `adjacentMines` lowered
by exactly one and every tile outside the neighbourhood left as it was. -/
theorem C3_disarmAt (w h : Nat) (g : Game) (hb : Rect w h g.board) (x y : Nat) (hx : x < w)
    (hy : y < h) :
    ((tileAt g.board x y).mine = false → disarmAt g x y = .ok g) ∧
    ((tileAt g.board x y).mine = true →
      ∃ g', disarmAt g x y = .ok g' ∧ Rect w h g'.board ∧
        (tileAt g'.board x y).mine = false ∧
        g'.State.mines = g.State.mines - 1 ∧
        g'.State.GameOver = g.State.GameOver ∧ g'.State.flags = g.State.flags ∧
        g'.State.disarms = g.State.disarms ∧ g'.options = g.options ∧
        (∀ i j, ¬ (i = x ∧ j = y) → (tileAt g'.board i j).mine = (tileAt g.board i j).mine) ∧
        (∀ i j, (tileAt g'.board i j).flagged = (tileAt g.board i j).flagged ∧
          (tileAt g'.board i j).revealed = (tileAt g.board i j).revealed) ∧
        (AdjInv w h g.board →
          AdjInv w h g'.board ∧
          (∀ i < w, ∀ j < h, ¬ (i = x ∧ j = y) → (tileAt g.board i j).mine = false →
            (i, j) ∈ nbhd w h x y →
            (tileAt g'.board i j).adjacentMines = (tileAt g.board i j).adjacentMines - 1) ∧
          (∀ i j, (i, j) ∉ nbhd w h x y → tileAt g'.board i j = tileAt g.board i j))) :=
  disarmAt_effect w h g hb x y hx hy

theorem rect_board3adj : Rect 3 3 board3adj := ⟨rfl, by decide⟩

theorem adjInv_board3adj : AdjInv 3 3 board3adj := by unfold AdjInv; decide

theorem C3_disarmAt_witness :
    ∃ g', disarmAt (game3 1 true) 1 1 = .ok g' ∧ (tileAt g'.board 1 1).mine = false ∧
      g'.State.mines = 0 ∧ AdjInv 3 3 g'.board ∧ (tileAt g'.board 0 0).adjacentMines = 0 := by
  obtain ⟨g', h1, _, h3, h4, _, _, _, _, _, _, h5⟩ :=
    (C3_disarmAt 3 3 (game3 1 true) rect_board3adj 1 1 (by decide) (by decide)).2 rfl
  obtain ⟨h6, h7, _⟩ := h5 adjInv_board3adj
  refine ⟨g', h1, h3, by rw [h4]; rfl, h6, ?_⟩
  rw [h7 0 (by decide) 0 (by decide) (by decide) rfl (by decide)]
  rfl

theorem readTile_inrange {w h : Nat} {b : board} (hb : Rect w h b) {x y : Nat} {t : tile}
    (hr : readTile b x y = .ok t) : x < w ∧ y < h ∧ t = tileAt b x y := by
  unfold readTile at hr
  cases hx : b[x]? with
  | none => simp [hx] at hr
  | some col =>
    cases hy : col[y]? with
    | none => simp [hx, hy] at hr
    | some t' =>
      simp only [hx, hy, Except.ok.injEq] at hr
      obtain ⟨hxl, _⟩ := List.getElem?_eq_some_iff.1 hx
      obtain ⟨hyl, _⟩ := List.getElem?_eq_some_iff.1 hy
      have hcl : col.length = h := hb.2 col (List.getElem?_mem hx)
      refine ⟨by rw [← hb.1]; exact hxl, by rw [← hcl]; exact hyl, ?_⟩
      simp [tileAt, hx, hy, hr]

theorem mercy_spec {w h : Nat} {g : Game} (hb : Rect w h g.board) {x y : Nat} (hx : x < w)
    (hy : y < h) :
    ∃ g1, mercy g x y = .ok g1 ∧ Rect w h g1.board ∧ g1.options = g.options ∧
      g1.State.GameOver = g.State.GameOver ∧ g1.State.flags = g.State.flags ∧
      (g.State.disarms ≤ 0 → g1 = g) ∧
      (0 < g.State.disarms → g1.State.disarms = g.State.disarms - 1 ∧
        (tileAt g1.board x y).mine = false ∧
        ∃ g0, disarmAt g x y = .ok g0 ∧ g1.board = g0.board ∧ g1.State.mines = g0.State.mines) := by
  unfold mercy
  by_cases hd : g.State.disarms > 0
  · rw [if_pos hd]
    obtain ⟨g0, h1, h2, h3, h4, h5⟩ := disarmAt_spec hb hx hy
    rw [h1, ok_bind]
    have hst : g0.State.GameOver = g.State.GameOver ∧ g0.State.flags = g.State.flags ∧
        g0.State.disarms = g.State.disarms ∧ (tileAt g0.board x y).mine = false := by
      by_cases hm : (tileAt g.board x y).mine = true
      · obtain ⟨h6, h7⟩ := h5 hm
        rw [h6, h7 x y, if_pos ⟨rfl, rfl⟩]
        exact ⟨rfl, rfl, rfl, rfl⟩
      · have hm' : (tileAt g.board x y).mine = false := by simpa using hm
        rw [h4 hm']; exact ⟨rfl, rfl, rfl, hm'⟩
    refine ⟨_, rfl, h2, h3, hst.1, hst.2.1, fun hh => absurd hd (not_lt.2 hh), fun _ =>
      ⟨?_, hst.2.2.2, g0, rfl, rfl, rfl⟩⟩
    show g0.State.disarms - 1 = _
    rw [hst.2.2.1]
  · rw [if_neg hd]
    exact ⟨g, rfl, hb, rfl, rfl, rfl, fun _ => rfl, fun hh => absurd hh hd⟩

theorem RevealAt_succ_raw (fuel : Nat) (g : Game) (x y : Nat) :
    RevealAt (fuel + 1) g x y =
      (readTile g.board x y).bind fun t =>
      if t.flagged then .ok g
      else
        (mercy g x y).bind fun g =>
        (modifyTile g.board x y (fun t => { t with revealed := true })).bind fun b =>
        (readTile b x y).bind fun t =>
        (if t.adjacentMines == 0 && g.options.chainRevealing then
          revealChainWith (RevealAt fuel) { g with board := b } x y
        else .ok { g with board := b }).bind fun g =>
        (readTile g.board x y).bind fun t =>
        if t.mine then .ok { g with State := { g.State with GameOver := true } }
        else .ok g := rfl

theorem rect_markRevealed {w h : Nat} {g : Game} (hb : Rect w h g.board) (x y : Nat) :
    Rect w h (markRevealed g x y).board := by
  unfold markRevealed
  dsimp only
  exact Rect.updTile hb x y _

/-- Partial-correctness rule of the loops of `revealChain`: an invariant that
implies the shape of the board and is kept by every recursive call that
returns is kept by the loops when they return. -/
theorem revealChainWith_keeps {w h : Nat} (I : Game → Prop)
    (reveal : Game → Nat → Nat → Except Fault Game)
    (hI : ∀ s, I s → Rect w h s.board)
    (hrev : ∀ s i j s', I s → i < w → j < h → (tileAt s.board i j).revealed = false →
      reveal s i j = .ok s' → I s')
    {g g' : Game} {x y : Nat} (hg : I g) (hc : revealChainWith reveal g x y = .ok g') : I g' := by
  unfold revealChainWith at hc
  rw [forRange_eq] at hc
  refine foldlM_keeps I _ _ ?_ g g' hg hc
  intro i _ s s' hs hbody
  obtain ⟨col0, _, hin⟩ := bind_eq_ok hbody
  rw [forRange_eq] at hin
  refine foldlM_keeps I _ _ ?_ s s' hs hin
  intro j _ t t' ht hstep
  obtain ⟨tl, hread, hcall⟩ := bind_eq_ok hstep
  obtain ⟨hi, hj, rfl⟩ := readTile_inrange (hI t ht) hread
  by_cases hr : (tileAt t.board i j).revealed = true
  · simp only [hr, Bool.not_true, Bool.false_eq_true, if_false] at hcall
    cases hcall; exact ht
  · have hr' : (tileAt t.board i j).revealed = false := by simpa using hr
    simp only [hr', Bool.not_false, if_true] at hcall
    exact hrev t i j t' ht hi hj hr' hcall

theorem RevealAt_rect {w h : Nat} : ∀ (fuel : Nat) (g g' : Game) (x y : Nat),
    Rect w h g.board → x < w → y < h → RevealAt fuel g x y = .ok g' → Rect w h g'.board := by
  intro fuel
  induction fuel with
  | zero => intro g g' x y _ _ _ hr; simp [RevealAt] at hr
  | succ fuel ih =>
    intro g g' x y hb hx hy hr
    rw [RevealAt_succ_raw, readTile_ok hb hx hy, ok_bind] at hr
    split at hr
    · cases hr; exact hb
    · obtain ⟨g1, h1, hb1, _⟩ := mercy_spec hb hx hy
      rw [h1, ok_bind, modifyTile_ok hb1 hx hy, ok_bind,
        readTile_ok (hb1.updTile x y _) hx hy, ok_bind] at hr
      obtain ⟨g3, hchain, hfin⟩ := bind_eq_ok hr
      have hb3 : Rect w h g3.board := by
        split at hchain
        · refine revealChainWith_keeps (fun s => Rect w h s.board) _ (fun _ hs => hs) ?_
            (rect_markRevealed hb1 x y) hchain
          intro s i j s' hs hi hj _ hcall
          exact ih s s' i j hs hi hj hcall
        · cases hchain; exact rect_markRevealed hb1 x y
      rw [readTile_ok hb3 hx hy, ok_bind] at hfin
      split at hfin <;> (cases hfin; exact hb3)

theorem foldlM_congr_inv {σ α : Type} (I : σ → Prop) (f f' : σ → α → Except Fault σ)
    (l : List α) (heq : ∀ a ∈ l, ∀ s, I s → f s a = f' s a)
    (hI : ∀ a ∈ l, ∀ s s', I s → f' s a = .ok s' → I s') :
    ∀ s, I s → l.foldlM f s = l.foldlM f' s := by
  induction l with
  | nil => intro s _; rfl
  | cons a l ih =>
    intro s hs
    rw [List.foldlM_cons, List.foldlM_cons, heq a (List.mem_cons_self _ _) s hs]
    cases hfa : f' s a with
    | error e => rfl
    | ok s1 =>
      exact ih (fun b hb => heq b (List.mem_cons_of_mem _ hb))
        (fun b hb => hI b (List.mem_cons_of_mem _ hb)) s1
        (hI a (List.mem_cons_self _ _) s s1 hs hfa)

theorem chainStep_rect {w h fuel : Nat} {s s' : Game} {q : Nat × Nat} (hq : q ∈ nbhd w h x y)
    (hs : Rect w h s.board) (hstep : chainStep fuel s q = .ok s') : Rect w h s'.board := by
  unfold chainStep at hstep
  rw [mem_nbhd] at hq
  split at hstep
  · cases hstep; exact hs
  · exact RevealAt_rect fuel s s' q.1 q.2 hs hq.1 hq.2.1 hstep

/-- On a rectangular board the loops of `revealChain` are one fold of
`chainStep` over the clamped neighbourhood. -/
theorem revealChainWith_eq {w h : Nat} (fuel : Nat) {g : Game} (hb : Rect w h g.board)
    (x y : Nat) :
    revealChainWith (RevealAt fuel) g x y = (nbhd w h x y).foldlM (chainStep fuel) g := by
  unfold revealChainWith
  rw [hb.1, nested_eq_fold (fun s : Game => Rect w h s.board) (fun s _ => readCol s.board 0)
      (fun c => min c.length (y + 2))
      (fun i j g => (readTile g.board i j).bind fun t =>
        if !t.revealed then RevealAt fuel g i j else Except.ok g) _ _ _ (min h (y + 2))
      ?_ ?_ g hb]
  · refine foldlM_congr_inv (fun s : Game => Rect w h s.board) _ _ _ ?_ ?_ g hb
    · intro q hq s hs
      have hq := mem_nbhd.1 hq
      show (readTile s.board q.1 q.2).bind _ = chainStep fuel s q
      rw [readTile_ok hs hq.1 hq.2.1, ok_bind, chainStep]
      cases (tileAt s.board q.1 q.2).revealed <;> rfl
    · intro q hq s s' hs hstep
      exact chainStep_rect hq hs hstep
  · intro s i _ hi hs
    obtain ⟨c, h1, h2⟩ := readCol_ok hs (show 0 < w by omega)
    exact ⟨c, h1, by simp [h2]⟩
  · intro s s' i j hs hbody
    obtain ⟨t, hread, hcall⟩ := bind_eq_ok hbody
    obtain ⟨hi, hj, _⟩ := readTile_inrange hs hread
    split at hcall
    · exact RevealAt_rect fuel s s' i j hs hi hj hcall
    · cases hcall; exact hs

/-- The body of `RevealAt` on a rectangular board, one statement at a time. -/
theorem RevealAt_succ {w h : Nat} (fuel : Nat) {g : Game} (hb : Rect w h g.board) {x y : Nat}
    (hx : x < w) (hy : y < h) :
    RevealAt (fuel + 1) g x y =
      if (tileAt g.board x y).flagged then .ok g
      else (mercy g x y).bind fun g1 =>
        (chainPhase w h fuel (markRevealed g1 x y) x y).bind fun g3 =>
        .ok (finish g3 x y) := by
  rw [RevealAt_succ_raw, readTile_ok hb hx hy, ok_bind]
  split
  · rfl
  · obtain ⟨g1, h1, hb1, _⟩ := mercy_spec hb hx hy
    rw [h1, ok_bind, ok_bind, modifyTile_ok hb1 hx hy, ok_bind,
      readTile_ok (hb1.updTile x y _) hx hy, ok_bind]
    have hb2 : Rect w h (markRevealed g1 x y).board := rect_markRevealed hb1 x y
    have hchain : (if (tileAt (updTile g1.board x y fun t => { t with revealed := true }) x
          y).adjacentMines == 0 && g1.options.chainRevealing then
          revealChainWith (RevealAt fuel) (markRevealed g1 x y) x y
        else .ok (markRevealed g1 x y)) = chainPhase w h fuel (markRevealed g1 x y) x y := by
      unfold chainPhase
      rw [revealChainWith_eq fuel hb2]
      rfl
    show Except.bind (if _ then revealChainWith (RevealAt fuel) (markRevealed g1 x y) x y
      else .ok (markRevealed g1 x y)) _ = _
    rw [hchain]
    cases hcp : chainPhase w h fuel (markRevealed g1 x y) x y with
    | error e => rfl
    | ok g3 =>
      have hb3 : Rect w h g3.board := by
        unfold chainPhase at hcp
        split at hcp
        · exact foldlM_keeps (fun s : Game => Rect w h s.board) _ _
            (fun q hq s s' hs hstep => chainStep_rect hq hs hstep) _ _ hb2 hcp
        · cases hcp; exact hb2
      rw [ok_bind, ok_bind, readTile_ok hb3 hx hy, ok_bind, finish]
      split <;> rfl

theorem Frame.same (w h : Nat) (g : Game) : Frame w h g g :=
  ⟨rfl, rfl, fun _ _ => rfl, fun _ _ hr => hr, fun _ _ hm => hm, fun hg => hg, fun hi => hi,
    fun _ => ⟨rfl, rfl, fun _ _ => ⟨rfl, rfl⟩⟩, rfl⟩

theorem Frame.comp {w h : Nat} {a b c : Game} (hab : Frame w h a b) (hbc : Frame w h b c) :
    Frame w h a c where
  options_eq := hbc.options_eq.trans hab.options_eq
  flags_eq := hbc.flags_eq.trans hab.flags_eq
  flagged_eq i j := (hbc.flagged_eq i j).trans (hab.flagged_eq i j)
  revealed_mono i j hr := hbc.revealed_mono i j (hab.revealed_mono i j hr)
  mine_anti i j hm := hab.mine_anti i j (hbc.mine_anti i j hm)
  gameOver_mono hg := hbc.gameOver_mono (hab.gameOver_mono hg)
  adjInv hi := hbc.adjInv (hab.adjInv hi)
  no_credit hd := by
    obtain ⟨h1, h2, h3⟩ := hab.no_credit hd
    obtain ⟨h4, h5, h6⟩ := hbc.no_credit (by rw [h1]; exact hd)
    exact ⟨h4.trans h1, h5.trans h2, fun i j =>
      ⟨(h6 i j).1.trans (h3 i j).1, (h6 i j).2.trans (h3 i j).2⟩⟩
  mines_kept := hbc.mines_kept.trans hab.mines_kept

theorem mineTotal_congr (w h : Nat) {b b' : board}
    (hsame : ∀ i j, (tileAt b' i j).mine = (tileAt b i j).mine) :
    mineTotal w h b' = mineTotal w h b := by
  unfold mineTotal
  congr 1
  funext q
  exact hsame q.1 q.2

/-- Clearing one mine of the board lowers the number of mine tiles by one. -/
theorem mineTotal_clear {w h : Nat} {b b' : board} {x y : Nat} (hx : x < w) (hy : y < h)
    (hmine : (tileAt b x y).mine = true) (hclear : (tileAt b' x y).mine = false)
    (hsame : ∀ i j, ¬ (i = x ∧ j = y) → (tileAt b' i j).mine = (tileAt b i j).mine) :
    mineTotal w h b' + 1 = mineTotal w h b := by
  unfold mineTotal
  refine (countP_flip (fun c => (tileAt b c.1 c.2).mine) (fun c => (tileAt b' c.1 c.2).mine)
    (x, y) hmine hclear ?_ _ (nodup_cells _ _ _ _)).1 ?_
  · intro c hc
    exact hsame c.1 c.2 (fun hh => hc (Prod.ext hh.1 hh.2))
  · rw [mem_cells]; simp [hx, hy]

theorem adjInv_congr {w h : Nat} {b b' : board}
    (hsame : ∀ i j, (tileAt b' i j).mine = (tileAt b i j).mine ∧
      (tileAt b' i j).adjacentMines = (tileAt b i j).adjacentMines)
    (hinv : AdjInv w h b) : AdjInv w h b' := by
  intro x hx y hy hm
  rw [(hsame x y).2, hinv x hx y hy (by rw [← (hsame x y).1]; exact hm)]
  congr 1
  exact countNear_congr _ w h (fun i j => by simp [(hsame i j).1]) x y

theorem tileAt_markRevealed {w h : Nat} {g : Game} (hb : Rect w h g.board) {x y : Nat}
    (hx : x < w) (hy : y < h) (i j : Nat) :
    tileAt (markRevealed g x y).board i j =
      if i = x ∧ j = y then { tileAt g.board x y with revealed := true }
      else tileAt g.board i j := by
  unfold markRevealed
  dsimp only
  rw [tileAt_updTile hb hx hy]

theorem frame_markRevealed {w h : Nat} {g : Game} (hb : Rect w h g.board) {x y : Nat}
    (hx : x < w) (hy : y < h) : Frame w h g (markRevealed g x y) := by
  have ht := tileAt_markRevealed hb hx hy
  have hsame : ∀ i j, (tileAt (markRevealed g x y).board i j).mine = (tileAt g.board i j).mine ∧
      (tileAt (markRevealed g x y).board i j).adjacentMines
        = (tileAt g.board i j).adjacentMines := by
    intro i j
    rw [ht]
    split
    · next hh => rw [hh.1, hh.2]; exact ⟨rfl, rfl⟩
    · exact ⟨rfl, rfl⟩
  refine ⟨rfl, rfl, ?_, ?_, fun i j hm => by rw [← (hsame i j).1]; exact hm, fun hg => hg,
    adjInv_congr hsame, fun _ => ⟨rfl, rfl, hsame⟩,
    by rw [mineTotal_congr w h (fun i j => (hsame i j).1)]; rfl⟩
  · intro i j
    rw [ht]
    split
    · next hh => rw [hh.1, hh.2]
    · rfl
  · intro i j hr
    rw [ht]
    split
    · rfl
    · exact hr

theorem frame_finish (w h : Nat) (g : Game) (x y : Nat) : Frame w h g (finish g x y) := by
  unfold finish
  split
  · exact ⟨rfl, rfl, fun _ _ => rfl, fun _ _ hr => hr, fun _ _ hm => hm, fun _ => rfl,
      fun hi => hi, fun _ => ⟨rfl, rfl, fun _ _ => ⟨rfl, rfl⟩⟩, rfl⟩
  · exact Frame.same w h g

theorem frame_disarmAt {w h : Nat} {g g' : Game} (hb : Rect w h g.board) {x y : Nat}
    (hx : x < w) (hy : y < h) (hd : disarmAt g x y = .ok g') :
    g'.options = g.options ∧ g'.State.flags = g.State.flags ∧
    (∀ i j, (tileAt g'.board i j).flagged = (tileAt g.board i j).flagged) ∧
    (∀ i j, (tileAt g'.board i j).revealed = (tileAt g.board i j).revealed) ∧
    (∀ i j, (tileAt g'.board i j).mine = true → (tileAt g.board i j).mine = true) ∧
    g'.State.GameOver = g.State.GameOver ∧
    (AdjInv w h g.board → AdjInv w h g'.board) ∧
    g'.State.mines - (mineTotal w h g'.board : Int)
      = g.State.mines - (mineTotal w h g.board : Int) := by
  obtain ⟨h1, h2⟩ := disarmAt_effect w h g hb x y hx hy
  by_cases hm : (tileAt g.board x y).mine = true
  · obtain ⟨g1, e1, _, hc, e2, e3, e4, _, e6, e7, e8, e9⟩ := h2 hm
    rw [e1] at hd
    obtain rfl : g1 = g' := by cases hd; rfl
    refine ⟨e6, e4, fun i j => (e8 i j).1, fun i j => (e8 i j).2, ?_, e3, fun hi => (e9 hi).1,
      ?_⟩
    · intro i j hmij
      by_cases hij : i = x ∧ j = y
      · rw [hij.1, hij.2]; exact hm
      · rw [← e7 i j hij]; exact hmij
    · have := mineTotal_clear hx hy hm hc e7
      rw [e2]; omega
  · have hm' : (tileAt g.board x y).mine = false := by simpa using hm
    rw [h1 hm'] at hd
    obtain rfl : g = g' := by cases hd; rfl
    exact ⟨rfl, rfl, fun _ _ => rfl, fun _ _ => rfl, fun _ _ hh => hh, rfl, fun hi => hi, rfl⟩

theorem frame_mercy {w h : Nat} {g g1 : Game} (hb : Rect w h g.board) {x y : Nat}
    (hx : x < w) (hy : y < h) (hm : mercy g x y = .ok g1) :
    Frame w h g g1 ∧ ∀ i j, (tileAt g1.board i j).revealed = (tileAt g.board i j).revealed := by
  obtain ⟨g1', e1, _, e2, e3, e4, e5, e6⟩ := mercy_spec hb hx hy
  rw [e1] at hm
  obtain rfl : g1' = g1 := by cases hm; rfl
  by_cases hd : 0 < g.State.disarms
  · obtain ⟨_, _, g0, f1, f2, f3⟩ := e6 hd
    obtain ⟨d1, d2, d3, d4, d5, d6, d7, d8⟩ := frame_disarmAt hb hx hy f1
    rw [← f2] at d3 d4 d5 d7 d8
    rw [← f3] at d8
    exact ⟨⟨e2, e4, d3, fun i j hr => by rw [d4]; exact hr, d5, fun hg => by rw [e3]; exact hg,
      d7, fun hh => absurd hd (not_lt.2 hh), d8⟩, d4⟩
  · rw [e5 (not_lt.1 hd)]
    exact ⟨Frame.same w h g, fun _ _ => rfl⟩

/-- Everything `RevealAt` returns is related to its argument by `Frame`. -/
theorem RevealAt_frame {w h : Nat} : ∀ (fuel : Nat) (g g' : Game) (x y : Nat),
    Rect w h g.board → x < w → y < h → RevealAt fuel g x y = .ok g' → Frame w h g g' := by
  intro fuel
  induction fuel with
  | zero => intro g g' x y _ _ _ hr; simp [RevealAt] at hr
  | succ fuel ih =>
    intro g g' x y hb hx hy hr
    rw [RevealAt_succ fuel hb hx hy] at hr
    split at hr
    · cases hr; exact Frame.same w h g
    · obtain ⟨g1, h1, hr⟩ := bind_eq_ok hr
      obtain ⟨g3, h3, hr⟩ := bind_eq_ok hr
      cases hr
      have hf1 := (frame_mercy hb hx hy h1).1
      have hb1 : Rect w h g1.board := by
        obtain ⟨g1', e1, e2, _⟩ := mercy_spec hb hx hy
        rw [e1] at h1; cases h1; exact e2
      have hf2 := frame_markRevealed (g := g1) hb1 hx hy
      have hf3 : Rect w h g3.board ∧ Frame w h (markRevealed g1 x y) g3 := by
        unfold chainPhase at h3
        split at h3
        · refine foldlM_keeps (fun s : Game => Rect w h s.board ∧ Frame w h (markRevealed g1 x y) s)
            _ _ ?_ _ _ ⟨rect_markRevealed hb1 x y, Frame.same _ _ _⟩ h3
          intro q hq s s' hs hstep
          refine ⟨chainStep_rect hq hs.1 hstep, hs.2.comp ?_⟩
          have hq := mem_nbhd.1 hq
          unfold chainStep at hstep
          split at hstep
          · cases hstep; exact Frame.same _ _ _
          · exact ih s s' q.1 q.2 hs.1 hq.1 hq.2.1 hstep
        · cases h3; exact ⟨rect_markRevealed hb1 x y, Frame.same _ _ _⟩
      exact (hf1.comp hf2).comp (hf3.2.comp (frame_finish w h g3 x y))

theorem length_pairs (l1 l2 : List Nat) :
    (l1.flatMap fun i => l2.map fun j => (i, j)).length = l1.length * l2.length := by
  induction l1 with
  | nil => simp
  | cons i l1 ih =>
    rw [List.flatMap_cons, List.length_append, ih, List.length_map, List.length_cons,
      Nat.succ_mul, Nat.add_comm]

theorem length_cells (lox hix loy hiy : Nat) :
    (cells lox hix loy hiy).length = (hix - lox) * (hiy - loy) := by
  unfold cells
  rw [length_pairs, List.length_range', List.length_range']

theorem hiddenCount_le (w h : Nat) (b : board) : hiddenCount w h b ≤ w * h := by
  unfold hiddenCount
  refine le_trans (List.countP_le_length _) ?_
  rw [length_cells]; simp

theorem hiddenCount_mono {w h : Nat} {b b' : board}
    (hf : ∀ i j, (tileAt b' i j).flagged = (tileAt b i j).flagged)
    (hr : ∀ i j, (tileAt b i j).revealed = true → (tileAt b' i j).revealed = true) :
    hiddenCount w h b' ≤ hiddenCount w h b := by
  unfold hiddenCount
  apply List.countP_mono_left
  intro q _ hq
  rw [hf] at hq
  cases hrq : (tileAt b q.1 q.2).revealed with
  | false => simp at hq ⊢; exact hq.2
  | true => simp [hr q.1 q.2 hrq] at hq

theorem hiddenCount_mark {w h : Nat} {g : Game} (hb : Rect w h g.board) {x y : Nat}
    (hx : x < w) (hy : y < h) (hr : (tileAt g.board x y).revealed = false)
    (hf : (tileAt g.board x y).flagged = false) :
    hiddenCount w h (markRevealed g x y).board + 1 = hiddenCount w h g.board := by
  unfold hiddenCount
  have ht := tileAt_markRevealed hb hx hy
  refine (countP_flip
    (fun q => !(tileAt g.board q.1 q.2).revealed && !(tileAt g.board q.1 q.2).flagged)
    (fun q => !(tileAt (markRevealed g x y).board q.1 q.2).revealed &&
      !(tileAt (markRevealed g x y).board q.1 q.2).flagged) (x, y) ?_ ?_ ?_ _
    (nodup_cells _ _ _ _)).1 ?_
  · simp [hr, hf]
  · simp [ht]
  · intro c hc
    have : ¬ (c.1 = x ∧ c.2 = y) := fun hh => hc (Prod.ext hh.1 hh.2)
    simp [ht, this]
  · rw [mem_cells]; simp [hx, hy]

theorem Frame.hidden_le {w h : Nat} {g g' : Game} (hf : Frame w h g g') :
    hiddenCount w h g'.board ≤ hiddenCount w h g.board :=
  hiddenCount_mono hf.flagged_eq hf.revealed_mono

theorem mercy_rect {w h : Nat} {g g1 : Game} (hb : Rect w h g.board) {x y : Nat}
    (hx : x < w) (hy : y < h) (hm : mercy g x y = .ok g1) : Rect w h g1.board := by
  obtain ⟨g1', e1, e2, _⟩ := mercy_spec hb hx hy
  rw [e1] at hm; cases hm; exact e2

/-- `RevealAt` returns whenever the fuel exceeds the number of hidden tiles
by two (by one on a flagged tile). -/
theorem RevealAt_total {w h : Nat} : ∀ (fuel : Nat) (g : Game) (x y : Nat),
    Rect w h g.board → x < w → y < h →
    ((tileAt g.board x y).flagged = true ∧ 1 ≤ fuel ∨
      hiddenCount w h (markRevealed g x y).board + 2 ≤ fuel) →
    ∃ g', RevealAt fuel g x y = .ok g' := by
  intro fuel
  induction fuel with
  | zero => intro g x y _ _ _ hc; omega
  | succ fuel ih =>
    intro g x y hb hx hy hc
    rw [RevealAt_succ fuel hb hx hy]
    by_cases hfl : (tileAt g.board x y).flagged = true
    · rw [if_pos hfl]; exact ⟨g, rfl⟩
    · rw [if_neg hfl]
      have hc : hiddenCount w h (markRevealed g x y).board + 2 ≤ fuel + 1 := by
        rcases hc with hc | hc
        · exact absurd hc.1 hfl
        · exact hc
      obtain ⟨g1, h1, hb1, _⟩ := mercy_spec hb hx hy
      obtain ⟨hf1, hrev1⟩ := frame_mercy hb hx hy h1
      rw [h1, ok_bind]
      have hb2 := rect_markRevealed hb1 x y
      have hh2 : hiddenCount w h (markRevealed g1 x y).board
          ≤ hiddenCount w h (markRevealed g x y).board := by
        apply hiddenCount_mono
        · intro i j
          rw [(frame_markRevealed hb1 hx hy).flagged_eq, (frame_markRevealed hb hx hy).flagged_eq,
            hf1.flagged_eq]
        · intro i j
          rw [tileAt_markRevealed hb hx hy, tileAt_markRevealed hb1 hx hy]
          split
          · intro _; rfl
          · rw [hrev1]; exact id
      have hchain : ∃ g3, chainPhase w h fuel (markRevealed g1 x y) x y = .ok g3 := by
        unfold chainPhase
        split
        · have hall : ∀ q ∈ nbhd w h x y, ∀ s : Game,
              (Rect w h s.board ∧
                hiddenCount w h s.board ≤ hiddenCount w h (markRevealed g1 x y).board) →
              ∃ s', chainStep fuel s q = .ok s' ∧ (Rect w h s'.board ∧
                hiddenCount w h s'.board ≤ hiddenCount w h (markRevealed g1 x y).board) := by
            intro q hq s hs
            have hq' := mem_nbhd.1 hq
            have hstep : ∃ s', chainStep fuel s q = .ok s' := by
              unfold chainStep
              by_cases hrq : (tileAt s.board q.1 q.2).revealed = true
              · rw [if_pos hrq]; exact ⟨s, rfl⟩
              · rw [if_neg hrq]
                apply ih s q.1 q.2 hs.1 hq'.1 hq'.2.1
                by_cases hfq : (tileAt s.board q.1 q.2).flagged = true
                · left; exact ⟨hfq, by omega⟩
                · right
                  have := hiddenCount_mark hs.1 hq'.1 hq'.2.1 (by simpa using hrq)
                    (by simpa using hfq)
                  omega
            obtain ⟨s', hs'⟩ := hstep
            refine ⟨s', hs', chainStep_rect hq hs.1 hs', le_trans ?_ hs.2⟩
            unfold chainStep at hs'
            split at hs'
            · cases hs'; exact le_refl _
            · exact (RevealAt_frame fuel s s' q.1 q.2 hs.1 hq'.1 hq'.2.1 hs').hidden_le
          obtain ⟨g3, e3, _⟩ := foldlM_total _ (chainStep fuel) (nbhd w h x y) hall _
            ⟨hb2, le_refl _⟩
          exact ⟨g3, e3⟩
        · exact ⟨_, rfl⟩
      obtain ⟨g3, h3⟩ := hchain
      rw [h3, ok_bind]
      exact ⟨_, rfl⟩

/-- `RevealAt` returns on every rectangular board at every in-range
coordinate once the fuel is two more than the number of tiles; its result
has the same shape and is related to its argument by `Frame`. -/
theorem RevealAt_returns {w h : Nat} {g : Game} (hb : Rect w h g.board) {x y : Nat}
    (hx : x < w) (hy : y < h) {fuel : Nat} (hfuel : w * h + 2 ≤ fuel) :
    ∃ g', RevealAt fuel g x y = .ok g' ∧ Rect w h g'.board ∧ Frame w h g g' := by
  obtain ⟨g', hg'⟩ := RevealAt_total fuel g x y hb hx hy
    (Or.inr (le_trans (Nat.add_le_add_right (hiddenCount_le w h _) 2) hfuel))
  exact ⟨g', hg', RevealAt_rect fuel g g' x y hb hx hy hg', RevealAt_frame fuel g g' x y hb hx hy hg'⟩

theorem smartStep_keeps {w h fuel : Nat} {x y : Nat} {s s' : Game} {q : Nat × Nat}
    (hq : q ∈ nbhd w h x y) (hs : Rect w h s.board) (hstep : smartStep fuel s q = .ok s') :
    Rect w h s'.board ∧ Frame w h s s' := by
  unfold smartStep at hstep
  have hq := mem_nbhd.1 hq
  split at hstep
  · cases hstep; exact ⟨hs, Frame.same _ _ _⟩
  · exact ⟨RevealAt_rect fuel s s' q.1 q.2 hs hq.1 hq.2.1 hstep,
      RevealAt_frame fuel s s' q.1 q.2 hs hq.1 hq.2.1 hstep⟩

/-- The body of `SmartReveal` on a rectangular board. -/
theorem SmartReveal_eq {w h : Nat} (fuel : Nat) {g : Game} (hb : Rect w h g.board) {x y : Nat}
    (hx : x < w) (hy : y < h) :
    SmartReveal fuel g x y =
      if (tileAt g.board x y).revealed = false ∨
          (tileAt g.board x y).adjacentMines
            ≠ (countNear (fun t => t.flagged) w h g.board x y : Nat) then .ok g
      else (nbhd w h x y).foldlM (smartStep fuel) g := by
  unfold SmartReveal
  rw [readTile_ok hb hx hy, ok_bind]
  by_cases hr : (tileAt g.board x y).revealed = true
  · simp only [Bool.not_true, Bool.false_eq_true, if_false, hr]
    rw [flagsAdjacentTo_ok hb, ok_bind]
    by_cases hadj : (tileAt g.board x y).adjacentMines
        = (countNear (fun t => t.flagged) w h g.board x y : Nat)
    · simp only [hadj, bne_self_eq_false, Bool.false_eq_true, if_false, ne_eq, not_true_eq_false]
      rw [hb.1, nested_eq_fold (fun s : Game => Rect w h s.board) (fun s i => readCol s.board i)
        (fun c => min c.length (y + 2))
        (fun i j g => (readTile g.board i j).bind fun t =>
          if !t.flagged then RevealAt fuel g i j else Except.ok g) _ _ _ (min h (y + 2))
        (fun s i _ hi hs => readCol_bound hs x y i hi) ?_ g hb]
      · refine foldlM_congr_inv (fun s : Game => Rect w h s.board) _ _ _ ?_ ?_ g hb
        · intro q hq s hs
          have hq := mem_nbhd.1 hq
          show (readTile s.board q.1 q.2).bind _ = smartStep fuel s q
          rw [readTile_ok hs hq.1 hq.2.1, ok_bind, smartStep]
          cases (tileAt s.board q.1 q.2).flagged <;> rfl
        · intro q hq s s' hs hstep
          exact (smartStep_keeps hq hs hstep).1
      · intro s s' i j hs hbody
        obtain ⟨t, hread, hcall⟩ := bind_eq_ok hbody
        obtain ⟨hi, hj, _⟩ := readTile_inrange hs hread
        split at hcall
        · exact RevealAt_rect fuel s s' i j hs hi hj hcall
        · cases hcall; exact hs
    · have : ((tileAt g.board x y).adjacentMines
          != (countNear (fun t => t.flagged) w h g.board x y : Nat)) = true := by
        simpa using hadj
      simp only [this, if_true, ne_eq, hadj, not_false_eq_true]
      simp
  · have hr' : (tileAt g.board x y).revealed = false := by simpa using hr
    simp [hr']

/-- `SmartReveal` returns on every rectangular board at every in-range
coordinate once the fuel is two more than the number of tiles. -/
theorem SmartReveal_returns {w h : Nat} {g : Game} (hb : Rect w h g.board) {x y : Nat}
    (hx : x < w) (hy : y < h) {fuel : Nat} (hfuel : w * h + 2 ≤ fuel) :
    ∃ g', SmartReveal fuel g x y = .ok g' ∧ Rect w h g'.board ∧ Frame w h g g' := by
  rw [SmartReveal_eq fuel hb hx hy]
  split
  · exact ⟨g, rfl, hb, Frame.same _ _ _⟩
  · refine foldlM_total (fun s : Game => Rect w h s.board ∧ Frame w h g s) _ _ ?_ g
      ⟨hb, Frame.same _ _ _⟩
    intro q hq s hs
    have hq' := mem_nbhd.1 hq
    have hstep : ∃ s', smartStep fuel s q = .ok s' := by
      unfold smartStep
      split
      · exact ⟨s, rfl⟩
      · obtain ⟨s', e1, _⟩ := RevealAt_returns hs.1 hq'.1 hq'.2.1 hfuel
        exact ⟨s', e1⟩
    obtain ⟨s', hs'⟩ := hstep
    obtain ⟨k1, k2⟩ := smartStep_keeps hq hs.1 hs'
    exact ⟨s', hs', k1, hs.2.comp k2⟩

/-- The body of `ToggleFlaggedAt` on a rectangular board. -/
theorem ToggleFlaggedAt_eq {w h : Nat} {g : Game} (hb : Rect w h g.board) {x y : Nat}
    (hx : x < w) (hy : y < h) : ToggleFlaggedAt g x y = .ok (toggled g x y) := by
  unfold ToggleFlaggedAt toggled
  split
  · rfl
  · rw [readTile_ok hb hx hy, ok_bind]
    cases hr : (tileAt g.board x y).revealed
    · simp only [Bool.not_false, if_true, Bool.false_eq_true, if_false]
      rw [modifyTile_ok hb hx hy, ok_bind]
    · simp

theorem tileAt_toggled {w h : Nat} {g : Game} (hb : Rect w h g.board) {x y : Nat}
    (hx : x < w) (hy : y < h) (i j : Nat) :
    tileAt (toggled g x y).board i j = tileAt g.board i j ∨
    (i = x ∧ j = y ∧ ¬ g.State.flags > g.State.mines ∧ (tileAt g.board x y).revealed = false ∧
      tileAt (toggled g x y).board i j
        = { tileAt g.board x y with flagged := !(tileAt g.board x y).flagged }) := by
  unfold toggled
  split
  · exact Or.inl rfl
  · next hcap =>
    split
    · exact Or.inl rfl
    · next hr =>
      dsimp only
      rw [tileAt_updTile hb hx hy]
      split
      · next hij => exact Or.inr ⟨hij.1, hij.2, hcap, by simpa using hr, rfl⟩
      · exact Or.inl rfl

theorem rect_toggled {w h : Nat} {g : Game} (hb : Rect w h g.board) (x y : Nat) :
    Rect w h (toggled g x y).board := by
  unfold toggled
  split
  · exact hb
  · split
    · exact hb
    · dsimp only; exact Rect.updTile hb x y _

theorem adjInv_toggled {w h : Nat} {g : Game} (hb : Rect w h g.board) {x y : Nat}
    (hx : x < w) (hy : y < h) (hinv : AdjInv w h g.board) :
    AdjInv w h (toggled g x y).board := by
  refine adjInv_congr (fun i j => ?_) hinv
  rcases tileAt_toggled hb hx hy i j with h1 | ⟨h1, h2, _, _, h3⟩
  · rw [h1]; exact ⟨rfl, rfl⟩
  · rw [h3, h1, h2]; exact ⟨rfl, rfl⟩

/-- C2 (adjacency invariant preserved).  On a rectangular board that
satisfies the adjacency invariant, for every mercy-credit count, either
chain setting and every in-range `(x, y)`, each of `RevealAt`, `SmartReveal`
and `ToggleFlaggedAt` returns (the fuel being two more than the number of
tiles) and the board it returns satisfies the adjacency invariant again. -/
theorem C2_adjacency_preserved (w h : Nat) (g : Game) (hb : Rect w h g.board)
    (hinv : AdjInv w h g.board) (x y : Nat) (hx : x < w) (hy : y < h) (fuel : Nat)
    (hfuel : w * h + 2 ≤ fuel) :
    (∃ g', RevealAt fuel g x y = .ok g' ∧ Rect w h g'.board ∧ AdjInv w h g'.board) ∧
    (∃ g', SmartReveal fuel g x y = .ok g' ∧ Rect w h g'.board ∧ AdjInv w h g'.board) ∧
    (∃ g', ToggleFlaggedAt g x y = .ok g' ∧ Rect w h g'.board ∧ AdjInv w h g'.board) := by
  obtain ⟨g1, e1, r1, f1⟩ := RevealAt_returns hb hx hy hfuel
  obtain ⟨g2, e2, r2, f2⟩ := SmartReveal_returns hb hx hy hfuel
  exact ⟨⟨g1, e1, r1, f1.adjInv hinv⟩, ⟨g2, e2, r2, f2.adjInv hinv⟩,
    ⟨_, ToggleFlaggedAt_eq hb hx hy, rect_toggled hb x y, adjInv_toggled hb hx hy hinv⟩⟩

theorem C2_adjacency_preserved_witness :
    (∃ g', RevealAt 11 (game3 1 true) 1 1 = .ok g' ∧ Rect 3 3 g'.board ∧ AdjInv 3 3 g'.board) ∧
    (∃ g', SmartReveal 11 (game3 1 true) 1 1 = .ok g' ∧ Rect 3 3 g'.board ∧
      AdjInv 3 3 g'.board) ∧
    (∃ g', ToggleFlaggedAt (game3 1 true) 1 1 = .ok g' ∧ Rect 3 3 g'.board ∧
      AdjInv 3 3 g'.board) :=
  C2_adjacency_preserved 3 3 (game3 1 true) rect_board3adj adjInv_board3adj 1 1 (by decide)
    (by decide) 11 (by decide)

theorem mercy_ok {w h : Nat} {g g1 : Game} (hb : Rect w h g.board) {x y : Nat} (hx : x < w)
    (hy : y < h) (hm : mercy g x y = .ok g1) :
    Rect w h g1.board ∧ g1.State.GameOver = g.State.GameOver ∧
    (g.State.disarms ≤ 0 → g1 = g) ∧
    (0 < g.State.disarms → g1.State.disarms = g.State.disarms - 1 ∧
      (tileAt g1.board x y).mine = false) ∧
    Frame w h g g1 ∧
    ∀ i j, (tileAt g1.board i j).revealed = (tileAt g.board i j).revealed := by
  obtain ⟨hf, hrev⟩ := frame_mercy hb hx hy hm
  obtain ⟨g1', e1, e2, _, e3, _, e5, e6⟩ := mercy_spec hb hx hy
  rw [hm] at e1
  obtain rfl : g1 = g1' := by cases e1; rfl
  exact ⟨e2, e3, e5, fun hd => ⟨(e6 hd).1, (e6 hd).2.1⟩, hf, hrev⟩

/-- The three phases of a call of `RevealAt` on an unflagged tile. -/
theorem RevealAt_shape {w h : Nat} (fuel : Nat) {g g' : Game} (hb : Rect w h g.board)
    {x y : Nat} (hx : x < w) (hy : y < h) (hnf : (tileAt g.board x y).flagged = false)
    (hr : RevealAt (fuel + 1) g x y = .ok g') :
    ∃ g1 g3, mercy g x y = .ok g1 ∧ Rect w h g1.board ∧
      chainPhase w h fuel (markRevealed g1 x y) x y = .ok g3 ∧ Rect w h g3.board ∧
      g' = finish g3 x y := by
  rw [RevealAt_succ fuel hb hx hy, if_neg (by simp [hnf])] at hr
  obtain ⟨g1, h1, hr⟩ := bind_eq_ok hr
  obtain ⟨g3, h3, hr⟩ := bind_eq_ok hr
  cases hr
  have hb1 := mercy_rect hb hx hy h1
  refine ⟨g1, g3, h1, hb1, h3, ?_, rfl⟩
  unfold chainPhase at h3
  split at h3
  · exact foldlM_keeps (fun s : Game => Rect w h s.board) _ _
      (fun q hq s s' hs hstep => chainStep_rect hq hs hstep) _ _ (rect_markRevealed hb1 x y) h3
  · cases h3; exact rect_markRevealed hb1 x y

/-- Partial-correctness rule of the chain phase; the recursive calls are made
only when the revealed tile has `adjacentMines = 0`. -/
theorem chainPhase_keeps {w h n : Nat} (I : Game → Prop) {x y : Nat} {g g' : Game}
    (hrev : (tileAt g.board x y).adjacentMines = 0 → ∀ s s' q, I s → q ∈ nbhd w h x y →
      (tileAt s.board q.1 q.2).revealed = false → RevealAt n s q.1 q.2 = .ok s' → I s')
    (hg : I g) (hc : chainPhase w h n g x y = .ok g') : I g' := by
  unfold chainPhase at hc
  split at hc
  · next hcond =>
    have hz : (tileAt g.board x y).adjacentMines = 0 := by
      simp only [Bool.and_eq_true, beq_iff_eq] at hcond; exact hcond.1
    refine foldlM_keeps I _ _ ?_ _ _ hg hc
    intro q hq s s' hs hstep
    unfold chainStep at hstep
    split at hstep
    · cases hstep; exact hs
    · next hr => exact hrev hz s s' q hs hq (by simpa using hr) hstep
  · cases hc; exact hg

theorem finish_board (g : Game) (x y : Nat) : (finish g x y).board = g.board := by
  unfold finish; split <;> rfl

theorem finish_safe {g : Game} {x y : Nat} (hm : (tileAt g.board x y).mine = false) :
    finish g x y = g := by
  unfold finish; simp [hm]

theorem finish_mine {g : Game} {x y : Nat} (hm : (tileAt g.board x y).mine = true) :
    (finish g x y).State.GameOver = true := by
  unfold finish; simp [hm]

/-- Under the adjacency invariant a non-mine tile with `adjacentMines = 0` has
no mine in its clamped neighbourhood. -/
theorem no_mine_near {w h : Nat} {b : board} (hinv : AdjInv w h b) {x y : Nat} (hx : x < w)
    (hy : y < h) (hm : (tileAt b x y).mine = false) (hz : (tileAt b x y).adjacentMines = 0) :
    ∀ q ∈ nbhd w h x y, (tileAt b q.1 q.2).mine = false := by
  have hc := hinv x hx y hy hm
  rw [hz] at hc
  have hc0 : countNear (fun t => t.mine) w h b x y = 0 := by exact_mod_cast hc.symm
  unfold countNear at hc0
  rw [List.countP_eq_zero] at hc0
  intro q hq
  simpa using hc0 q hq

/-- A reveal that starts on a tile that is not a mine, or with a mercy credit
left, does not change `GameOver` when the adjacency invariant holds. -/
theorem RevealAt_safe {w h : Nat} : ∀ (fuel : Nat) (g g' : Game) (x y : Nat),
    Rect w h g.board → x < w → y < h → AdjInv w h g.board →
    ((tileAt g.board x y).mine = false ∨ 0 < g.State.disarms) →
    RevealAt fuel g x y = .ok g' → g'.State.GameOver = g.State.GameOver := by
  intro fuel
  induction fuel with
  | zero => intro g g' x y _ _ _ _ _ hr; simp [RevealAt] at hr
  | succ fuel ih =>
    intro g g' x y hb hx hy hinv hsafe hr
    by_cases hfl : (tileAt g.board x y).flagged = true
    · rw [RevealAt_succ fuel hb hx hy, if_pos hfl] at hr
      cases hr; rfl
    · have hnf : (tileAt g.board x y).flagged = false := by simpa using hfl
      obtain ⟨g1, g3, h1, hb1, h3, hb3, rfl⟩ := RevealAt_shape fuel hb hx hy hnf hr
      obtain ⟨_, e3, e5, e6, hf1, _⟩ := mercy_ok hb hx hy h1
      have hm1 : (tileAt g1.board x y).mine = false := by
        by_cases hd : 0 < g.State.disarms
        · exact (e6 hd).2
        · rcases hsafe with hs | hs
          · rw [e5 (not_lt.1 hd)]; exact hs
          · exact absurd hs hd
      have hf2 := frame_markRevealed (g := g1) hb1 hx hy
      have hinv2 : AdjInv w h (markRevealed g1 x y).board := hf2.adjInv (hf1.adjInv hinv)
      have hm2 : (tileAt (markRevealed g1 x y).board x y).mine = false := by
        rw [tileAt_markRevealed hb1 hx hy, if_pos ⟨rfl, rfl⟩]; exact hm1
      have hkey : g3.State.GameOver = g.State.GameOver ∧ (tileAt g3.board x y).mine = false := by
        by_cases hcond : ((tileAt (markRevealed g1 x y).board x y).adjacentMines == 0 &&
            (markRevealed g1 x y).options.chainRevealing) = true
        · have hz : (tileAt (markRevealed g1 x y).board x y).adjacentMines = 0 := by
            simp only [Bool.and_eq_true, beq_iff_eq] at hcond; exact hcond.1
          have hI := chainPhase_keeps (w := w) (h := h) (n := fuel) (x := x) (y := y)
            (fun s : Game => Rect w h s.board ∧ AdjInv w h s.board ∧
              s.State.GameOver = g.State.GameOver ∧
              ∀ q ∈ nbhd w h x y, (tileAt s.board q.1 q.2).mine = false)
            (by
              intro _ s s' q hs hq _ hcall
              have hq' := mem_nbhd.1 hq
              have hfr := RevealAt_frame fuel s s' q.1 q.2 hs.1 hq'.1 hq'.2.1 hcall
              refine ⟨RevealAt_rect fuel s s' q.1 q.2 hs.1 hq'.1 hq'.2.1 hcall,
                hfr.adjInv hs.2.1, ?_, ?_⟩
              · rw [ih s s' q.1 q.2 hs.1 hq'.1 hq'.2.1 hs.2.1 (Or.inl (hs.2.2.2 q hq)) hcall]
                exact hs.2.2.1
              · intro r hr
                have := hs.2.2.2 r hr
                cases hmr : (tileAt s'.board r.1 r.2).mine with
                | false => rfl
                | true => rw [hfr.mine_anti r.1 r.2 hmr] at this; cases this)
            ⟨rect_markRevealed hb1 x y, hinv2, e3, no_mine_near hinv2 hx hy hm2 hz⟩ h3
          exact ⟨hI.2.2.1, hI.2.2.2 (x, y) (self_mem_nbhd hx hy)⟩
        · unfold chainPhase at h3
          rw [if_neg hcond] at h3
          cases h3
          exact ⟨e3, hm2⟩
      rw [finish_safe hkey.2]; exact hkey.1

/-- C10 (game over exactly on a mine).  With no mercy credit, on a
rectangular board satisfying the adjacency invariant (either chain setting),
`RevealAt` on an in-range unflagged tile returns, and `GameOver` afterwards
is `GameOver` before, or-ed with whether the tile was a mine. -/
theorem C10_gameOver_iff_mine (w h : Nat) (g : Game) (hb : Rect w h g.board)
    (hinv : AdjInv w h g.board) (hcred : g.State.disarms = 0) (x y : Nat) (hx : x < w)
    (hy : y < h) (hnf : (tileAt g.board x y).flagged = false) (fuel : Nat)
    (hfuel : w * h + 2 ≤ fuel) :
    ∃ g', RevealAt fuel g x y = .ok g' ∧
      g'.State.GameOver = (g.State.GameOver || (tileAt g.board x y).mine) := by
  obtain ⟨g', hr, _, hfr⟩ := RevealAt_returns hb hx hy hfuel
  refine ⟨g', hr, ?_⟩
  cases hm : (tileAt g.board x y).mine with
  | false =>
    rw [RevealAt_safe fuel g g' x y hb hx hy hinv (Or.inl hm) hr]; simp
  | true =>
    obtain ⟨k, rfl⟩ : ∃ k, fuel = k + 1 := ⟨fuel - 1, by omega⟩
    obtain ⟨g1, g3, _, _, _, _, rfl⟩ := RevealAt_shape k hb hx hy hnf hr
    have h3 : (tileAt g3.board x y).mine = true := by
      rw [← finish_board g3 x y, ((hfr.no_credit (le_of_eq hcred)).2.2 x y).1]; exact hm
    rw [finish_mine h3]; simp

theorem C10_gameOver_iff_mine_witness :
    ∃ g', RevealAt 11 (game3 0 true) 1 1 = .ok g' ∧
      g'.State.GameOver = ((game3 0 true).State.GameOver ||
        (tileAt (game3 0 true).board 1 1).mine) :=
  C10_gameOver_iff_mine 3 3 (game3 0 true) rect_board3adj adjInv_board3adj rfl 1 1 (by decide)
    (by decide) rfl 11 (by decide)

/-- `RevealAt` without chain reveal is not recursive. -/
theorem RevealAt_nochain {w h : Nat} (fuel : Nat) {g : Game} (hb : Rect w h g.board)
    {x y : Nat} (hx : x < w) (hy : y < h) (hchain : g.options.chainRevealing = false)
    (hnf : (tileAt g.board x y).flagged = false) :
    ∃ g1, mercy g x y = .ok g1 ∧
      RevealAt (fuel + 1) g x y = .ok (finish (markRevealed g1 x y) x y) := by
  obtain ⟨g1, h1, _, hopt, _⟩ := mercy_spec hb hx hy
  refine ⟨g1, h1, ?_⟩
  rw [RevealAt_succ fuel hb hx hy, if_neg (by simp [hnf]), h1, ok_bind]
  have : chainPhase w h fuel (markRevealed g1 x y) x y = .ok (markRevealed g1 x y) := by
    unfold chainPhase
    have : (markRevealed g1 x y).options.chainRevealing = false := by
      show g1.options.chainRevealing = false
      rw [hopt]; exact hchain
    simp [this]
  rw [this, ok_bind]

/-- Without chain reveal, a call that starts with a credit spends exactly
one or none, and does not end the game. -/
theorem RevealAt_nochain_credit {w h : Nat} (fuel : Nat) {g : Game} (hb : Rect w h g.board)
    {x y : Nat} (hx : x < w) (hy : y < h) (hchain : g.options.chainRevealing = false)
    (hd : 0 < g.State.disarms) :
    ∃ g', RevealAt (fuel + 1) g x y = .ok g' ∧ Rect w h g'.board ∧
      g'.options.chainRevealing = false ∧ g'.State.GameOver = g.State.GameOver ∧
      g.State.disarms - 1 ≤ g'.State.disarms := by
  by_cases hfl : (tileAt g.board x y).flagged = true
  · refine ⟨g, ?_, hb, hchain, rfl, by omega⟩
    rw [RevealAt_succ fuel hb hx hy, if_pos hfl]
  · have hnf : (tileAt g.board x y).flagged = false := by simpa using hfl
    obtain ⟨g1, h1, hr⟩ := RevealAt_nochain fuel hb hx hy hchain hnf
    obtain ⟨hb1, e3, _, e6, hf1, _⟩ := mercy_ok hb hx hy h1
    have hm2 : (tileAt (markRevealed g1 x y).board x y).mine = false := by
      rw [tileAt_markRevealed hb1 hx hy, if_pos ⟨rfl, rfl⟩]; exact (e6 hd).2
    rw [finish_safe hm2] at hr
    refine ⟨_, hr, rect_markRevealed hb1 x y, ?_, e3, ?_⟩
    · show g1.options.chainRevealing = false
      rw [hf1.options_eq]; exact hchain
    · show g.State.disarms - 1 ≤ g1.State.disarms
      rw [(e6 hd).1]

theorem revealAll_nochain {w h : Nat} (fuel : Nat) (cs : List (Nat × Nat))
    (hcs : ∀ c ∈ cs, c.1 < w ∧ c.2 < h) :
    ∀ g : Game, Rect w h g.board → g.options.chainRevealing = false →
      (cs.length : Int) ≤ g.State.disarms →
      ∃ g', revealAll (fuel + 1) g cs = .ok g' ∧ g'.State.GameOver = g.State.GameOver := by
  induction cs with
  | nil => intro g _ _ _; exact ⟨g, rfl, rfl⟩
  | cons c cs ih =>
    intro g hb hchain hlen
    have hc := hcs c (List.mem_cons_self _ _)
    have hd : 0 < g.State.disarms := by
      simp only [List.length_cons, Nat.cast_add, Nat.cast_one] at hlen; omega
    obtain ⟨g1, h1, hb1, hch1, hgo1, hd1⟩ :=
      RevealAt_nochain_credit fuel hb hc.1 hc.2 hchain hd
    obtain ⟨g', h2, hgo2⟩ := ih (fun d hd => hcs d (List.mem_cons_of_mem _ hd)) g1 hb1 hch1 (by
      simp only [List.length_cons, Nat.cast_add, Nat.cast_one] at hlen; omega)
    refine ⟨g', ?_, hgo2.trans hgo1⟩
    unfold revealAll at h2 ⊢
    rw [List.foldlM_cons, h1, ok_bind_m]
    exact h2

/-- C6, amended (mercy guarantee).  On a rectangular board with `GameOver`
false: every `RevealAt` call at an in-range coordinate that starts with at
least one mercy credit returns with `GameOver` still false, when chain
reveal is disabled or the adjacency invariant holds; and with chain reveal
disabled every sequence of at most `disarms` calls returns with `GameOver`
still false. -/
theorem C6_mercy_amended (w h : Nat) (g : Game) (hb : Rect w h g.board)
    (hgo : g.State.GameOver = false) (fuel : Nat) (hfuel : w * h + 2 ≤ fuel) :
    (∀ x < w, ∀ y < h, 0 < g.State.disarms →
      (g.options.chainRevealing = false ∨ AdjInv w h g.board) →
      ∃ g', RevealAt fuel g x y = .ok g' ∧ g'.State.GameOver = false) ∧
    (g.options.chainRevealing = false →
      ∀ cs : List (Nat × Nat), (∀ c ∈ cs, c.1 < w ∧ c.2 < h) →
        (cs.length : Int) ≤ g.State.disarms →
        ∃ g', revealAll fuel g cs = .ok g' ∧ g'.State.GameOver = false) := by
  obtain ⟨k, rfl⟩ : ∃ k, fuel = k + 1 := ⟨fuel - 1, by omega⟩
  constructor
  · intro x hx y hy hd hor
    rcases hor with hchain | hinv
    · obtain ⟨g', h1, _, _, h2, _⟩ := RevealAt_nochain_credit k hb hx hy hchain hd
      exact ⟨g', h1, h2.trans hgo⟩
    · obtain ⟨g', hr, _, _⟩ := RevealAt_returns hb hx hy hfuel
      exact ⟨g', hr, (RevealAt_safe _ g g' x y hb hx hy hinv (Or.inr hd) hr).trans hgo⟩
  · intro hchain cs hcs hlen
    obtain ⟨g', h1, h2⟩ := revealAll_nochain k cs hcs g hb hchain hlen
    exact ⟨g', h1, h2.trans hgo⟩

theorem rect_board31 : Rect 3 1 board31 := ⟨rfl, by decide⟩

theorem C6_mercy_amended_witness :
    (∀ x < 3, ∀ y < 1, 0 < (game31 2 false).State.disarms →
      ((game31 2 false).options.chainRevealing = false ∨ AdjInv 3 1 (game31 2 false).board) →
      ∃ g', RevealAt 5 (game31 2 false) x y = .ok g' ∧ g'.State.GameOver = false) ∧
    ((game31 2 false).options.chainRevealing = false →
      ∀ cs : List (Nat × Nat), (∀ c ∈ cs, c.1 < 3 ∧ c.2 < 1) →
        (cs.length : Int) ≤ (game31 2 false).State.disarms →
        ∃ g', revealAll 5 (game31 2 false) cs = .ok g' ∧ g'.State.GameOver = false) :=
  C6_mercy_amended 3 1 (game31 2 false) rect_board31 rfl 5 (by decide)

/-- C6, counterexample.  With two mercy credits and chain reveal enabled,
the first call (on the safe corner) spends both credits, one of them in the
chained reveal of its neighbour, and the second call, on the mine, ends
the game. -/
theorem C6_mercy_counterexample :
    NewGame [(2, 0)] 3 1 2 1 true = .ok (game31 2 true) ∧
    (game31 2 true).State.disarms = 2 ∧ AdjInv 3 1 (game31 2 true).board ∧
    ∃ g1 g2, RevealAt 5 (game31 2 true) 0 0 = .ok g1 ∧ RevealAt 5 g1 2 0 = .ok g2 ∧
      g1.State.disarms = 0 ∧ g2.State.GameOver = true := by
  refine ⟨rfl, rfl, by unfold AdjInv; decide, ?_⟩
  exact ⟨_, _, rfl, rfl, rfl, rfl⟩

theorem tileAt_out {w h : Nat} {b : board} (hb : Rect w h b) {i j : Nat}
    (hout : ¬ (i < w ∧ j < h)) : tileAt b i j = default := by
  unfold tileAt
  by_cases hi : i < w
  · obtain ⟨col, h1, h2⟩ := hb.col_length hi
    have hj : col.length ≤ j := by
      rw [h2]; exact Nat.le_of_not_lt (fun hj => hout ⟨hi, hj⟩)
    simp [h1, List.getElem?_eq_none hj]
  · have : b.length ≤ i := by rw [hb.1]; exact Nat.le_of_not_lt hi
    simp [List.getElem?_eq_none this]

theorem Blame.nothing (g : Game) : Blame g g := fun _ _ hr hm => Or.inl ⟨hr, hm⟩

theorem Blame.chain {w h : Nat} {a b c : Game} (hab : Blame a b) (hbc : Blame b c)
    (hf : Frame w h b c) : Blame a c := by
  intro i j hr hm
  rcases hbc i j hr hm with ⟨h1, h2⟩ | h1
  · rcases hab i j h1 h2 with h3 | h3
    · exact Or.inl h3
    · exact Or.inr (hf.gameOver_mono h3)
  · exact Or.inr h1

theorem RevealAt_blame {w h : Nat} : ∀ (fuel : Nat) (g g' : Game) (x y : Nat),
    Rect w h g.board → x < w → y < h → RevealAt fuel g x y = .ok g' → Blame g g' := by
  intro fuel
  induction fuel with
  | zero => intro g g' x y _ _ _ hr; simp [RevealAt] at hr
  | succ fuel ih =>
    intro g g' x y hb hx hy hr
    by_cases hfl : (tileAt g.board x y).flagged = true
    · rw [RevealAt_succ fuel hb hx hy, if_pos hfl] at hr
      cases hr; exact Blame.nothing g
    · have hnf : (tileAt g.board x y).flagged = false := by simpa using hfl
      obtain ⟨g1, g3, h1, hb1, h3, hb3, rfl⟩ := RevealAt_shape fuel hb hx hy hnf hr
      obtain ⟨_, _, _, _, hf1, hrev1⟩ := mercy_ok hb hx hy h1
      have hI := chainPhase_keeps (w := w) (h := h) (n := fuel) (x := x) (y := y)
        (fun s : Game => Rect w h s.board ∧ Blame (markRevealed g1 x y) s)
        (by
          intro _ s s' q hs hq _ hcall
          have hq' := mem_nbhd.1 hq
          exact ⟨RevealAt_rect fuel s s' q.1 q.2 hs.1 hq'.1 hq'.2.1 hcall,
            hs.2.chain (ih s s' q.1 q.2 hs.1 hq'.1 hq'.2.1 hcall)
              (RevealAt_frame fuel s s' q.1 q.2 hs.1 hq'.1 hq'.2.1 hcall)⟩)
        ⟨rect_markRevealed hb1 x y, Blame.nothing _⟩ h3
      intro i j hr' hm'
      rw [finish_board] at hr' hm'
      rcases hI.2 i j hr' hm' with ⟨h2r, h2m⟩ | hgo
      · rw [tileAt_markRevealed hb1 hx hy] at h2r h2m
        by_cases hij : i = x ∧ j = y
        · right
          rw [hij.1, hij.2] at hm'
          exact finish_mine hm'
        · rw [if_neg hij] at h2r h2m
          left
          exact ⟨by rw [← hrev1]; exact h2r, hf1.mine_anti i j h2m⟩
      · right
        exact (frame_finish w h g3 x y).gameOver_mono hgo

theorem SmartReveal_blame {w h : Nat} {fuel : Nat} {g g' : Game} (hb : Rect w h g.board)
    {x y : Nat} (hx : x < w) (hy : y < h) (hs : SmartReveal fuel g x y = .ok g') :
    Blame g g' := by
  rw [SmartReveal_eq fuel hb hx hy] at hs
  split at hs
  · cases hs; exact Blame.nothing g
  · refine (foldlM_keeps (fun s : Game => Rect w h s.board ∧ Blame g s) _ _ ?_ g g'
      ⟨hb, Blame.nothing g⟩ hs).2
    intro q hq s s' hI hstep
    obtain ⟨k1, k2⟩ := smartStep_keeps hq hI.1 hstep
    refine ⟨k1, hI.2.chain ?_ k2⟩
    have hq' := mem_nbhd.1 hq
    unfold smartStep at hstep
    split at hstep
    · cases hstep; exact Blame.nothing s
    · exact RevealAt_blame fuel s s' q.1 q.2 hI.1 hq'.1 hq'.2.1 hstep

theorem toggled_same {w h : Nat} {g : Game} (hb : Rect w h g.board) {x y : Nat}
    (hx : x < w) (hy : y < h) :
    (toggled g x y).State.GameOver = g.State.GameOver ∧
    (toggled g x y).State.mines = g.State.mines ∧
    (toggled g x y).State.disarms = g.State.disarms ∧
    (toggled g x y).options = g.options ∧
    ∀ i j, (tileAt (toggled g x y).board i j).revealed = (tileAt g.board i j).revealed ∧
      (tileAt (toggled g x y).board i j).mine = (tileAt g.board i j).mine ∧
      (tileAt (toggled g x y).board i j).adjacentMines = (tileAt g.board i j).adjacentMines := by
  refine ⟨?_, ?_, ?_, ?_, ?_⟩
  · unfold toggled; split
    · rfl
    · split
      · rfl
      · dsimp only; split <;> rfl
  · unfold toggled; split
    · rfl
    · split
      · rfl
      · dsimp only; split <;> rfl
  · unfold toggled; split
    · rfl
    · split
      · rfl
      · dsimp only; split <;> rfl
  · unfold toggled; split
    · rfl
    · split <;> rfl
  · intro i j
    rcases tileAt_toggled hb hx hy i j with h1 | ⟨h1, h2, _, _, h3⟩
    · rw [h1]; exact ⟨rfl, rfl, rfl⟩
    · rw [h3, h1, h2]; exact ⟨rfl, rfl, rfl⟩

/-- Every public call at an in-range coordinate returns, keeps the shape of
the board, never resets `GameOver`, and adds no revealed mine without
setting `GameOver`. -/
theorem step_returns {w h : Nat} {g : Game} (hb : Rect w h g.board) {op : Op}
    (hop : op.coord.1 < w ∧ op.coord.2 < h) {fuel : Nat} (hfuel : w * h + 2 ≤ fuel) :
    ∃ g', step fuel g op = .ok g' ∧ Rect w h g'.board ∧ Blame g g' ∧
      (g.State.GameOver = true → g'.State.GameOver = true) ∧
      g'.State.mines - (mineTotal w h g'.board : Int)
        = g.State.mines - (mineTotal w h g.board : Int) := by
  cases op with
  | reveal x y =>
    obtain ⟨g', h1, h2, h3⟩ := RevealAt_returns hb hop.1 hop.2 hfuel
    exact ⟨g', h1, h2, RevealAt_blame fuel g g' x y hb hop.1 hop.2 h1, h3.gameOver_mono,
      h3.mines_kept⟩
  | smart x y =>
    obtain ⟨g', h1, h2, h3⟩ := SmartReveal_returns hb hop.1 hop.2 hfuel
    exact ⟨g', h1, h2, SmartReveal_blame hb hop.1 hop.2 h1, h3.gameOver_mono, h3.mines_kept⟩
  | toggle x y =>
    have hx : x < w := hop.1
    have hy : y < h := hop.2
    obtain ⟨e1, e2, _, _, e5⟩ := toggled_same hb hx hy
    refine ⟨_, ToggleFlaggedAt_eq hb hx hy, rect_toggled hb x y, ?_, fun hg => by
      rw [e1]; exact hg, by rw [e2, mineTotal_congr w h (fun i j => (e5 i j).2.1)]⟩
    intro i j hr hm
    rw [(e5 i j).1] at hr
    rw [(e5 i j).2.1] at hm
    exact Or.inl ⟨hr, hm⟩

/-- No public call changes the difference between `State.mines` and the number
of mine tiles: every sequence of calls at in-range coordinates returns with
that difference as it was. -/
theorem run_mines_offset {w h : Nat} {g : Game} (hb : Rect w h g.board) (ops : List Op)
    (hops : ∀ op ∈ ops, op.coord.1 < w ∧ op.coord.2 < h) {fuel : Nat}
    (hfuel : w * h + 2 ≤ fuel) :
    ∃ g', run fuel g ops = .ok g' ∧
      g'.State.mines - (mineTotal w h g'.board : Int)
        = g.State.mines - (mineTotal w h g.board : Int) := by
  obtain ⟨g', h1, _, h3⟩ := foldlM_total
    (fun s : Game => Rect w h s.board ∧
      s.State.mines - (mineTotal w h s.board : Int)
        = g.State.mines - (mineTotal w h g.board : Int))
    (step fuel) ops (by
      intro op hop s hs
      obtain ⟨s', e1, e2, _, _, e5⟩ := step_returns hs.1 (hops op hop) hfuel
      exact ⟨s', e1, e2, e5.trans hs.2⟩) g ⟨hb, rfl⟩
  exact ⟨g', h1, h3⟩

/-- C9 (revealed-mine invariant).  From a rectangular board on which no tile
is revealed, every sequence of `RevealAt` / `SmartReveal` /
`ToggleFlaggedAt` calls at in-range coordinates returns (the fuel being two
more than the number of tiles), and in the session it returns a tile that is
both revealed and a mine implies `GameOver`.  Every prefix of a sequence is
a sequence, so this is the state after each public call. -/
theorem C9_revealed_mine_gameOver (w h : Nat) (g0 : Game) (hb : Rect w h g0.board)
    (hnew : ∀ i < w, ∀ j < h, (tileAt g0.board i j).revealed = false)
    (ops : List Op) (hops : ∀ op ∈ ops, op.coord.1 < w ∧ op.coord.2 < h) (fuel : Nat)
    (hfuel : w * h + 2 ≤ fuel) :
    ∃ g', run fuel g0 ops = .ok g' ∧
      ∀ i < w, ∀ j < h, (tileAt g'.board i j).revealed = true →
        (tileAt g'.board i j).mine = true → g'.State.GameOver = true := by
  have hstart : ∀ i j, (tileAt g0.board i j).revealed = true →
      (tileAt g0.board i j).mine = true → g0.State.GameOver = true := by
    intro i j hr _
    by_cases hij : i < w ∧ j < h
    · rw [hnew i hij.1 j hij.2] at hr; cases hr
    · rw [tileAt_out hb hij] at hr; cases hr
  obtain ⟨g', h1, _, h3⟩ := foldlM_total
    (fun s : Game => Rect w h s.board ∧
      ∀ i j, (tileAt s.board i j).revealed = true → (tileAt s.board i j).mine = true →
        s.State.GameOver = true)
    (step fuel) ops (by
      intro op hop s hs
      obtain ⟨s', e1, e2, e3, e4, _⟩ := step_returns hs.1 (hops op hop) hfuel
      refine ⟨s', e1, e2, fun i j hr hm => ?_⟩
      rcases e3 i j hr hm with ⟨k1, k2⟩ | k
      · exact e4 (hs.2 i j k1 k2)
      · exact k) g0 ⟨hb, hstart⟩
  exact ⟨g', h1, fun i _ j _ => h3 i j⟩

theorem C9_revealed_mine_gameOver_witness :
    ∃ g', run 11 (game3 0 true) [Op.toggle 0 0, Op.reveal 1 1, Op.smart 1 1] = .ok g' ∧
      ∀ i < 3, ∀ j < 3, (tileAt g'.board i j).revealed = true →
        (tileAt g'.board i j).mine = true → g'.State.GameOver = true :=
  C9_revealed_mine_gameOver 3 3 (game3 0 true) rect_board3adj (by decide)
    [Op.toggle 0 0, Op.reveal 1 1, Op.smart 1 1] (by decide) 11 (by decide)

/-- C7, amended (terminal latch).  Once `GameOver` is true, each of
`RevealAt`, `SmartReveal` and `ToggleFlaggedAt` at an in-range coordinate of
a rectangular board returns with `GameOver` still true; the operations do
not themselves test `GameOver`, so the tiles are not frozen by them. -/
theorem C7_latch_amended (w h : Nat) (g : Game) (hb : Rect w h g.board)
    (hgo : g.State.GameOver = true) (x y : Nat) (hx : x < w) (hy : y < h) (fuel : Nat)
    (hfuel : w * h + 2 ≤ fuel) :
    (∃ g', RevealAt fuel g x y = .ok g' ∧ g'.State.GameOver = true) ∧
    (∃ g', SmartReveal fuel g x y = .ok g' ∧ g'.State.GameOver = true) ∧
    (∃ g', ToggleFlaggedAt g x y = .ok g' ∧ g'.State.GameOver = true) := by
  obtain ⟨g1, e1, _, f1⟩ := RevealAt_returns hb hx hy hfuel
  obtain ⟨g2, e2, _, f2⟩ := SmartReveal_returns hb hx hy hfuel
  exact ⟨⟨g1, e1, f1.gameOver_mono hgo⟩, ⟨g2, e2, f2.gameOver_mono hgo⟩,
    ⟨_, ToggleFlaggedAt_eq hb hx hy, by rw [(toggled_same hb hx hy).1]; exact hgo⟩⟩

theorem C7_latch_amended_witness :
    (∃ g', RevealAt 11 game3over 0 0 = .ok g' ∧ g'.State.GameOver = true) ∧
    (∃ g', SmartReveal 11 game3over 0 0 = .ok g' ∧ g'.State.GameOver = true) ∧
    (∃ g', ToggleFlaggedAt game3over 0 0 = .ok g' ∧ g'.State.GameOver = true) :=
  C7_latch_amended 3 3 game3over ⟨rfl, by decide⟩ rfl 0 0 (by decide) (by decide) 11
    (by decide)

/-- C7, counterexample.  In the session reached by revealing the mine of the
3x3 board, whose `GameOver` is true, `RevealAt (0, 0)` still reveals the
tile and `ToggleFlaggedAt (0, 0)` still flags it. -/
theorem C7_latch_counterexample :
    RevealAt 11 (game3 0 false) 1 1 = .ok game3over ∧
    game3over.State.GameOver = true ∧ (tileAt game3over.board 0 0).revealed = false ∧
    (tileAt game3over.board 0 0).flagged = false ∧
    (∃ g', RevealAt 11 game3over 0 0 = .ok g' ∧ (tileAt g'.board 0 0).revealed = true) ∧
    (∃ g', ToggleFlaggedAt game3over 0 0 = .ok g' ∧ (tileAt g'.board 0 0).flagged = true) :=
  ⟨rfl, rfl, rfl, rfl, ⟨_, rfl, rfl⟩, ⟨_, rfl, rfl⟩⟩

/-- C4, the defect.  `NewGame` on a 1x1 board asked for two mines places the
one mine that fits and still records `State.mines = 2`; a negative request
places no mine and records the negative number. -/
theorem C4_mines_not_clamped :
    (∃ g, NewGame [(0, 0)] 1 1 0 2 false = .ok g ∧ g.State.mines = 2 ∧
      mineTotal 1 1 g.board = 1) ∧
    (∃ g, NewGame [] 1 1 0 (-1) false = .ok g ∧ g.State.mines = -1 ∧
      mineTotal 1 1 g.board = 0) :=
  ⟨⟨_, rfl, rfl, rfl⟩, ⟨_, rfl, rfl, rfl⟩⟩

/-- C5, the defect.  With `mines = 2`, after two flags have been placed the
guard `flags > mines` does not fire, and a third flag is placed:
`flags = 3 > mines = 2`. -/
theorem C5_third_flag_accepted :
    NewGame [(0, 0), (1, 1)] 2 2 0 2 true = .ok game22 ∧
    ∃ g1 g2 g3, ToggleFlaggedAt game22 0 0 = .ok g1 ∧ ToggleFlaggedAt g1 0 1 = .ok g2 ∧
      g2.State.flags = 2 ∧ g2.State.mines = 2 ∧
      (tileAt g2.board 1 0).revealed = false ∧ (tileAt g2.board 1 0).flagged = false ∧
      ToggleFlaggedAt g2 1 0 = .ok g3 ∧ g3.State.flags = 3 ∧ g3.State.mines = 2 ∧
      (tileAt g3.board 1 0).flagged = true :=
  ⟨rfl, _, _, _, rfl, rfl, rfl, rfl, rfl, rfl, rfl, rfl, rfl, rfl⟩

theorem Static.step {w h : Nat} {b0 : board} {g g' : Game} (hs : Static b0 g)
    (hf : Frame w h g g') : Static b0 g' := by
  obtain ⟨h1, _, h3⟩ := hf.no_credit hs.1
  exact ⟨by rw [h1]; exact hs.1, fun i j =>
    ⟨(hf.flagged_eq i j).trans (hs.2 i j).1, (h3 i j).2.trans (hs.2 i j).2.1,
      (h3 i j).1.trans (hs.2 i j).2.2⟩⟩

theorem RevealAt_flagged {w h : Nat} {fuel : Nat} {g g' : Game} (hb : Rect w h g.board)
    {x y : Nat} (hx : x < w) (hy : y < h) (hfl : (tileAt g.board x y).flagged = true)
    (hr : RevealAt fuel g x y = .ok g') : g' = g := by
  cases fuel with
  | zero => simp [RevealAt] at hr
  | succ k =>
    rw [RevealAt_succ k hb hx hy, if_pos hfl] at hr
    cases hr; rfl

theorem chainStep_frame {w h fuel : Nat} {x y : Nat} {s s' : Game} {q : Nat × Nat}
    (hq : q ∈ nbhd w h x y) (hs : Rect w h s.board) (hstep : chainStep fuel s q = .ok s') :
    Frame w h s s' := by
  have hq' := mem_nbhd.1 hq
  unfold chainStep at hstep
  split at hstep
  · cases hstep; exact Frame.same _ _ _
  · exact RevealAt_frame fuel s s' q.1 q.2 hs hq'.1 hq'.2.1 hstep

theorem chainPhase_frame {w h fuel : Nat} {x y : Nat} {g g' : Game} (hb : Rect w h g.board)
    (hc : chainPhase w h fuel g x y = .ok g') : Rect w h g'.board ∧ Frame w h g g' :=
  chainPhase_keeps (fun s : Game => Rect w h s.board ∧ Frame w h g s)
    (fun _ s s' q hs hq _ hcall =>
      ⟨RevealAt_rect fuel s s' q.1 q.2 hs.1 (mem_nbhd.1 hq).1 (mem_nbhd.1 hq).2.1 hcall,
        hs.2.comp (RevealAt_frame fuel s s' q.1 q.2 hs.1 (mem_nbhd.1 hq).1 (mem_nbhd.1 hq).2.1
          hcall)⟩)
    ⟨hb, Frame.same _ _ _⟩ hc

/-- A reveal of an unflagged tile leaves that tile revealed. -/
theorem RevealAt_reveals {w h : Nat} {fuel : Nat} {g g' : Game} (hb : Rect w h g.board)
    {x y : Nat} (hx : x < w) (hy : y < h) (hnf : (tileAt g.board x y).flagged = false)
    (hr : RevealAt fuel g x y = .ok g') : (tileAt g'.board x y).revealed = true := by
  cases fuel with
  | zero => simp [RevealAt] at hr
  | succ k =>
    obtain ⟨g1, g3, h1, hb1, h3, _, rfl⟩ := RevealAt_shape k hb hx hy hnf hr
    rw [finish_board]
    apply (chainPhase_frame (rect_markRevealed hb1 x y) h3).2.revealed_mono
    rw [tileAt_markRevealed hb1 hx hy, if_pos ⟨rfl, rfl⟩]

/-- Without a mercy credit, a reveal that starts inside a set `T` closed under
the chain step reveals nothing outside `T`. -/
theorem RevealAt_within {w h : Nat} (b0 : board) (T : Nat × Nat → Prop)
    (hclosed : ∀ q : Nat × Nat, T q → q.1 < w → q.2 < h →
      (tileAt b0 q.1 q.2).flagged = false → (tileAt b0 q.1 q.2).adjacentMines = 0 →
      ∀ r ∈ nbhd w h q.1 q.2, (tileAt b0 r.1 r.2).flagged = false → T r) :
    ∀ (fuel : Nat) (g g' : Game) (x y : Nat), Rect w h g.board → x < w → y < h →
      Static b0 g → ((tileAt b0 x y).flagged = false → T (x, y)) →
      RevealAt fuel g x y = .ok g' →
      ∀ i j, (tileAt g'.board i j).revealed = true →
        (tileAt g.board i j).revealed = true ∨ T (i, j) := by
  intro fuel
  induction fuel with
  | zero => intro g g' x y _ _ _ _ _ hr; simp [RevealAt] at hr
  | succ fuel ih =>
    intro g g' x y hb hx hy hst hT hr i j hrev
    by_cases hfl : (tileAt g.board x y).flagged = true
    · rw [RevealAt_flagged hb hx hy hfl hr] at hrev; exact Or.inl hrev
    · have hnf : (tileAt g.board x y).flagged = false := by simpa using hfl
      have hTxy : T (x, y) := hT (by rw [← (hst.2 x y).1]; exact hnf)
      obtain ⟨g1, g3, h1, hb1, h3, _, rfl⟩ := RevealAt_shape fuel hb hx hy hnf hr
      obtain rfl : g1 = g := (mercy_ok hb hx hy h1).2.2.1 hst.1
      have hI := chainPhase_keeps (w := w) (h := h) (n := fuel) (x := x) (y := y)
        (fun s : Game => Rect w h s.board ∧ Static b0 s ∧
          ∀ i j, (tileAt s.board i j).revealed = true →
            (tileAt g1.board i j).revealed = true ∨ T (i, j))
        (by
          intro hz s s' q hs hq _ hcall
          have hq' := mem_nbhd.1 hq
          have hfr := RevealAt_frame fuel s s' q.1 q.2 hs.1 hq'.1 hq'.2.1 hcall
          refine ⟨RevealAt_rect fuel s s' q.1 q.2 hs.1 hq'.1 hq'.2.1 hcall,
            hs.2.1.step hfr, fun a b hab => ?_⟩
          have hz0 : (tileAt b0 x y).adjacentMines = 0 := by
            rw [← (hst.2 x y).2.1]
            rw [tileAt_markRevealed hb hx hy, if_pos ⟨rfl, rfl⟩] at hz
            exact hz
          rcases ih s s' q.1 q.2 hs.1 hq'.1 hq'.2.1 hs.2.1
            (fun hfq => hclosed (x, y) hTxy hx hy (by rw [← (hst.2 x y).1]; exact hnf) hz0 q hq
              hfq) hcall a b hab with k | k
          · exact hs.2.2 a b k
          · exact Or.inr k)
        ⟨rect_markRevealed hb x y, hst.step (frame_markRevealed hb hx hy), fun a b hab => by
          rw [tileAt_markRevealed hb hx hy] at hab
          by_cases hxy : a = x ∧ b = y
          · rw [hxy.1, hxy.2]; exact Or.inr hTxy
          · rw [if_neg hxy] at hab; exact Or.inl hab⟩ h3
      rw [finish_board] at hrev
      exact hI.2.2 i j hrev

/-- Partial-correctness rule of a fold with a postcondition for each element:
what a step establishes for its element, and later steps keep, holds for
every element after the fold. -/
theorem foldlM_each {σ α : Type} (I : σ → Prop) (Q : α → σ → Prop)
    (f : σ → α → Except Fault σ) (l : List α)
    (hstep : ∀ a ∈ l, ∀ s s', I s → f s a = .ok s' → I s' ∧ Q a s')
    (hstable : ∀ a, ∀ b ∈ l, ∀ s s', I s → f s b = .ok s' → Q a s → Q a s') :
    ∀ s s', I s → l.foldlM f s = .ok s' → I s' ∧ ∀ a ∈ l, Q a s' := by
  induction l with
  | nil =>
    intro s s' hs h
    simp [pure, Except.pure] at h
    subst h
    exact ⟨hs, fun a ha => by cases ha⟩
  | cons c l ih =>
    intro s s' hs h
    rw [List.foldlM_cons] at h
    obtain ⟨s1, h1, h2⟩ := bind_eq_ok h
    obtain ⟨hs1, hq1⟩ := hstep c (List.mem_cons_self _ _) s s1 hs h1
    obtain ⟨hs', hall⟩ := ih (fun b hb => hstep b (List.mem_cons_of_mem _ hb))
      (fun a b hb => hstable a b (List.mem_cons_of_mem _ hb)) s1 s' hs1 h2
    refine ⟨hs', fun a ha => ?_⟩
    rcases List.mem_cons.1 ha with rfl | ha'
    · have hkeep : ∀ (l' : List α), (∀ b ∈ l', b ∈ l) → ∀ t t', I t → Q a t →
          l'.foldlM f t = .ok t' → Q a t' := by
        intro l'
        induction l' with
        | nil => intro _ t t' _ hq ht; simp [pure, Except.pure] at ht; subst ht; exact hq
        | cons d l' ih' =>
          intro hsub t t' ht hq hfold
          rw [List.foldlM_cons] at hfold
          obtain ⟨t1, e1, e2⟩ := bind_eq_ok hfold
          have hd : d ∈ l := hsub d (List.mem_cons_self _ _)
          exact ih' (fun b hb => hsub b (List.mem_cons_of_mem _ hb)) t1 t'
            (hstep d (List.mem_cons_of_mem _ hd) t t1 ht e1).1
            (hstable a d (List.mem_cons_of_mem _ hd) t t1 ht e1 hq) e2
      exact hkeep l (fun b hb => hb) s1 s' hs1 hq1 h2
    · exact hall a ha'

theorem Done.of_board {w h : Nat} {b0 : board} {E : Nat × Nat → Prop} {g g' : Game}
    (hbd : g'.board = g.board) (hd : Done w h b0 E g) : Done w h b0 E g' := by
  unfold Done at hd ⊢
  rw [hbd]; exact hd

/-- Without a mercy credit and with chain reveal enabled, a reveal keeps the
revealed zero tiles closed: those outside `E` have all their unflagged
neighbours revealed. -/
theorem RevealAt_closes {w h : Nat} (b0 : board) :
    ∀ (fuel : Nat) (g g' : Game) (x y : Nat) (E : Nat × Nat → Prop),
      Rect w h g.board → x < w → y < h → Static b0 g → g.options.chainRevealing = true →
      RevealAt fuel g x y = .ok g' → Done w h b0 E g → Done w h b0 E g' := by
  intro fuel
  induction fuel with
  | zero => intro g g' x y E _ _ _ _ _ hr; simp [RevealAt] at hr
  | succ fuel ih =>
    intro g g' x y E hb hx hy hst hch hr hdone
    by_cases hfl : (tileAt g.board x y).flagged = true
    · rw [RevealAt_flagged hb hx hy hfl hr]; exact hdone
    · have hnf : (tileAt g.board x y).flagged = false := by simpa using hfl
      obtain ⟨g1, g3, h1, hb1, h3, _, rfl⟩ := RevealAt_shape fuel hb hx hy hnf hr
      obtain rfl : g1 = g := (mercy_ok hb hx hy h1).2.2.1 hst.1
      refine Done.of_board (finish_board g3 x y) ?_
      have hb2 := rect_markRevealed hb1 x y
      have hf2 := frame_markRevealed hb1 hx hy
      have hst2 : Static b0 (markRevealed g1 x y) := hst.step hf2
      have hch2 : (markRevealed g1 x y).options.chainRevealing = true := hch
      have hd2 : Done w h b0 (fun q => E q ∨ q = (x, y)) (markRevealed g1 x y) := by
        intro q hq1 hq2 hrev hE hfq hzq r hr hfr
        have hne : ¬ (q.1 = x ∧ q.2 = y) := fun hh => hE (Or.inr (Prod.ext hh.1 hh.2))
        rw [tileAt_markRevealed hb1 hx hy, if_neg hne] at hrev
        exact hf2.revealed_mono r.1 r.2
          (hdone q hq1 hq2 hrev (fun hh => hE (Or.inl hh)) hfq hzq r hr hfr)
      unfold chainPhase at h3
      split at h3
      · obtain ⟨hI, hQ⟩ := foldlM_each
          (fun s : Game => Rect w h s.board ∧ Static b0 s ∧ s.options.chainRevealing = true ∧
            Done w h b0 (fun q => E q ∨ q = (x, y)) s)
          (fun (r : Nat × Nat) (s : Game) => (tileAt b0 r.1 r.2).flagged = false →
            (tileAt s.board r.1 r.2).revealed = true)
          (chainStep fuel) (nbhd w h x y)
          (by
            intro q hq s s' hs hstep
            have hq' := mem_nbhd.1 hq
            have hfr := chainStep_frame hq hs.1 hstep
            have hrect := chainStep_rect hq hs.1 hstep
            unfold chainStep at hstep
            split at hstep
            · next hrq =>
              cases hstep
              exact ⟨hs, fun _ => hrq⟩
            · refine ⟨⟨hrect, hs.2.1.step hfr, by rw [hfr.options_eq]; exact hs.2.2.1,
                ih s s' q.1 q.2 _ hs.1 hq'.1 hq'.2.1 hs.2.1 hs.2.2.1 hstep hs.2.2.2⟩, fun hfq => ?_⟩
              exact RevealAt_reveals hs.1 hq'.1 hq'.2.1
                (by rw [(hs.2.1.2 q.1 q.2).1]; exact hfq) hstep)
          (by
            intro a b hb' s s' hs hstep hqa hfa
            exact (chainStep_frame hb' hs.1 hstep).revealed_mono a.1 a.2 (hqa hfa))
          _ _ ⟨hb2, hst2, hch2, hd2⟩ h3
        intro q hq1 hq2 hrev hE hfq hzq r hr hfr
        by_cases hxy : q = (x, y)
        · subst hxy
          exact hQ r hr hfr
        · exact hI.2.2.2 q hq1 hq2 hrev (fun hh => hh.elim hE hxy) hfq hzq r hr hfr
      · next hcond =>
        cases h3
        intro q hq1 hq2 hrev hE hfq hzq r hr hfr
        by_cases hxy : q = (x, y)
        · subst hxy
          exfalso
          apply hcond
          have : (tileAt (markRevealed g1 x y).board x y).adjacentMines = 0 := by
            rw [(hst2.2 x y).2.1]; exact hzq
          simp [this, hch2]
        · exact hd2 q hq1 hq2 hrev (fun hh => hh.elim hE hxy) hfq hzq r hr hfr

theorem Region.zero {w h : Nat} {b : board} {s q : Nat × Nat} (hs : ZeroTile w h b s)
    (hr : Region w h b s q) : ZeroTile w h b q := by
  induction hr with
  | refl => exact hs
  | tail _ hstep _ => exact hstep.2.1

theorem adj8_mem_nbhd {w h : Nat} {p q : Nat × Nat} (hq1 : q.1 < w) (hq2 : q.2 < h)
    (ha : Adj8 p q) : q ∈ nbhd w h p.1 p.2 := by
  rw [mem_nbhd]
  obtain ⟨_, h1, h2, h3, h4⟩ := ha
  omega

/-- Under the adjacency invariant the opened cells hold no mine and no flag. -/
theorem Opened.safe {w h : Nat} {b : board} (hinv : AdjInv w h b) {s q : Nat × Nat}
    (hs : ZeroTile w h b s) (ho : Opened w h b s q) :
    q.1 < w ∧ q.2 < h ∧ (tileAt b q.1 q.2).flagged = false ∧ (tileAt b q.1 q.2).mine = false := by
  rcases ho with hr | ⟨h1, h2, h3, p, hp, ha⟩
  · obtain ⟨k1, k2, k3, k4, _⟩ := Region.zero hs hr
    exact ⟨k1, k2, k3, k4⟩
  · obtain ⟨k1, k2, _, k4, k5⟩ := Region.zero hs hp
    exact ⟨h1, h2, h3, no_mine_near hinv k1 k2 k4 k5 q (adj8_mem_nbhd h1 h2 ha)⟩

/-- Under the adjacency invariant the opened cells are closed under the chain
step. -/
theorem Opened.closed {w h : Nat} {b : board} (hinv : AdjInv w h b) {s : Nat × Nat}
    (hs : ZeroTile w h b s) (q : Nat × Nat) (ho : Opened w h b s q) (hq1 : q.1 < w)
    (hq2 : q.2 < h) (hfq : (tileAt b q.1 q.2).flagged = false)
    (hzq : (tileAt b q.1 q.2).adjacentMines = 0) (r : Nat × Nat) (hr : r ∈ nbhd w h q.1 q.2)
    (hfr : (tileAt b r.1 r.2).flagged = false) : Opened w h b s r := by
  have hzero : ZeroTile w h b q := ⟨hq1, hq2, hfq, (Opened.safe hinv hs ho).2.2.2, hzq⟩
  have hreg : Region w h b s q := by
    rcases ho with hr | ⟨_, _, _, p, hp, ha⟩
    · exact hr
    · exact Relation.ReflTransGen.tail hp ⟨Region.zero hs hp, hzero, ha⟩
  have hr' := mem_nbhd.1 hr
  by_cases hqr : q = r
  · rw [← hqr]; exact Or.inl hreg
  · exact Or.inr ⟨hr'.1, hr'.2.1, hfr, q, hreg, hqr, by omega, by omega, by omega, by omega⟩

/-- The flood fill from an unflagged zero tile of a board with nothing
revealed: the tiles revealed afterwards are exactly the opened ones. -/
theorem flood_fill_exact (w h : Nat) (g : Game) (hb : Rect w h g.board)
    (hinv : AdjInv w h g.board) (hch : g.options.chainRevealing = true)
    (hcred : g.State.disarms = 0)
    (hnew : ∀ i < w, ∀ j < h, (tileAt g.board i j).revealed = false) (x y : Nat)
    (hx : x < w) (hy : y < h) (hnf : (tileAt g.board x y).flagged = false)
    (hnm : (tileAt g.board x y).mine = false) (hz : (tileAt g.board x y).adjacentMines = 0)
    (fuel : Nat) (hfuel : w * h + 2 ≤ fuel) :
    ∃ g', RevealAt fuel g x y = .ok g' ∧
      (∀ i < w, ∀ j < h,
        (tileAt g'.board i j).revealed = true ↔ Opened w h g.board (x, y) (i, j)) ∧
      (∀ i < w, ∀ j < h, (tileAt g'.board i j).revealed = true →
        (tileAt g'.board i j).flagged = false ∧ (tileAt g'.board i j).mine = false) := by
  obtain ⟨g', hr, _, hfr⟩ := RevealAt_returns hb hx hy hfuel
  have hst : Static g.board g := ⟨le_of_eq hcred, fun _ _ => ⟨rfl, rfl, rfl⟩⟩
  have hs : ZeroTile w h g.board (x, y) := ⟨hx, hy, hnf, hnm, hz⟩
  have hsub : ∀ i < w, ∀ j < h, (tileAt g'.board i j).revealed = true →
      Opened w h g.board (x, y) (i, j) := by
    intro i hi j hj hrev
    rcases RevealAt_within g.board (Opened w h g.board (x, y)) (Opened.closed hinv hs) fuel g g'
      x y hb hx hy hst (fun _ => Or.inl Relation.ReflTransGen.refl) hr i j hrev with k | k
    · rw [hnew i hi j hj] at k; cases k
    · exact k
  have hdone : Done w h g.board (fun _ => False) g' := by
    refine RevealAt_closes g.board fuel g g' x y _ hb hx hy hst hch hr ?_
    intro q hq1 hq2 hrev
    rw [hnew q.1 hq1 q.2 hq2] at hrev; cases hrev
  have hxy : (tileAt g'.board x y).revealed = true := RevealAt_reveals hb hx hy hnf hr
  have hreg : ∀ q : Nat × Nat, Region w h g.board (x, y) q →
      (tileAt g'.board q.1 q.2).revealed = true := by
    intro q hq
    induction hq with
    | refl => exact hxy
    | tail _ hstep ih =>
      obtain ⟨zp, zq, ha⟩ := hstep
      exact hdone _ zp.1 zp.2.1 ih (fun hf => hf) zp.2.2.1 zp.2.2.2.2 _
        (adj8_mem_nbhd zq.1 zq.2.1 ha) zq.2.2.1
  refine ⟨g', hr, fun i hi j hj => ⟨hsub i hi j hj, fun ho => ?_⟩, fun i hi j hj hrev => ?_⟩
  · rcases ho with k | ⟨_, _, hfq, p, hp, ha⟩
    · exact hreg (i, j) k
    · have zp := Region.zero hs hp
      exact hdone p zp.1 zp.2.1 (hreg p hp) (fun hf => hf) zp.2.2.1 zp.2.2.2.2 (i, j)
        (adj8_mem_nbhd hi hj ha) hfq
  · obtain ⟨_, _, k3, k4⟩ := Opened.safe hinv hs (hsub i hi j hj hrev)
    exact ⟨(hfr.flagged_eq i j).trans k3,
      (((hfr.no_credit (le_of_eq hcred)).2.2 i j).1).trans k4⟩

/-- C8 (flood-fill completeness).  With chain reveal enabled, no mercy
credit, the adjacency invariant and no tile revealed, `RevealAt` on an
in-range, unflagged, non-mine tile with `adjacentMines = 0` returns, and the
tiles revealed afterwards are exactly those of the maximal 8-connected region
of unflagged non-mine zero tiles containing `(x, y)` together with the
unflagged tiles 8-adjacent to a tile of that region; no revealed tile is
flagged or a mine. -/
theorem C8_flood_fill (w h : Nat) (g : Game) (hb : Rect w h g.board)
    (hinv : AdjInv w h g.board) (hch : g.options.chainRevealing = true)
    (hcred : g.State.disarms = 0)
    (hnew : ∀ i < w, ∀ j < h, (tileAt g.board i j).revealed = false) (x y : Nat)
    (hx : x < w) (hy : y < h) (hnf : (tileAt g.board x y).flagged = false)
    (hnm : (tileAt g.board x y).mine = false) (hz : (tileAt g.board x y).adjacentMines = 0)
    (fuel : Nat) (hfuel : w * h + 2 ≤ fuel) :
    ∃ g', RevealAt fuel g x y = .ok g' ∧
      (∀ i < w, ∀ j < h,
        (tileAt g'.board i j).revealed = true ↔ Opened w h g.board (x, y) (i, j)) ∧
      (∀ i < w, ∀ j < h, (tileAt g'.board i j).revealed = true →
        (tileAt g'.board i j).flagged = false ∧ (tileAt g'.board i j).mine = false) :=
  flood_fill_exact w h g hb hinv hch hcred hnew x y hx hy hnf hnm hz fuel hfuel

theorem rect_board5 : Rect 5 5 board5 := ⟨rfl, by decide⟩

theorem adjInv_board5 : AdjInv 5 5 board5 := by unfold AdjInv; decide

set_option maxRecDepth 100000 in
theorem reveal_board5 : RevealAt 27 game5 2 2 = .ok { game5 with board := board5open } := rfl

/-- Scenario 3: on the 5x5 board without mines or flags `RevealAt (2, 2)`
reveals all 25 tiles, which are the opened cells of `(2, 2)`. -/
theorem C8_flood_fill_witness :
    ∃ g', RevealAt 27 game5 2 2 = .ok g' ∧
      (∀ i < 5, ∀ j < 5, (tileAt g'.board i j).revealed = true) ∧
      (∀ i < 5, ∀ j < 5,
        (tileAt g'.board i j).revealed = true ↔ Opened 5 5 game5.board (2, 2) (i, j)) := by
  obtain ⟨g', h1, h2, _⟩ := C8_flood_fill 5 5 game5 rect_board5 adjInv_board5 rfl rfl
    (by decide) 2 2 (by decide) (by decide) rfl rfl rfl 27 (by decide)
  refine ⟨g', h1, ?_, h2⟩
  rw [reveal_board5] at h1
  obtain rfl : { game5 with board := board5open } = g' := by cases h1; rfl
  decide

theorem Keeps.still (g : Game) : Keeps g g := ⟨fun _ _ _ => rfl, le_refl _, fun hd => hd⟩

theorem Keeps.next {w h : Nat} {a b c : Game} (hab : Keeps a b) (hbc : Keeps b c)
    (hf : Frame w h a b) : Keeps a c where
  frozen i j hfl :=
    (hbc.frozen i j (by rw [hf.flagged_eq]; exact hfl)).trans (hab.frozen i j hfl)
  disarms_le := le_trans hbc.disarms_le hab.disarms_le
  disarms_nonneg hd := hbc.disarms_nonneg (hab.disarms_nonneg hd)

theorem keeps_mercy {w h : Nat} {g g1 : Game} (hb : Rect w h g.board) {x y : Nat}
    (hx : x < w) (hy : y < h) (hm : mercy g x y = .ok g1) : Keeps g g1 := by
  obtain ⟨_, _, e3, e4, _, e6⟩ := mercy_ok hb hx hy hm
  refine ⟨fun i j _ => e6 i j, ?_, ?_⟩
  · by_cases hd : 0 < g.State.disarms
    · rw [(e4 hd).1]; omega
    · rw [e3 (not_lt.1 hd)]
  · intro h0
    by_cases hd : 0 < g.State.disarms
    · rw [(e4 hd).1]; omega
    · rw [e3 (not_lt.1 hd)]; exact h0

theorem keeps_markRevealed {w h : Nat} {g : Game} (hb : Rect w h g.board) {x y : Nat}
    (hx : x < w) (hy : y < h) (hnf : (tileAt g.board x y).flagged = false) :
    Keeps g (markRevealed g x y) := by
  refine ⟨fun i j hfl => ?_, le_refl _, fun hd => hd⟩
  rw [tileAt_markRevealed hb hx hy]
  split
  · next hij =>
    rw [hij.1, hij.2, hnf] at hfl; cases hfl
  · rfl

theorem keeps_finish (g : Game) (x y : Nat) : Keeps g (finish g x y) := by
  unfold finish
  split
  · exact ⟨fun _ _ _ => rfl, le_refl _, fun hd => hd⟩
  · exact Keeps.still g

/-- Everything `RevealAt` returns is related to its argument by `Keeps`. -/
theorem RevealAt_keeps {w h : Nat} : ∀ (fuel : Nat) (g g' : Game) (x y : Nat),
    Rect w h g.board → x < w → y < h → RevealAt fuel g x y = .ok g' → Keeps g g' := by
  intro fuel
  induction fuel with
  | zero => intro g g' x y _ _ _ hr; simp [RevealAt] at hr
  | succ fuel ih =>
    intro g g' x y hb hx hy hr
    by_cases hfl : (tileAt g.board x y).flagged = true
    · rw [RevealAt_flagged hb hx hy hfl hr]; exact Keeps.still g
    · have hnf : (tileAt g.board x y).flagged = false := by simpa using hfl
      obtain ⟨g1, g3, h1, hb1, h3, hb3, rfl⟩ := RevealAt_shape fuel hb hx hy hnf hr
      obtain ⟨_, _, _, _, hf1, _⟩ := mercy_ok hb hx hy h1
      have hnf1 : (tileAt g1.board x y).flagged = false := by rw [hf1.flagged_eq]; exact hnf
      have hk1 := keeps_mercy hb hx hy h1
      have hk2 := keeps_markRevealed hb1 hx hy hnf1
      have hf2 := frame_markRevealed hb1 hx hy
      have hI := chainPhase_keeps (w := w) (h := h) (n := fuel) (x := x) (y := y)
        (fun s : Game => Rect w h s.board ∧ Frame w h (markRevealed g1 x y) s ∧
          Keeps (markRevealed g1 x y) s)
        (by
          intro _ s s' q hs hq _ hcall
          have hq' := mem_nbhd.1 hq
          exact ⟨RevealAt_rect fuel s s' q.1 q.2 hs.1 hq'.1 hq'.2.1 hcall,
            hs.2.1.comp (RevealAt_frame fuel s s' q.1 q.2 hs.1 hq'.1 hq'.2.1 hcall),
            hs.2.2.next (ih s s' q.1 q.2 hs.1 hq'.1 hq'.2.1 hcall) hs.2.1⟩)
        ⟨rect_markRevealed hb1 x y, Frame.same _ _ _, Keeps.still _⟩ h3
      exact ((hk1.next hk2 hf1).next hI.2.2 (hf1.comp hf2)).next (keeps_finish g3 x y)
        ((hf1.comp hf2).comp hI.2.1)

theorem SmartReveal_keeps {w h : Nat} {fuel : Nat} {g g' : Game} (hb : Rect w h g.board)
    {x y : Nat} (hx : x < w) (hy : y < h) (hs : SmartReveal fuel g x y = .ok g') :
    Rect w h g'.board ∧ Frame w h g g' ∧ Keeps g g' := by
  rw [SmartReveal_eq fuel hb hx hy] at hs
  split at hs
  · cases hs; exact ⟨hb, Frame.same _ _ _, Keeps.still g⟩
  · refine foldlM_keeps (fun s : Game => Rect w h s.board ∧ Frame w h g s ∧ Keeps g s) _ _ ?_
      g g' ⟨hb, Frame.same _ _ _, Keeps.still g⟩ hs
    intro q hq s s' hI hstep
    obtain ⟨k1, k2⟩ := smartStep_keeps hq hI.1 hstep
    refine ⟨k1, hI.2.1.comp k2, hI.2.2.next ?_ hI.2.1⟩
    have hq' := mem_nbhd.1 hq
    unfold smartStep at hstep
    split at hstep
    · cases hstep; exact Keeps.still s
    · exact RevealAt_keeps fuel s s' q.1 q.2 hI.1 hq'.1 hq'.2.1 hstep

/-- C11 (reveal on a flagged tile).  At an in-range coordinate of a
rectangular board whose tile is flagged, `RevealAt` returns the session it
was given: no tile field, no `State` field and no option has changed, no
credit is spent and no mine disarmed. -/
theorem C11_reveal_flagged_noop (w h : Nat) (g : Game) (hb : Rect w h g.board) (x y : Nat)
    (hx : x < w) (hy : y < h) (hfl : (tileAt g.board x y).flagged = true) (fuel : Nat)
    (hfuel : 1 ≤ fuel) : RevealAt fuel g x y = .ok g := by
  obtain ⟨k, rfl⟩ : ∃ k, fuel = k + 1 := ⟨fuel - 1, by omega⟩
  rw [RevealAt_succ k hb hx hy, if_pos hfl]

theorem C11_reveal_flagged_noop_witness :
    ToggleFlaggedAt (game3 1 true) 1 1 = .ok game3flagged ∧
    RevealAt 11 game3flagged 1 1 = .ok game3flagged :=
  ⟨rfl, C11_reveal_flagged_noop 3 3 game3flagged ⟨rfl, by decide⟩ 1 1 (by decide) (by decide)
    rfl 11 (by decide)⟩

/-- C12 (unsatisfied chord).  At an in-range coordinate of a rectangular
board, if the tile is not revealed, or `flagsAdjacentTo` (the number of
flagged tiles of the clamped neighbourhood) does not return the tile's
`adjacentMines`, `SmartReveal` returns the session it was given, whatever
the fuel. -/
theorem C12_unsatisfied_chord_noop (w h : Nat) (g : Game) (hb : Rect w h g.board) (x y : Nat)
    (hx : x < w) (hy : y < h)
    (hun : (tileAt g.board x y).revealed = false ∨
      flagsAdjacentTo g.board x y ≠ .ok (tileAt g.board x y).adjacentMines)
    (fuel : Nat) :
    flagsAdjacentTo g.board x y
      = .ok (countNear (fun t => t.flagged) w h g.board x y : Nat) ∧
    SmartReveal fuel g x y = .ok g := by
  refine ⟨flagsAdjacentTo_ok hb x y, ?_⟩
  rw [SmartReveal_eq fuel hb hx hy, if_pos]
  rcases hun with h1 | h1
  · exact Or.inl h1
  · right
    intro heq
    apply h1
    rw [flagsAdjacentTo_ok hb, heq]

theorem C12_unsatisfied_chord_noop_witness :
    (tileAt game22one.board 0 1).revealed = true ∧
    (tileAt game22one.board 0 1).adjacentMines = 2 ∧
    countNear (fun t => t.flagged) 2 2 game22one.board 0 1 = 1 ∧
    flagsAdjacentTo game22one.board 0 1 = .ok (countNear (fun t => t.flagged) 2 2
      game22one.board 0 1 : Nat) ∧
    SmartReveal 6 game22one 0 1 = .ok game22one :=
  ⟨rfl, rfl, by decide, C12_unsatisfied_chord_noop 2 2 game22one ⟨rfl, by decide⟩ 0 1
    (by decide) (by decide) (Or.inr (fun hh => by
      have h2 : (Except.ok 1 : Except Fault Int) = Except.ok 2 := hh
      cases h2)) 6⟩

/-- The effect of a satisfied chord on a rectangular board. -/
theorem SmartReveal_satisfied {w h : Nat} {g : Game} (hb : Rect w h g.board) {x y : Nat}
    (hx : x < w) (hy : y < h) (hrev : (tileAt g.board x y).revealed = true)
    (hsat : flagsAdjacentTo g.board x y = .ok (tileAt g.board x y).adjacentMines)
    {fuel : Nat} (hfuel : w * h + 2 ≤ fuel) :
    ∃ g', SmartReveal fuel g x y = .ok g' ∧
      (∀ q ∈ nbhd w h x y, (tileAt g.board q.1 q.2).flagged = false →
        (tileAt g'.board q.1 q.2).revealed = true) ∧
      (∀ i j, (tileAt g.board i j).flagged = true →
        (tileAt g'.board i j).flagged = true ∧
        (tileAt g'.board i j).revealed = (tileAt g.board i j).revealed) ∧
      (∀ i j, (tileAt g.board i j).revealed = false → (tileAt g'.board i j).revealed = true →
        (tileAt g'.board i j).mine = true → g'.State.GameOver = true) := by
  obtain ⟨g', hs, _, hfr⟩ := SmartReveal_returns hb hx hy hfuel
  obtain ⟨_, _, hk⟩ := SmartReveal_keeps hb hx hy hs
  have hbl := SmartReveal_blame hb hx hy hs
  refine ⟨g', hs, ?_, fun i j hfl => ⟨by rw [hfr.flagged_eq]; exact hfl, hk.frozen i j hfl⟩,
    ?_⟩
  · have hadj : (tileAt g.board x y).adjacentMines
        = (countNear (fun t => t.flagged) w h g.board x y : Nat) := by
      rw [flagsAdjacentTo_ok hb] at hsat
      exact (Except.ok.inj hsat).symm
    have hfold := hs
    rw [SmartReveal_eq fuel hb hx hy, if_neg (by simp [hrev, hadj])] at hfold
    exact (foldlM_each (fun s : Game => Rect w h s.board ∧ Frame w h g s)
      (fun (q : Nat × Nat) (s : Game) => (tileAt g.board q.1 q.2).flagged = false →
        (tileAt s.board q.1 q.2).revealed = true)
      (smartStep fuel) (nbhd w h x y)
      (by
        intro q hq s s' hI hstep
        obtain ⟨k1, k2⟩ := smartStep_keeps hq hI.1 hstep
        refine ⟨⟨k1, hI.2.comp k2⟩, fun hfq => ?_⟩
        have hq' := mem_nbhd.1 hq
        have hfs : (tileAt s.board q.1 q.2).flagged = false := by
          rw [hI.2.flagged_eq]; exact hfq
        unfold smartStep at hstep
        rw [if_neg (by simp [hfs])] at hstep
        exact RevealAt_reveals hI.1 hq'.1 hq'.2.1 hfs hstep)
      (by
        intro a b hb' s s' hI hstep hqa hfa
        exact (smartStep_keeps hb' hI.1 hstep).2.revealed_mono a.1 a.2 (hqa hfa))
      g g' ⟨hb, Frame.same _ _ _⟩ hfold).2
  · intro i j hr0 hr1 hm1
    rcases hbl i j hr1 hm1 with ⟨k, _⟩ | k
    · rw [hr0] at k; cases k
    · exact k

/-- C13 (satisfied chord).  At an in-range coordinate of a rectangular board
whose tile is revealed and whose `adjacentMines` is what `flagsAdjacentTo`
returns, `SmartReveal` returns, and afterwards every tile of the clamped
neighbourhood that was not flagged is revealed, every tile that was flagged
is still flagged and has its `revealed` field unchanged, and a tile newly
revealed that is a mine comes with `GameOver` true. -/
theorem C13_satisfied_chord (w h : Nat) (g : Game) (hb : Rect w h g.board) (x y : Nat)
    (hx : x < w) (hy : y < h) (hrev : (tileAt g.board x y).revealed = true)
    (hsat : flagsAdjacentTo g.board x y = .ok (tileAt g.board x y).adjacentMines)
    (fuel : Nat) (hfuel : w * h + 2 ≤ fuel) :
    ∃ g', SmartReveal fuel g x y = .ok g' ∧
      (∀ q ∈ nbhd w h x y, (tileAt g.board q.1 q.2).flagged = false →
        (tileAt g'.board q.1 q.2).revealed = true) ∧
      (∀ i j, (tileAt g.board i j).flagged = true →
        (tileAt g'.board i j).flagged = true ∧
        (tileAt g'.board i j).revealed = (tileAt g.board i j).revealed) ∧
      (∀ i j, (tileAt g.board i j).revealed = false → (tileAt g'.board i j).revealed = true →
        (tileAt g'.board i j).mine = true → g'.State.GameOver = true) :=
  SmartReveal_satisfied hb hx hy hrev hsat hfuel

theorem C13_satisfied_chord_witness :
    (tileAt game22two.board 0 1).adjacentMines = 2 ∧
    ∃ g', SmartReveal 6 game22two 0 1 = .ok g' ∧
      (∀ q ∈ nbhd 2 2 0 1, (tileAt game22two.board q.1 q.2).flagged = false →
        (tileAt g'.board q.1 q.2).revealed = true) ∧
      (∀ i j, (tileAt game22two.board i j).flagged = true →
        (tileAt g'.board i j).flagged = true ∧
        (tileAt g'.board i j).revealed = (tileAt game22two.board i j).revealed) ∧
      (∀ i j, (tileAt game22two.board i j).revealed = false →
        (tileAt g'.board i j).revealed = true →
        (tileAt g'.board i j).mine = true → g'.State.GameOver = true) :=
  ⟨rfl, C13_satisfied_chord 2 2 game22two ⟨rfl, by decide⟩ 0 1 (by decide) (by decide) rfl rfl
    6 (by decide)⟩

/-- C14, the defect.  In two sessions reached by public calls,
`ToggleFlaggedAt` on a flagged, unrevealed tile is rejected by the guard
`flags > mines` and leaves the session as it was: after three flags on the
board with two mines (`flags = 3`), and after a flag was placed and the only
mine then disarmed by a mercy reveal (`flags = 1`, `mines = 0`). -/
theorem C14_flag_removal_rejected :
    (∃ g1 g2 g3, ToggleFlaggedAt game22 0 0 = .ok g1 ∧ ToggleFlaggedAt g1 0 1 = .ok g2 ∧
      ToggleFlaggedAt g2 1 0 = .ok g3 ∧
      (tileAt g3.board 0 0).flagged = true ∧ (tileAt g3.board 0 0).revealed = false ∧
      g3.State.flags = 3 ∧ g3.State.mines = 2 ∧ ToggleFlaggedAt g3 0 0 = .ok g3) ∧
    (∃ g1 g2, ToggleFlaggedAt (game3 1 false) 0 0 = .ok g1 ∧ RevealAt 11 g1 1 1 = .ok g2 ∧
      (tileAt g2.board 0 0).flagged = true ∧ (tileAt g2.board 0 0).revealed = false ∧
      g2.State.flags = 1 ∧ g2.State.mines = 0 ∧ ToggleFlaggedAt g2 0 0 = .ok g2) :=
  ⟨⟨_, _, _, rfl, rfl, rfl, rfl, rfl, rfl, rfl, rfl⟩, ⟨_, _, rfl, rfl, rfl, rfl, rfl, rfl, rfl⟩⟩

theorem chainPhase_rel {w h fuel : Nat} {x y : Nat} {g g' : Game} (hb : Rect w h g.board)
    (hc : chainPhase w h fuel g x y = .ok g') : Keeps g g' :=
  (chainPhase_keeps (fun s : Game => Rect w h s.board ∧ Frame w h g s ∧ Keeps g s)
    (fun _ s s' q hs hq _ hcall =>
      ⟨RevealAt_rect fuel s s' q.1 q.2 hs.1 (mem_nbhd.1 hq).1 (mem_nbhd.1 hq).2.1 hcall,
        hs.2.1.comp (RevealAt_frame fuel s s' q.1 q.2 hs.1 (mem_nbhd.1 hq).1
          (mem_nbhd.1 hq).2.1 hcall),
        hs.2.2.next (RevealAt_keeps fuel s s' q.1 q.2 hs.1 (mem_nbhd.1 hq).1
          (mem_nbhd.1 hq).2.1 hcall) hs.2.1⟩)
    ⟨hb, Frame.same _ _ _, Keeps.still _⟩ hc).2.2

theorem finish_disarms (g : Game) (x y : Nat) :
    (finish g x y).State.disarms = g.State.disarms := by
  unfold finish; split <;> rfl

/-- A reveal of an unflagged tile that starts with a credit spends at least
one, and leaves the count non-negative. -/
theorem RevealAt_spends {w h : Nat} {fuel : Nat} {g g' : Game} (hb : Rect w h g.board)
    {x y : Nat} (hx : x < w) (hy : y < h) (hnf : (tileAt g.board x y).flagged = false)
    (hk : 0 < g.State.disarms) (hr : RevealAt fuel g x y = .ok g') :
    0 ≤ g'.State.disarms ∧ g'.State.disarms ≤ g.State.disarms - 1 := by
  cases fuel with
  | zero => simp [RevealAt] at hr
  | succ n =>
    obtain ⟨g1, g3, h1, hb1, h3, _, rfl⟩ := RevealAt_shape n hb hx hy hnf hr
    obtain ⟨_, _, _, e4, _, _⟩ := mercy_ok hb hx hy h1
    have hd1 : g1.State.disarms = g.State.disarms - 1 := (e4 hk).1
    have hk3 := chainPhase_rel (rect_markRevealed hb1 x y) h3
    have hle : g3.State.disarms ≤ g1.State.disarms := hk3.disarms_le
    have hge : 0 ≤ g3.State.disarms := hk3.disarms_nonneg (by
      show 0 ≤ g1.State.disarms
      rw [hd1]; omega)
    rw [finish_disarms]
    exact ⟨hge, by rw [← hd1]; exact hle⟩

/-- The credits only go down along the iterations of `revealChain`. -/
theorem chainFold_le {w h fuel : Nat} {x y : Nat} (l : List (Nat × Nat))
    (hl : ∀ q ∈ l, q ∈ nbhd w h x y) :
    ∀ s r : Game, Rect w h s.board → l.foldlM (chainStep fuel) s = .ok r →
      r.State.disarms ≤ s.State.disarms := by
  intro s r hs hfold
  refine (foldlM_keeps (fun t : Game => Rect w h t.board ∧ t.State.disarms ≤ s.State.disarms)
    _ _ ?_ s r ⟨hs, le_refl _⟩ hfold).2
  intro q hq t t' ht hstep
  refine ⟨chainStep_rect (hl q hq) ht.1 hstep, le_trans ?_ ht.2⟩
  have hq' := mem_nbhd.1 (hl q hq)
  unfold chainStep at hstep
  split at hstep
  · cases hstep; exact le_refl _
  · exact (RevealAt_keeps fuel t t' q.1 q.2 ht.1 hq'.1 hq'.2.1 hstep).disarms_le

/-- The iterations of `revealChain` over tiles that are all revealed or
flagged change nothing. -/
theorem chainFold_idle {w h fuel : Nat} {x y : Nat} (hfuel : 1 ≤ fuel) (s : Game)
    (hs : Rect w h s.board) (l : List (Nat × Nat)) (hl : ∀ q ∈ l, q ∈ nbhd w h x y)
    (hidle : ∀ q ∈ l, (tileAt s.board q.1 q.2).revealed = true ∨
      (tileAt s.board q.1 q.2).flagged = true) :
    l.foldlM (chainStep fuel) s = .ok s := by
  induction l with
  | nil => rfl
  | cons q l ih =>
    have hq' := mem_nbhd.1 (hl q (List.mem_cons_self _ _))
    have hstep : chainStep fuel s q = .ok s := by
      unfold chainStep
      by_cases hr : (tileAt s.board q.1 q.2).revealed = true
      · rw [if_pos hr]
      · rw [if_neg hr]
        obtain ⟨n, rfl⟩ : ∃ n, fuel = n + 1 := ⟨fuel - 1, by omega⟩
        rcases hidle q (List.mem_cons_self _ _) with k | k
        · exact absurd k hr
        · rw [RevealAt_succ n hs hq'.1 hq'.2.1, if_pos k]
    rw [List.foldlM_cons, hstep, ok_bind_m]
    exact ih (fun r hr => hl r (List.mem_cons_of_mem _ hr))
      (fun r hr => hidle r (List.mem_cons_of_mem _ hr))

/-- The iterations of `revealChain` that meet a tile neither revealed nor
flagged spend at least one of the credits left. -/
theorem chainFold_spends {w h fuel : Nat} {x y : Nat} (l : List (Nat × Nat))
    (hl : ∀ q ∈ l, q ∈ nbhd w h x y) :
    ∀ s r : Game, Rect w h s.board → 0 < s.State.disarms →
      (∃ q ∈ l, (tileAt s.board q.1 q.2).revealed = false ∧
        (tileAt s.board q.1 q.2).flagged = false) →
      l.foldlM (chainStep fuel) s = .ok r → r.State.disarms ≤ s.State.disarms - 1 := by
  induction l with
  | nil => intro s r _ _ hex _; obtain ⟨q, hq, _⟩ := hex; cases hq
  | cons a l ih =>
    intro s r hs hk hex hfold
    rw [List.foldlM_cons] at hfold
    obtain ⟨s1, h1, h2⟩ := bind_eq_ok hfold
    have ha := hl a (List.mem_cons_self _ _)
    have ha' := mem_nbhd.1 ha
    have hl' : ∀ q ∈ l, q ∈ nbhd w h x y := fun q hq => hl q (List.mem_cons_of_mem _ hq)
    have hs1 : Rect w h s1.board := chainStep_rect ha hs h1
    by_cases hhid : (tileAt s.board a.1 a.2).revealed = false ∧
        (tileAt s.board a.1 a.2).flagged = false
    · unfold chainStep at h1
      rw [if_neg (by simp [hhid.1])] at h1
      have := (RevealAt_spends hs ha'.1 ha'.2.1 hhid.2 hk h1).2
      exact le_trans (chainFold_le l hl' s1 r hs1 h2) this
    · have hsame : s1 = s := by
        unfold chainStep at h1
        by_cases hr : (tileAt s.board a.1 a.2).revealed = true
        · rw [if_pos hr] at h1; exact (Except.ok.inj h1).symm
        · rw [if_neg hr] at h1
          have hfl : (tileAt s.board a.1 a.2).flagged = true := by
            cases hf : (tileAt s.board a.1 a.2).flagged with
            | true => rfl
            | false => exact absurd ⟨by simpa using hr, hf⟩ hhid
          exact RevealAt_flagged hs ha'.1 ha'.2.1 hfl h1
      subst hsame
      obtain ⟨q, hq, hq2⟩ := hex
      rcases List.mem_cons.1 hq with rfl | hq'
      · exact absurd hq2 hhid
      · exact ih hl' s1 r hs hk ⟨q, hq', hq2⟩ h2

/-- The credits one `RevealAt` call leaves, exactly. -/
theorem RevealAt_credits {w h : Nat} {g : Game} (hb : Rect w h g.board) {x y : Nat}
    (hx : x < w) (hy : y < h) (hnf : (tileAt g.board x y).flagged = false) {fuel : Nat}
    (hfuel : w * h + 2 ≤ fuel) :
    ∃ g1 g', mercy g x y = .ok g1 ∧ RevealAt fuel g x y = .ok g' ∧
      ((tileAt g.board x y).mine = false →
        (tileAt g1.board x y).adjacentMines = (tileAt g.board x y).adjacentMines) ∧
      (0 < g.State.disarms → (tileAt g.board x y).mine = true →
        (tileAt g1.board x y).adjacentMines
          = (countNear (fun t => t.mine) w h g1.board x y : Nat)) ∧
      (0 < g.State.disarms →
        0 ≤ g'.State.disarms ∧ g'.State.disarms ≤ g.State.disarms - 1 ∧
        (g'.State.disarms = g.State.disarms - 1 ↔
          ¬ (2 ≤ g.State.disarms ∧ Chains w h g g1 x y))) ∧
      (g.State.disarms = 0 → g'.State.disarms = 0) := by
  obtain ⟨g', hr, _, hfr⟩ := RevealAt_returns hb hx hy hfuel
  obtain ⟨n, rfl⟩ : ∃ n, fuel = n + 1 := ⟨fuel - 1, by omega⟩
  obtain ⟨g1, g3, h1, hb1, h3, _, rfl⟩ := RevealAt_shape n hb hx hy hnf hr
  obtain ⟨_, _, e3, e4, hf1, hrev1⟩ := mercy_ok hb hx hy h1
  have hb2 := rect_markRevealed hb1 x y
  have hadj2 : (tileAt (markRevealed g1 x y).board x y).adjacentMines
      = (tileAt g1.board x y).adjacentMines := by
    rw [tileAt_markRevealed hb1 hx hy, if_pos ⟨rfl, rfl⟩]
  have hch2 : (markRevealed g1 x y).options.chainRevealing = g.options.chainRevealing := by
    show g1.options.chainRevealing = _
    rw [hf1.options_eq]
  refine ⟨g1, finish g3 x y, h1, hr, ?_, ?_, fun hk => ?_, fun h0 =>
    (hfr.no_credit (le_of_eq h0)).1.trans h0⟩
  · intro hm
    by_cases hd : 0 < g.State.disarms
    · obtain ⟨g1', m1, _, _, _, _, _, m6⟩ := mercy_spec hb hx hy
      rw [h1] at m1
      obtain rfl : g1 = g1' := Except.ok.inj m1
      obtain ⟨_, _, g0, d1, d2, _⟩ := m6 hd
      obtain ⟨g0', k1, _, _, k4, _⟩ := disarmAt_spec hb hx hy
      rw [d1] at k1
      obtain rfl : g0 = g0' := Except.ok.inj k1
      rw [d2, k4 hm]
    · rw [e3 (not_lt.1 hd)]
  · intro hd hm
    obtain ⟨g1', m1, _, _, _, _, _, m6⟩ := mercy_spec hb hx hy
    rw [h1] at m1
    obtain rfl : g1 = g1' := Except.ok.inj m1
    obtain ⟨_, _, g0, d1, d2, _⟩ := m6 hd
    obtain ⟨g0', k1, _, _, _, k5⟩ := disarmAt_spec hb hx hy
    rw [d1] at k1
    obtain rfl : g0 = g0' := Except.ok.inj k1
    rw [d2, (k5 hm).2 x y, if_pos ⟨rfl, rfl⟩]
  · obtain ⟨hge, hle⟩ := RevealAt_spends hb hx hy hnf hk hr
    have hd1 : g1.State.disarms = g.State.disarms - 1 := (e4 hk).1
    have hd2 : (markRevealed g1 x y).State.disarms = g.State.disarms - 1 := hd1
    refine ⟨hge, hle, ?_⟩
    rw [finish_disarms]
    constructor
    · intro heq hc
      obtain ⟨h2k, hchain, hz, q, hq, hne, hqr, hqf⟩ := hc
      have hcond : ((tileAt (markRevealed g1 x y).board x y).adjacentMines == 0 &&
          (markRevealed g1 x y).options.chainRevealing) = true := by
        rw [hadj2, hz, hch2, hchain]; rfl
      unfold chainPhase at h3
      rw [if_pos hcond] at h3
      have hne' : ¬ (q.1 = x ∧ q.2 = y) := fun hh => hne (Prod.ext hh.1 hh.2)
      have := chainFold_spends (nbhd w h x y) (fun _ hq => hq) _ g3 hb2
        (by rw [hd2]; omega)
        ⟨q, hq, by rw [tileAt_markRevealed hb1 hx hy, if_neg hne', hrev1]; exact hqr,
          by rw [(frame_markRevealed hb1 hx hy).flagged_eq, hf1.flagged_eq]; exact hqf⟩ h3
      rw [hd2] at this
      omega
    · intro hnc
      by_cases h2k : 2 ≤ g.State.disarms
      · have hnch : ¬ Chains w h g g1 x y := fun hc => hnc ⟨h2k, hc⟩
        have hg3 : g3 = markRevealed g1 x y := by
          unfold chainPhase at h3
          split at h3
          · next hcond =>
            simp only [Bool.and_eq_true, beq_iff_eq] at hcond
            have hidle : ∀ q ∈ nbhd w h x y,
                (tileAt (markRevealed g1 x y).board q.1 q.2).revealed = true ∨
                (tileAt (markRevealed g1 x y).board q.1 q.2).flagged = true := by
              intro q hq
              by_cases hqxy : q.1 = x ∧ q.2 = y
              · left
                rw [tileAt_markRevealed hb1 hx hy, if_pos hqxy]
              · rw [tileAt_markRevealed hb1 hx hy, if_neg hqxy, hrev1, hf1.flagged_eq]
                by_contra hcon
                apply hnch
                refine ⟨by rw [← hch2]; exact hcond.2, by rw [← hadj2]; exact hcond.1, q, hq,
                  fun hh => hqxy ⟨by rw [hh], by rw [hh]⟩, ?_, ?_⟩
                · cases hv : (tileAt g.board q.1 q.2).revealed with
                  | false => rfl
                  | true => exact absurd (Or.inl hv) hcon
                · cases hv : (tileAt g.board q.1 q.2).flagged with
                  | false => rfl
                  | true => exact absurd (Or.inr hv) hcon
            have := @chainFold_idle w h n x y (by omega)
              (markRevealed g1 x y) hb2 (nbhd w h x y) (fun _ hq => hq) hidle
            rw [this] at h3
            exact (Except.ok.inj h3).symm
          · exact (Except.ok.inj h3).symm
        rw [hg3]; exact hd2
      · rw [finish_disarms] at hge hle
        omega

/-- C15, amended (mercy-credit consumption).  One `RevealAt` call on an
in-range unflagged tile of a rectangular board returns.  Started with `k > 0`
credits it leaves exactly `k - 1`, whether or not the tile was a mine, unless
`k ≥ 2` and the call chain-reveals an unflagged tile (chain reveal is
enabled, the tile has `adjacentMines = 0` after the mercy step, which leaves
the count of a safe tile as it was and gives a disarmed mine the number of
mines around it, and another tile of the clamped neighbourhood is neither
revealed nor flagged): then, and only then, it leaves fewer, between `0` and
`k - 2`.  Started with none it leaves none. -/
theorem C15_credit_amended (w h : Nat) (g : Game) (hb : Rect w h g.board) (x y : Nat)
    (hx : x < w) (hy : y < h) (hnf : (tileAt g.board x y).flagged = false) (fuel : Nat)
    (hfuel : w * h + 2 ≤ fuel) :
    ∃ g1 g', mercy g x y = .ok g1 ∧ RevealAt fuel g x y = .ok g' ∧
      ((tileAt g.board x y).mine = false →
        (tileAt g1.board x y).adjacentMines = (tileAt g.board x y).adjacentMines) ∧
      (0 < g.State.disarms → (tileAt g.board x y).mine = true →
        (tileAt g1.board x y).adjacentMines
          = (countNear (fun t => t.mine) w h g1.board x y : Nat)) ∧
      (0 < g.State.disarms →
        0 ≤ g'.State.disarms ∧ g'.State.disarms ≤ g.State.disarms - 1 ∧
        (g'.State.disarms = g.State.disarms - 1 ↔
          ¬ (2 ≤ g.State.disarms ∧ Chains w h g g1 x y))) ∧
      (g.State.disarms = 0 → g'.State.disarms = 0) :=
  RevealAt_credits hb hx hy hnf hfuel

/-- Chain reveal enabled, two credits: the reveal of a border tile of the
3x3 board (count 1, so no chained reveal) leaves exactly one credit. -/
theorem C15_credit_amended_witness :
    (game3 2 true).options.chainRevealing = true ∧ (game3 2 true).State.disarms = 2 ∧
    RevealAt 11 (game3 2 true) 0 0
      = .ok { game3 1 true with board := (markRevealed (game3 1 true) 0 0).board } ∧
    ∃ g1 g', mercy (game3 2 true) 0 0 = .ok g1 ∧ RevealAt 11 (game3 2 true) 0 0 = .ok g' ∧
      ((tileAt (game3 2 true).board 0 0).mine = false →
        (tileAt g1.board 0 0).adjacentMines = (tileAt (game3 2 true).board 0 0).adjacentMines) ∧
      (0 < (game3 2 true).State.disarms → (tileAt (game3 2 true).board 0 0).mine = true →
        (tileAt g1.board 0 0).adjacentMines
          = (countNear (fun t => t.mine) 3 3 g1.board 0 0 : Nat)) ∧
      (0 < (game3 2 true).State.disarms →
        0 ≤ g'.State.disarms ∧ g'.State.disarms ≤ (game3 2 true).State.disarms - 1 ∧
        (g'.State.disarms = (game3 2 true).State.disarms - 1 ↔
          ¬ (2 ≤ (game3 2 true).State.disarms ∧ Chains 3 3 (game3 2 true) g1 0 0))) ∧
      ((game3 2 true).State.disarms = 0 → g'.State.disarms = 0) :=
  ⟨rfl, rfl, rfl, C15_credit_amended 3 3 (game3 2 true) rect_board3adj 0 0 (by decide)
    (by decide) rfl 11 (by decide)⟩

/-- C15, counterexample.  With two credits and chain reveal enabled, one
`RevealAt` on the unflagged safe corner of the 3x1 board leaves no credit,
not one: the chained reveal of its neighbour spent the second. -/
theorem C15_credit_counterexample :
    (game31 2 true).State.disarms = 2 ∧ (tileAt (game31 2 true).board 0 0).flagged = false ∧
    ∃ g', RevealAt 5 (game31 2 true) 0 0 = .ok g' ∧ g'.State.disarms = 0 :=
  ⟨rfl, rfl, _, rfl, rfl⟩

theorem tileAt_replicate (w h i j : Nat) :
    tileAt (List.replicate w (List.replicate h (⟨0, false, false, false⟩ : tile))) i j
      = ⟨0, false, false, false⟩ := by
  unfold tileAt
  by_cases hi : i < w
  · by_cases hj : j < h
    · simp [List.getElem?_replicate, hi, hj]
    · simp [List.getElem?_replicate, hi, hj]; rfl
  · simp [List.getElem?_replicate, hi]; rfl

theorem rect_replicate (w h : Nat) (t : tile) :
    Rect w h (List.replicate w (List.replicate h t)) := by
  refine ⟨List.length_replicate _ _, fun col hcol => ?_⟩
  rw [List.eq_of_mem_replicate hcol, List.length_replicate]

theorem readCol_length {w h : Nat} {b : board} (hb : Rect w h b) {x : Nat} {col : List tile}
    (hr : readCol b x = .ok col) : x < w ∧ col.length = h := by
  unfold readCol at hr
  cases hx : b[x]? with
  | none => simp [hx] at hr
  | some c =>
    simp only [hx, Except.ok.injEq] at hr
    subst hr
    obtain ⟨hxl, _⟩ := List.getElem?_eq_some_iff.1 hx
    exact ⟨by rw [← hb.1]; exact hxl, hb.2 c (List.getElem?_mem hx)⟩

/-- Partial correctness of the placement loop: started with `minesPlaced`
equal to the number of mines on the board and not above the target, it ends
with exactly `target` mines, having written nothing but `mine` fields. -/
theorem propagateMinesLoop_spec {w h : Nat} (target : Int) :
    ∀ (draws : List (Nat × Nat)) (k : Int) (b b' : board), Rect w h b →
      (mineTotal w h b : Int) = k → k ≤ target → Fresh b →
      propagateMinesLoop target draws k b = .ok b' →
      Rect w h b' ∧ (mineTotal w h b' : Int) = target ∧ Fresh b' := by
  intro draws
  induction draws with
  | nil =>
    intro k b b' hb hk hle hfr hloop
    rw [propagateMinesLoop] at hloop
    split at hloop
    · cases hloop
    · next hlt =>
      cases hloop
      exact ⟨hb, by omega, hfr⟩
  | cons d draws ih =>
    intro k b b' hb hk hle hfr hloop
    rw [propagateMinesLoop] at hloop
    split at hloop
    · next hlt =>
      obtain ⟨col0, _, hrest⟩ := bind_eq_ok hloop
      obtain ⟨t, hread, hrest⟩ := bind_eq_ok hrest
      obtain ⟨hpx, hpy, rfl⟩ := readTile_inrange hb hread
      split at hrest
      · next hnm =>
        have hnm' : (tileAt b (d.1 % b.length) (d.2 % col0.length)).mine = false := by
          simpa using hnm
        obtain ⟨b1, hmod, hrest⟩ := bind_eq_ok hrest
        have hb1 : Rect w h b1 := modifyTile_rect hmod hb
        have ht1 := tileAt_updTile hb hpx hpy (fun t => { t with mine := true })
        rw [← modifyTile_eq hmod] at ht1
        have hcount : mineTotal w h b + 1 = mineTotal w h b1 := by
          refine mineTotal_clear hpx hpy ?_ hnm' ?_
          · rw [ht1, if_pos ⟨rfl, rfl⟩]
          · intro i j hij
            rw [ht1, if_neg hij]
        refine ih (k + 1) b1 b' hb1 (by rw [← hcount]; push_cast; omega) (by omega) ?_ hrest
        intro i j
        rw [ht1]
        split
        · exact hfr _ _
        · exact hfr i j
      · exact ih k b b' hb hk hle hfr hrest
    · next hlt =>
      cases hloop
      exact ⟨hb, by omega, hfr⟩

/-- The placement loop finishes on every list of distinct draws of tiles that
are not mines which is long enough. -/
theorem propagateMinesLoop_finishes {w h : Nat} (target : Int) :
    ∀ (draws : List (Nat × Nat)) (k : Int) (b : board), Rect w h b → draws.Nodup →
      (∀ d ∈ draws, d.1 < w ∧ d.2 < h ∧ (tileAt b d.1 d.2).mine = false) →
      target - k ≤ draws.length →
      ∃ b', propagateMinesLoop target draws k b = .ok b' := by
  intro draws
  induction draws with
  | nil =>
    intro k b _ _ _ hlen
    rw [propagateMinesLoop, if_neg (by simp at hlen; omega)]
    exact ⟨b, rfl⟩
  | cons d draws ih =>
    intro k b hb hnd hall hlen
    rw [propagateMinesLoop]
    by_cases hlt : k < target
    · rw [if_pos hlt]
      obtain ⟨hd1, hd2, hdm⟩ := hall d (List.mem_cons_self _ _)
      obtain ⟨col0, hcol, hlen0⟩ := readCol_ok hb (show 0 < w by omega)
      rw [hcol, ok_bind]
      simp only [hb.1, hlen0, Nat.mod_eq_of_lt hd1, Nat.mod_eq_of_lt hd2]
      rw [readTile_ok hb hd1 hd2, ok_bind]
      simp only [hdm, beq_self_eq_true, if_true]
      rw [modifyTile_ok hb hd1 hd2, ok_bind]
      have hdl : d ∉ draws := (List.nodup_cons.1 hnd).1
      refine ih (k + 1) _ (hb.updTile _ _ _) (List.nodup_cons.1 hnd).2 ?_ (by
        simp only [List.length_cons, Nat.cast_add, Nat.cast_one] at hlen; omega)
      intro e he
      obtain ⟨he1, he2, hem⟩ := hall e (List.mem_cons_of_mem _ he)
      refine ⟨he1, he2, ?_⟩
      rw [tileAt_updTile hb hd1 hd2, if_neg ?_]
      · exact hem
      · intro hh
        exact hdl (by rw [show d = e from Prod.ext hh.1.symm hh.2.symm]; exact he)
    · rw [if_neg hlt]
      exact ⟨b, rfl⟩

theorem mineTotal_same {w h : Nat} {b b' : board} (hb : Rect w h b) (hb' : Rect w h b')
    (hsame : ∀ i j, i < w → j < h → (tileAt b' i j).mine = (tileAt b i j).mine) :
    mineTotal w h b' = mineTotal w h b := by
  refine mineTotal_congr w h (fun i j => ?_)
  by_cases hij : i < w ∧ j < h
  · exact hsame i j hij.1 hij.2
  · rw [tileAt_out hb hij, tileAt_out hb' hij]

/-- What `newTileGrid` returns, and that it does return for some draws. -/
theorem newTileGrid_spec (w h : Nat) (hw : 1 ≤ w) (n : Int) (hn : 0 ≤ n) :
    (∀ draws b', newTileGrid draws w h n = .ok b' →
      Rect w h b' ∧ (mineTotal w h b' : Int) = min n ((w : Int) * (h : Int)) ∧
      ∀ i < w, ∀ j < h,
        (tileAt b' i j).flagged = false ∧ (tileAt b' i j).revealed = false) ∧
    (∃ draws b', newTileGrid draws w h n = .ok b') := by
  have hgrid := rect_replicate w h ⟨0, false, false, false⟩
  have hfresh : Fresh (List.replicate w (List.replicate h (⟨0, false, false, false⟩ : tile))) :=
    fun i j => by rw [tileAt_replicate]; exact ⟨rfl, rfl, rfl⟩
  have hzero : mineTotal w h
      (List.replicate w (List.replicate h (⟨0, false, false, false⟩ : tile))) = 0 := by
    unfold mineTotal
    rw [List.countP_eq_zero]
    intro q _
    rw [tileAt_replicate]; simp
  obtain ⟨col0, hcol, hlen0⟩ := readCol_ok hgrid (show 0 < w by omega)
  have hafter : ∀ b1 : board, Rect w h b1 → ∃ b', propagateMineAdjacency b1 = .ok b' ∧
      Rect w h b' ∧ ∀ i j, i < w → j < h →
        (tileAt b' i j).mine = (tileAt b1 i j).mine ∧
        (tileAt b' i j).flagged = (tileAt b1 i j).flagged ∧
        (tileAt b' i j).revealed = (tileAt b1 i j).revealed := by
    intro b1 hb1
    obtain ⟨b', e1, e2, e3⟩ := propagateMineAdjacency_tiles hb1
    refine ⟨b', e1, e2, fun i j hi hj => ?_⟩
    rw [e3 i j hi hj]
    split
    · exact ⟨rfl, rfl, rfl⟩
    · exact ⟨rfl, rfl, rfl⟩
  constructor
  · intro draws b' hnew
    unfold newTileGrid at hnew
    obtain ⟨b1, hpm, hadj⟩ := bind_eq_ok hnew
    unfold propagateMines at hpm
    rw [hcol, ok_bind, hgrid.1, hlen0] at hpm
    obtain ⟨hb1, hcount, hfr1⟩ := propagateMinesLoop_spec (w := w) (h := h) _ draws 0 _ b1 hgrid
      (by rw [hzero]; rfl) (le_min hn (by positivity)) hfresh hpm
    obtain ⟨b2, e1, e2, e3⟩ := hafter b1 hb1
    rw [e1] at hadj
    obtain rfl : b2 = b' := Except.ok.inj hadj
    refine ⟨e2, ?_, fun i hi j hj => ?_⟩
    · rw [mineTotal_same hb1 e2 (fun i j hi hj => (e3 i j hi hj).1)]; exact hcount
    · rw [(e3 i j hi hj).2.1, (e3 i j hi hj).2.2]
      exact ⟨(hfr1 i j).1, (hfr1 i j).2.1⟩
  · obtain ⟨b1, hb1ok⟩ := propagateMinesLoop_finishes (w := w) (h := h)
      (min n ((w : Int) * (h : Int))) (cells 0 w 0 h) 0 _ hgrid (nodup_cells _ _ _ _)
      (by
        intro d hd
        rw [mem_cells] at hd
        exact ⟨hd.1.2, hd.2.2, by rw [tileAt_replicate]⟩)
      (by
        rw [length_cells]
        have : min n ((w : Int) * (h : Int)) ≤ (w : Int) * (h : Int) := min_le_right _ _
        push_cast
        simp only [Nat.sub_zero]
        omega)
    have hpm : propagateMines (cells 0 w 0 h)
        (List.replicate w (List.replicate h (⟨0, false, false, false⟩ : tile))) n = .ok b1 := by
      unfold propagateMines
      rw [hcol, ok_bind, hgrid.1, hlen0]
      exact hb1ok
    obtain ⟨hb1, _, _⟩ := propagateMinesLoop_spec (w := w) (h := h) _ (cells 0 w 0 h) 0 _ b1
      hgrid (by rw [hzero]; rfl) (le_min hn (by positivity)) hfresh hb1ok
    obtain ⟨b2, e1, _, _⟩ := hafter b1 hb1
    refine ⟨cells 0 w 0 h, b2, ?_⟩
    unfold newTileGrid
    show (propagateMines (cells 0 w 0 h) _ n).bind _ = _
    rw [hpm, ok_bind]
    exact e1

/-- C16 (clamped mine placement).  For `width ≥ 1`, any height and
`mineCount ≥ 0`: on every sequence of draws on which the placement loop
finishes, `newTileGrid` returns a rectangular `width × height` board with
exactly `min mineCount (width * height)` mine tiles and no tile flagged or
revealed; and there are draws on which it finishes. -/
theorem C16_clamped_placement (w h : Nat) (hw : 1 ≤ w) (n : Int) (hn : 0 ≤ n) :
    (∀ draws b', newTileGrid draws w h n = .ok b' →
      Rect w h b' ∧ (mineTotal w h b' : Int) = min n ((w : Int) * (h : Int)) ∧
      ∀ i < w, ∀ j < h,
        (tileAt b' i j).flagged = false ∧ (tileAt b' i j).revealed = false) ∧
    (∃ draws b', newTileGrid draws w h n = .ok b') :=
  newTileGrid_spec w h hw n hn

theorem C16_clamped_placement_witness :
    (∀ draws b', newTileGrid draws 1 1 2 = .ok b' →
      Rect 1 1 b' ∧ (mineTotal 1 1 b' : Int) = min 2 (((1 : Nat) : Int) * ((1 : Nat) : Int)) ∧
      ∀ i < 1, ∀ j < 1,
        (tileAt b' i j).flagged = false ∧ (tileAt b' i j).revealed = false) ∧
    (∃ draws b', newTileGrid draws 1 1 2 = .ok b') :=
  C16_clamped_placement 1 1 (by decide) 2 (by decide)

theorem noPanic_ok {α : Type} (a : α) : NoPanic (Except.ok a : Except Fault α) := by
  intro hh; cases hh

/-- A fold does not panic when no step does. -/
theorem foldlM_noPanic {σ α : Type} (I : σ → Prop) (f : σ → α → Except Fault σ) (l : List α)
    (hstep : ∀ a ∈ l, ∀ s, I s → NoPanic (f s a) ∧ ∀ s', f s a = .ok s' → I s') :
    ∀ s, I s → NoPanic (l.foldlM f s) := by
  induction l with
  | nil => intro s _; exact noPanic_ok s
  | cons a l ih =>
    intro s hs
    obtain ⟨h1, h2⟩ := hstep a (List.mem_cons_self _ _) s hs
    rw [List.foldlM_cons]
    cases hfa : f s a with
    | error e =>
      intro hh
      apply h1
      rw [hfa]
      exact hh
    | ok s1 =>
      exact ih (fun b hb => hstep b (List.mem_cons_of_mem _ hb)) s1 (h2 s1 hfa)

/-- `RevealAt` never panics on a slice index, whatever the fuel. -/
theorem RevealAt_noPanic {w h : Nat} : ∀ (fuel : Nat) (g : Game) (x y : Nat),
    Rect w h g.board → x < w → y < h → NoPanic (RevealAt fuel g x y) := by
  intro fuel
  induction fuel with
  | zero => intro g x y _ _ _ hh; simp [RevealAt] at hh
  | succ fuel ih =>
    intro g x y hb hx hy
    rw [RevealAt_succ fuel hb hx hy]
    split
    · exact noPanic_ok g
    · obtain ⟨g1, h1, hb1, _⟩ := mercy_spec hb hx hy
      rw [h1, ok_bind]
      have hchain : NoPanic (chainPhase w h fuel (markRevealed g1 x y) x y) := by
        unfold chainPhase
        split
        · refine foldlM_noPanic (fun s : Game => Rect w h s.board) _ _ ?_ _
            (rect_markRevealed hb1 x y)
          intro q hq s hs
          refine ⟨?_, fun s' hstep => chainStep_rect hq hs hstep⟩
          have hq' := mem_nbhd.1 hq
          unfold chainStep
          split
          · exact noPanic_ok s
          · exact ih s q.1 q.2 hs hq'.1 hq'.2.1
        · exact noPanic_ok _
      cases hcp : chainPhase w h fuel (markRevealed g1 x y) x y with
      | error e =>
        intro hh
        apply hchain
        rw [hcp]
        exact hh
      | ok g3 => exact noPanic_ok _

theorem SmartReveal_noPanic {w h : Nat} (fuel : Nat) {g : Game} (hb : Rect w h g.board)
    {x y : Nat} (hx : x < w) (hy : y < h) : NoPanic (SmartReveal fuel g x y) := by
  rw [SmartReveal_eq fuel hb hx hy]
  split
  · exact noPanic_ok g
  · refine foldlM_noPanic (fun s : Game => Rect w h s.board) _ _ ?_ g hb
    intro q hq s hs
    refine ⟨?_, fun s' hstep => (smartStep_keeps hq hs hstep).1⟩
    have hq' := mem_nbhd.1 hq
    unfold smartStep
    split
    · exact noPanic_ok s
    · exact RevealAt_noPanic fuel s q.1 q.2 hs hq'.1 hq'.2.1

theorem revealChain_noPanic {w h : Nat} (fuel : Nat) {g : Game} (hb : Rect w h g.board)
    (x y : Nat) : NoPanic (revealChain fuel g x y) := by
  unfold revealChain
  rw [revealChainWith_eq fuel hb]
  refine foldlM_noPanic (fun s : Game => Rect w h s.board) _ _ ?_ g hb
  intro q hq s hs
  refine ⟨?_, fun s' hstep => chainStep_rect hq hs hstep⟩
  have hq' := mem_nbhd.1 hq
  unfold chainStep
  split
  · exact noPanic_ok s
  · exact RevealAt_noPanic fuel s q.1 q.2 hs hq'.1 hq'.2.1

/-- C17 (no out-of-range index).  On a rectangular board, at every in-range
coordinate and for every fuel, none of `RevealAt`, `SmartReveal`,
`ToggleFlaggedAt` and `revealChain` faults on a slice index (they return, or
run out of fuel), and `disarmAt`, `minesAdjacentTo` and `flagsAdjacentTo`
return, corner and edge tiles included. -/
theorem C17_no_index_panic (w h : Nat) (g : Game) (hb : Rect w h g.board) (x y : Nat)
    (hx : x < w) (hy : y < h) (fuel : Nat) :
    NoPanic (RevealAt fuel g x y) ∧ NoPanic (SmartReveal fuel g x y) ∧
    NoPanic (ToggleFlaggedAt g x y) ∧ NoPanic (revealChain fuel g x y) ∧
    (∃ g', disarmAt g x y = .ok g') ∧
    (∃ n, minesAdjacentTo g.board x y = .ok n) ∧
    (∃ n, flagsAdjacentTo g.board x y = .ok n) := by
  refine ⟨RevealAt_noPanic fuel g x y hb hx hy, SmartReveal_noPanic fuel hb hx hy, ?_,
    revealChain_noPanic fuel hb x y, ?_, ⟨_, minesAdjacentTo_ok hb x y⟩,
    ⟨_, flagsAdjacentTo_ok hb x y⟩⟩
  · rw [ToggleFlaggedAt_eq hb hx hy]; exact noPanic_ok _
  · obtain ⟨g', h1, _⟩ := disarmAt_spec hb hx hy
    exact ⟨g', h1⟩

theorem C17_no_index_panic_witness :
    NoPanic (RevealAt 3 (game3 1 true) 0 2) ∧ NoPanic (SmartReveal 3 (game3 1 true) 0 2) ∧
    NoPanic (ToggleFlaggedAt (game3 1 true) 0 2) ∧ NoPanic (revealChain 3 (game3 1 true) 0 2) ∧
    (∃ g', disarmAt (game3 1 true) 0 2 = .ok g') ∧
    (∃ n, minesAdjacentTo (game3 1 true).board 0 2 = .ok n) ∧
    (∃ n, flagsAdjacentTo (game3 1 true).board 0 2 = .ok n) :=
  C17_no_index_panic 3 3 (game3 1 true) rect_board3adj 0 2 (by decide) (by decide) 3

/-- A fold returns the same with other steps that return the same whenever the
first return. -/
theorem foldlM_transfer {σ α : Type} (I : σ → Prop) (f f' : σ → α → Except Fault σ)
    (l : List α)
    (hstep : ∀ a ∈ l, ∀ s s', I s → f s a = .ok s' → f' s a = .ok s' ∧ I s') :
    ∀ s r, I s → l.foldlM f s = .ok r → l.foldlM f' s = .ok r := by
  induction l with
  | nil => intro s r _ hf; exact hf
  | cons a l ih =>
    intro s r hs hf
    rw [List.foldlM_cons] at hf ⊢
    obtain ⟨s1, h1, h2⟩ := bind_eq_ok hf
    obtain ⟨k1, k2⟩ := hstep a (List.mem_cons_self _ _) s s1 hs h1
    rw [k1, ok_bind_m]
    exact ih (fun b hb => hstep b (List.mem_cons_of_mem _ hb)) s1 r k2 h2

/-- More fuel does not change what `RevealAt` returns. -/
theorem RevealAt_fuel_succ {w h : Nat} : ∀ (n : Nat) (g g' : Game) (x y : Nat),
    Rect w h g.board → x < w → y < h → RevealAt n g x y = .ok g' →
    RevealAt (n + 1) g x y = .ok g' := by
  intro n
  induction n with
  | zero => intro g g' x y _ _ _ hr; simp [RevealAt] at hr
  | succ n ih =>
    intro g g' x y hb hx hy hr
    rw [RevealAt_succ n hb hx hy] at hr
    rw [RevealAt_succ (n + 1) hb hx hy]
    split at hr
    · next hfl => rw [if_pos hfl]; exact hr
    · next hfl =>
      rw [if_neg hfl]
      obtain ⟨g1, h1, hr⟩ := bind_eq_ok hr
      obtain ⟨g3, h3, hr⟩ := bind_eq_ok hr
      have hb1 := mercy_rect hb hx hy h1
      rw [h1, ok_bind]
      have h3' : chainPhase w h (n + 1) (markRevealed g1 x y) x y = .ok g3 := by
        unfold chainPhase at h3 ⊢
        split at h3
        · next hc =>
          rw [if_pos hc]
          refine foldlM_transfer (fun s : Game => Rect w h s.board) _ _ _ ?_ _ _
            (rect_markRevealed hb1 x y) h3
          intro q hq s s' hs hstep
          refine ⟨?_, chainStep_rect hq hs hstep⟩
          have hq' := mem_nbhd.1 hq
          unfold chainStep at hstep ⊢
          split at hstep
          · next hrq => rw [if_pos hrq]; exact hstep
          · next hrq => rw [if_neg hrq]; exact ih s s' q.1 q.2 hs hq'.1 hq'.2.1 hstep
        · next hc => rw [if_neg hc]; exact h3
      rw [h3', ok_bind]
      exact hr

theorem RevealAt_fuel_le {w h : Nat} {g g' : Game} (hb : Rect w h g.board) {x y : Nat}
    (hx : x < w) (hy : y < h) {n : Nat} (hr : RevealAt n g x y = .ok g') :
    ∀ m, n ≤ m → RevealAt m g x y = .ok g' := by
  intro m hm
  induction m with
  | zero =>
    obtain rfl : n = 0 := by omega
    exact hr
  | succ m ih =>
    by_cases hnm : n = m + 1
    · rw [← hnm]; exact hr
    · exact RevealAt_fuel_succ m g g' x y hb hx hy (ih (by omega))

/-- The termination of the flood fill, with its measure. -/
theorem RevealAt_terminates {w h : Nat} {g : Game} (hb : Rect w h g.board) {x y : Nat}
    (hx : x < w) (hy : y < h) {fuel : Nat} (hfuel : hiddenCount w h g.board + 2 ≤ fuel) :
    ∃ g', (∀ m, fuel ≤ m → RevealAt m g x y = .ok g') ∧
      ((tileAt g.board x y).flagged = true → g' = g) ∧
      ((tileAt g.board x y).flagged = false → (tileAt g'.board x y).revealed = true) ∧
      (∀ i j, (tileAt g.board i j).revealed = true → (tileAt g'.board i j).revealed = true) ∧
      hiddenCount w h g'.board ≤ hiddenCount w h g.board ∧
      ((tileAt g.board x y).flagged = false → (tileAt g.board x y).revealed = false →
        hiddenCount w h g'.board < hiddenCount w h g.board) := by
  have hmark : hiddenCount w h (markRevealed g x y).board ≤ hiddenCount w h g.board := by
    apply hiddenCount_mono
    · intro i j
      rw [tileAt_markRevealed hb hx hy]
      split
      · next hij => rw [hij.1, hij.2]
      · rfl
    · intro i j hr
      rw [tileAt_markRevealed hb hx hy]
      split
      · rfl
      · exact hr
  obtain ⟨g', hr⟩ := RevealAt_total fuel g x y hb hx hy (Or.inr (by omega))
  have hfr := RevealAt_frame fuel g g' x y hb hx hy hr
  refine ⟨g', RevealAt_fuel_le hb hx hy hr, fun hfl => RevealAt_flagged hb hx hy hfl hr,
    fun hnf => RevealAt_reveals hb hx hy hnf hr, hfr.revealed_mono, hfr.hidden_le,
    fun hnf hnr => ?_⟩
  have hxy := RevealAt_reveals hb hx hy hnf hr
  have hle : hiddenCount w h g'.board ≤ hiddenCount w h (markRevealed g x y).board := by
    apply hiddenCount_mono
    · intro i j
      rw [hfr.flagged_eq, tileAt_markRevealed hb hx hy]
      split
      · next hij => rw [hij.1, hij.2]
      · rfl
    · intro i j hrm
      rw [tileAt_markRevealed hb hx hy] at hrm
      by_cases hij : i = x ∧ j = y
      · rw [hij.1, hij.2]; exact hxy
      · rw [if_neg hij] at hrm; exact hfr.revealed_mono i j hrm
  have := hiddenCount_mark hb hx hy hnr hnf
  omega

/-- C18 (flood-fill termination).  On every rectangular board in any state,
at every in-range coordinate, `RevealAt` returns as soon as the fuel (the
bound on the depth of the recursion through `revealChain`) is two more than
the number of tiles that are neither revealed nor flagged, and returns the
same session with any larger fuel.  A call on a flagged tile returns the
session unchanged; a call on an unflagged tile leaves that tile revealed; no
revealed tile becomes unrevealed; and a call on an unflagged, unrevealed tile
strictly lowers the number of hidden tiles, which is what bounds the
recursion. -/
theorem C18_flood_fill_terminates (w h : Nat) (g : Game) (hb : Rect w h g.board) (x y : Nat)
    (hx : x < w) (hy : y < h) (fuel : Nat) (hfuel : hiddenCount w h g.board + 2 ≤ fuel) :
    hiddenCount w h g.board ≤ w * h ∧
    ∃ g', (∀ m, fuel ≤ m → RevealAt m g x y = .ok g') ∧
      ((tileAt g.board x y).flagged = true → g' = g) ∧
      ((tileAt g.board x y).flagged = false → (tileAt g'.board x y).revealed = true) ∧
      (∀ i j, (tileAt g.board i j).revealed = true → (tileAt g'.board i j).revealed = true) ∧
      hiddenCount w h g'.board ≤ hiddenCount w h g.board ∧
      ((tileAt g.board x y).flagged = false → (tileAt g.board x y).revealed = false →
        hiddenCount w h g'.board < hiddenCount w h g.board) :=
  ⟨hiddenCount_le w h g.board, RevealAt_terminates hb hx hy hfuel⟩

theorem C18_flood_fill_terminates_witness :
    hiddenCount 5 5 game5.board ≤ 5 * 5 ∧
    ∃ g', (∀ m, 27 ≤ m → RevealAt m game5 2 2 = .ok g') ∧
      ((tileAt game5.board 2 2).flagged = true → g' = game5) ∧
      ((tileAt game5.board 2 2).flagged = false → (tileAt g'.board 2 2).revealed = true) ∧
      (∀ i j, (tileAt game5.board i j).revealed = true →
        (tileAt g'.board i j).revealed = true) ∧
      hiddenCount 5 5 g'.board ≤ hiddenCount 5 5 game5.board ∧
      ((tileAt game5.board 2 2).flagged = false → (tileAt game5.board 2 2).revealed = false →
        hiddenCount 5 5 g'.board < hiddenCount 5 5 game5.board) :=
  C18_flood_fill_terminates 5 5 game5 rect_board5 2 2 (by decide) (by decide) 27 (by decide)

/-- An invariant kept by every public call that returns is kept by every
sequence of calls at in-range coordinates, and the sequence returns. -/
theorem run_keeps {w h : Nat} (P : Game → Prop) {fuel : Nat} (hfuel : w * h + 2 ≤ fuel)
    (hstep : ∀ s s' op, Rect w h s.board → op.coord.1 < w ∧ op.coord.2 < h → P s →
      step fuel s op = .ok s' → P s')
    (ops : List Op) (hops : ∀ op ∈ ops, op.coord.1 < w ∧ op.coord.2 < h) (g : Game)
    (hb : Rect w h g.board) (hP : P g) :
    ∃ g', run fuel g ops = .ok g' ∧ Rect w h g'.board ∧ P g' := by
  refine foldlM_total (fun s : Game => Rect w h s.board ∧ P s) (step fuel) ops ?_ g ⟨hb, hP⟩
  intro op hop s hs
  obtain ⟨s', e1, e2, _⟩ := step_returns hs.1 (hops op hop) hfuel
  exact ⟨s', e1, e2, hstep s s' op hs.1 (hops op hop) hs.2 e1⟩

theorem flagTotal_congr (w h : Nat) {b b' : board}
    (hsame : ∀ i j, (tileAt b' i j).flagged = (tileAt b i j).flagged) :
    flagTotal w h b' = flagTotal w h b := by
  unfold flagTotal
  congr 1
  funext q
  exact hsame q.1 q.2

/-- Clearing one flag of the board lowers the number of flagged tiles by one. -/
theorem flagTotal_clear {w h : Nat} {b b' : board} {x y : Nat} (hx : x < w) (hy : y < h)
    (hflag : (tileAt b x y).flagged = true) (hclear : (tileAt b' x y).flagged = false)
    (hsame : ∀ i j, ¬ (i = x ∧ j = y) → (tileAt b' i j).flagged = (tileAt b i j).flagged) :
    flagTotal w h b' + 1 = flagTotal w h b := by
  unfold flagTotal
  refine (countP_flip (fun c => (tileAt b c.1 c.2).flagged)
    (fun c => (tileAt b' c.1 c.2).flagged) (x, y) hflag hclear ?_ _ (nodup_cells _ _ _ _)).1 ?_
  · intro c hc
    exact hsame c.1 c.2 (fun hh => hc (Prod.ext hh.1 hh.2))
  · rw [mem_cells]; simp [hx, hy]

/-- `ToggleFlaggedAt` keeps the flag counter in step with the flagged tiles. -/
theorem toggled_flags {w h : Nat} {g : Game} (hb : Rect w h g.board) {x y : Nat}
    (hx : x < w) (hy : y < h) :
    (toggled g x y).State.flags - (flagTotal w h (toggled g x y).board : Int)
      = g.State.flags - (flagTotal w h g.board : Int) := by
  by_cases hcap : g.State.flags > g.State.mines
  · rw [toggled, if_pos hcap]
  · by_cases hr : (tileAt g.board x y).revealed = true
    · rw [toggled, if_neg hcap, if_pos hr]
    · rw [toggled, if_neg hcap, if_neg hr]
      have ht := tileAt_updTile hb hx hy (fun t => { t with flagged := !t.flagged })
      by_cases hfl : (tileAt g.board x y).flagged = true
      · have := @flagTotal_clear w h g.board
          (updTile g.board x y (fun t => { t with flagged := !t.flagged })) x y hx hy hfl
          (by rw [ht, if_pos ⟨rfl, rfl⟩]; simp [hfl])
          (fun i j hij => by rw [ht, if_neg hij])
        simp only [hfl, if_true]
        omega
      · have hfl' : (tileAt g.board x y).flagged = false := by simpa using hfl
        have := @flagTotal_clear w h
          (updTile g.board x y (fun t => { t with flagged := !t.flagged })) g.board x y hx hy
          (by rw [ht, if_pos ⟨rfl, rfl⟩]; simp [hfl']) hfl'
          (fun i j hij => by rw [ht, if_neg hij])
        simp only [hfl', Bool.false_eq_true, if_false]
        omega

/-- What one public call at an in-range coordinate keeps. -/
theorem step_keeps {w h : Nat} {g g' : Game} (hb : Rect w h g.board) {op : Op}
    (hop : op.coord.1 < w ∧ op.coord.2 < h) {fuel : Nat} (hs : step fuel g op = .ok g') :
    (∀ i j, (tileAt g.board i j).revealed = true → (tileAt g'.board i j).revealed = true) ∧
    (Excl g.board → Excl g'.board) ∧
    g'.State.flags - (flagTotal w h g'.board : Int)
      = g.State.flags - (flagTotal w h g.board : Int) := by
  have hreveal : ∀ s s' : Game, Frame w h s s' → Keeps s s' →
      (∀ i j, (tileAt s.board i j).revealed = true → (tileAt s'.board i j).revealed = true) ∧
      (Excl s.board → Excl s'.board) ∧
      s'.State.flags - (flagTotal w h s'.board : Int)
        = s.State.flags - (flagTotal w h s.board : Int) := by
    intro s s' hf hk
    refine ⟨hf.revealed_mono, fun hex i j hij => ?_, by
      rw [hf.flags_eq, flagTotal_congr w h hf.flagged_eq]⟩
    have hfl : (tileAt s.board i j).flagged = true := by rw [← hf.flagged_eq]; exact hij.1
    exact hex i j ⟨hfl, by rw [← hk.frozen i j hfl]; exact hij.2⟩
  cases op with
  | reveal x y =>
    exact hreveal g g' (RevealAt_frame fuel g g' x y hb hop.1 hop.2 hs)
      (RevealAt_keeps fuel g g' x y hb hop.1 hop.2 hs)
  | smart x y =>
    obtain ⟨_, k2, k3⟩ := SmartReveal_keeps hb hop.1 hop.2 hs
    exact hreveal g g' k2 k3
  | toggle x y =>
    have hx : x < w := hop.1
    have hy : y < h := hop.2
    have hs' : ToggleFlaggedAt g x y = .ok g' := hs
    rw [ToggleFlaggedAt_eq hb hx hy] at hs'
    obtain rfl : toggled g x y = g' := Except.ok.inj hs'
    obtain ⟨_, _, _, _, e5⟩ := toggled_same hb hx hy
    refine ⟨fun i j hr => by rw [(e5 i j).1]; exact hr, fun hex i j hij => ?_,
      toggled_flags hb hx hy⟩
    rcases tileAt_toggled hb hx hy i j with k | ⟨k1, k2, _, k4, _⟩
    · rw [k] at hij; exact hex i j hij
    · have := hij.2
      rw [(e5 i j).1, k1, k2, k4] at this
      cases this

/-- C19 (flagged and revealed exclude each other).  From a rectangular board
with no tile flagged or revealed, every sequence of public calls at in-range
coordinates returns a session in which no tile is both flagged and revealed;
and every further sequence of calls returns a session in which every tile
that was revealed is still revealed. -/
theorem C19_flagged_revealed_exclusive (w h : Nat) (g0 : Game) (hb : Rect w h g0.board)
    (hnew : ∀ i < w, ∀ j < h,
      (tileAt g0.board i j).flagged = false ∧ (tileAt g0.board i j).revealed = false)
    (ops more : List Op) (hops : ∀ op ∈ ops, op.coord.1 < w ∧ op.coord.2 < h)
    (hmore : ∀ op ∈ more, op.coord.1 < w ∧ op.coord.2 < h) (fuel : Nat)
    (hfuel : w * h + 2 ≤ fuel) :
    ∃ g1 g2, run fuel g0 ops = .ok g1 ∧ run fuel g1 more = .ok g2 ∧
      (∀ i < w, ∀ j < h,
        ¬ ((tileAt g1.board i j).flagged = true ∧ (tileAt g1.board i j).revealed = true)) ∧
      (∀ i < w, ∀ j < h, (tileAt g1.board i j).revealed = true →
        (tileAt g2.board i j).revealed = true) := by
  have hstart : Excl g0.board := by
    intro i j hij
    by_cases hin : i < w ∧ j < h
    · rw [(hnew i hin.1 j hin.2).1] at hij; cases hij.1
    · rw [tileAt_out hb hin] at hij; cases hij.1
  obtain ⟨g1, h1, hb1, hex⟩ := run_keeps (fun s : Game => Excl s.board) hfuel
    (fun s s' op hs hop hP hstep => (step_keeps hs hop hstep).2.1 hP) ops hops g0 hb hstart
  obtain ⟨g2, h2, _, hmono⟩ := run_keeps
    (fun s : Game => ∀ i j, (tileAt g1.board i j).revealed = true →
      (tileAt s.board i j).revealed = true) hfuel
    (fun s s' op hs hop hP hstep i j hr => (step_keeps hs hop hstep).1 i j (hP i j hr))
    more hmore g1 hb1 (fun _ _ hr => hr)
  exact ⟨g1, g2, h1, h2, fun i _ j _ => hex i j, fun i _ j _ => hmono i j⟩

theorem C19_flagged_revealed_exclusive_witness :
    ∃ g1 g2, run 11 (game3 0 true) [Op.toggle 1 1, Op.reveal 0 0, Op.reveal 1 1] = .ok g1 ∧
      run 11 g1 [Op.toggle 0 0, Op.smart 0 0] = .ok g2 ∧
      (∀ i < 3, ∀ j < 3,
        ¬ ((tileAt g1.board i j).flagged = true ∧ (tileAt g1.board i j).revealed = true)) ∧
      (∀ i < 3, ∀ j < 3, (tileAt g1.board i j).revealed = true →
        (tileAt g2.board i j).revealed = true) :=
  C19_flagged_revealed_exclusive 3 3 (game3 0 true) rect_board3adj (by decide)
    [Op.toggle 1 1, Op.reveal 0 0, Op.reveal 1 1] [Op.toggle 0 0, Op.smart 0 0] (by decide)
    (by decide) 11 (by decide)

/-- C20 (flag counter).  From a rectangular board with no tile flagged and
`State.flags = 0`, every sequence of public calls at in-range coordinates
returns a session whose `State.flags` is the number of flagged tiles, so that
`UnflaggedMines` is `State.mines` minus the number of flagged tiles. -/
theorem C20_flag_counter (w h : Nat) (g0 : Game) (hb : Rect w h g0.board)
    (hnew : ∀ i < w, ∀ j < h, (tileAt g0.board i j).flagged = false)
    (hzero : g0.State.flags = 0) (ops : List Op)
    (hops : ∀ op ∈ ops, op.coord.1 < w ∧ op.coord.2 < h) (fuel : Nat)
    (hfuel : w * h + 2 ≤ fuel) :
    ∃ g', run fuel g0 ops = .ok g' ∧ g'.State.flags = (flagTotal w h g'.board : Int) ∧
      UnflaggedMines g' = g'.State.mines - (flagTotal w h g'.board : Int) := by
  have hstart : g0.State.flags - (flagTotal w h g0.board : Int) = 0 := by
    have : flagTotal w h g0.board = 0 := by
      unfold flagTotal
      rw [List.countP_eq_zero]
      intro q hq
      rw [mem_cells] at hq
      rw [hnew q.1 hq.1.2 q.2 hq.2.2]; simp
    rw [this, hzero]; rfl
  obtain ⟨g', h1, _, hinv⟩ := run_keeps
    (fun s : Game => s.State.flags - (flagTotal w h s.board : Int) = 0) hfuel
    (fun s s' op hs hop hP hstep => ((step_keeps hs hop hstep).2.2).trans hP)
    ops hops g0 hb hstart
  have hflags : g'.State.flags = (flagTotal w h g'.board : Int) := by omega
  exact ⟨g', h1, hflags, by unfold UnflaggedMines; rw [hflags]⟩

theorem C20_flag_counter_witness :
    ∃ g', run 11 (game3 1 true) [Op.toggle 0 0, Op.reveal 1 1, Op.toggle 2 2, Op.toggle 0 0]
        = .ok g' ∧
      g'.State.flags = (flagTotal 3 3 g'.board : Int) ∧
      UnflaggedMines g' = g'.State.mines - (flagTotal 3 3 g'.board : Int) :=
  C20_flag_counter 3 3 (game3 1 true) rect_board3adj (by decide) rfl
    [Op.toggle 0 0, Op.reveal 1 1, Op.toggle 2 2, Op.toggle 0 0] (by decide) 11 (by decide)

/-- The placement loop keeps the shape of the board and writes nothing but
`mine` fields, whatever the target. -/
theorem propagateMinesLoop_fresh {w h : Nat} (target : Int) :
    ∀ (draws : List (Nat × Nat)) (k : Int) (b b' : board), Rect w h b → Fresh b →
      propagateMinesLoop target draws k b = .ok b' → Rect w h b' ∧ Fresh b' := by
  intro draws
  induction draws with
  | nil =>
    intro k b b' hb hfr hloop
    rw [propagateMinesLoop] at hloop
    split at hloop
    · cases hloop
    · cases hloop; exact ⟨hb, hfr⟩
  | cons d draws ih =>
    intro k b b' hb hfr hloop
    rw [propagateMinesLoop] at hloop
    split at hloop
    · obtain ⟨col0, _, hrest⟩ := bind_eq_ok hloop
      obtain ⟨t, hread, hrest⟩ := bind_eq_ok hrest
      obtain ⟨hpx, hpy, rfl⟩ := readTile_inrange hb hread
      split at hrest
      · obtain ⟨b1, hmod, hrest⟩ := bind_eq_ok hrest
        have ht1 := tileAt_updTile hb hpx hpy (fun t => { t with mine := true })
        rw [← modifyTile_eq hmod] at ht1
        refine ih (k + 1) b1 b' (modifyTile_rect hmod hb) ?_ hrest
        intro i j
        rw [ht1]
        split
        · exact hfr _ _
        · exact hfr i j
      · exact ih k b b' hb hfr hrest
    · cases hloop; exact ⟨hb, hfr⟩

/-- The board `newTileGrid` returns has the shape asked for and the right
adjacency counts, whatever the draws and the number of mines asked for. -/
theorem newTileGrid_counted {w h : Nat} {draws : List (Nat × Nat)} {n : Int} {b' : board}
    (hnew : newTileGrid draws w h n = .ok b') : Rect w h b' ∧ Counted w h b' := by
  have hgrid := rect_replicate w h ⟨0, false, false, false⟩
  have hfresh : Fresh (List.replicate w (List.replicate h (⟨0, false, false, false⟩ : tile))) :=
    fun i j => by rw [tileAt_replicate]; exact ⟨rfl, rfl, rfl⟩
  unfold newTileGrid at hnew
  obtain ⟨b1, hpm, hadj⟩ := bind_eq_ok hnew
  unfold propagateMines at hpm
  obtain ⟨col0, _, hloop⟩ := bind_eq_ok hpm
  obtain ⟨hb1, hfr1⟩ := propagateMinesLoop_fresh (w := w) (h := h) _ draws 0 _ b1 hgrid hfresh
    hloop
  obtain ⟨b2, e1, e2, e3⟩ := propagateMineAdjacency_counts w h b1 hb1
    (fun x _ y _ => (hfr1 x y).2.2)
  rw [e1] at hadj
  obtain rfl : b2 = b' := Except.ok.inj hadj
  exact ⟨e2, fun x hx y hy => (e3 x hx y hy).2⟩

theorem Counted.adjInv {w h : Nat} {b : board} (hc : Counted w h b) : AdjInv w h b := by
  intro x hx y hy hm
  rw [((hc x hx y hy).1 hm).1, countNear_mine_eq]

/-- C1 (adjacency after construction).  On every rectangular board whose
tiles still carry the `adjacentMines = 0` they were allocated with, whatever
the placement of the mines, `propagateMineAdjacency` returns a board of the
same shape with the same mines on which every non-mine tile `(x, y)` has
`adjacentMines` equal to the number of mine tiles `(i, j)` of the grid with
`|i - x| ≤ 1` and `|j - y| ≤ 1`, which is the value `minesAdjacentTo (x, y)`
returns there, and every mine tile has `adjacentMines = 0`.  Hence every
board returned by `newTileGrid`, and the board of every session returned by
`NewGame`, whatever the draws and the number of mines asked for, is a
`width × height` rectangle with these counts (so it satisfies the adjacency
invariant); and for `width ≥ 1` and a non-negative number of mines there are
draws on which `newTileGrid`, and with it `NewGame`, returns. -/
theorem C1_adjacency_after_construction (w h : Nat) :
    (∀ b, Rect w h b → (∀ x < w, ∀ y < h, (tileAt b x y).adjacentMines = 0) →
      ∃ b', propagateMineAdjacency b = .ok b' ∧ Rect w h b' ∧
        ∀ x < w, ∀ y < h,
          (tileAt b' x y).mine = (tileAt b x y).mine ∧
          ((tileAt b' x y).mine = false →
            (tileAt b' x y).adjacentMines = (minesAround w h b' x y : Nat) ∧
            minesAdjacentTo b' x y = .ok (tileAt b' x y).adjacentMines) ∧
          ((tileAt b' x y).mine = true → (tileAt b' x y).adjacentMines = 0)) ∧
    (∀ draws n b', newTileGrid draws w h n = .ok b' → Rect w h b' ∧ Counted w h b') ∧
    (∀ draws numDisarms numMines chain g,
      NewGame draws w h numDisarms numMines chain = .ok g →
      Rect w h g.board ∧ Counted w h g.board ∧ AdjInv w h g.board) ∧
    (1 ≤ w → ∀ n : Int, 0 ≤ n → ∃ draws b', newTileGrid draws w h n = .ok b' ∧
      ∀ numDisarms chain, ∃ g, NewGame draws w h numDisarms n chain = .ok g ∧ g.board = b') := by
  refine ⟨fun b hb hfresh => propagateMineAdjacency_counts w h b hb hfresh,
    fun draws n b' hnew => newTileGrid_counted hnew, ?_, fun hw n hn => ?_⟩
  · intro draws numDisarms numMines chain g hg
    unfold NewGame at hg
    obtain ⟨b, hnew, hok⟩ := bind_eq_ok hg
    obtain rfl := Except.ok.inj hok
    obtain ⟨k1, k2⟩ := newTileGrid_counted hnew
    exact ⟨k1, k2, k2.adjInv⟩
  · obtain ⟨draws, b', hnew⟩ := (newTileGrid_spec w h hw n hn).2
    refine ⟨draws, b', hnew, fun numDisarms chain =>
      ⟨{ State := { GameOver := false, disarms := numDisarms, flags := 0, mines := n },
         board := b',
         options := { chainRevealing := chain } }, ?_, rfl⟩⟩
    unfold NewGame
    rw [hnew]
    rfl

/-- Scenario 1: the 3x3 board built by `NewGame` with its one mine drawn at
`(1, 1)` is `board3adj`, all eight border tiles carrying 1; and the pass on
the mined, uncounted board `board3` returns. -/
theorem C1_adjacency_after_construction_witness :
    NewGame [(1, 1)] 3 3 0 1 true = .ok (game3 0 true) ∧
    Rect 3 3 (game3 0 true).board ∧ Counted 3 3 (game3 0 true).board ∧
    AdjInv 3 3 (game3 0 true).board ∧
    (∀ x < 3, ∀ y < 3, ¬ (x = 1 ∧ y = 1) → (tileAt (game3 0 true).board x y).adjacentMines = 1) ∧
    ∃ b', propagateMineAdjacency board3 = .ok b' ∧ Rect 3 3 b' ∧
      ∀ x < 3, ∀ y < 3,
        (tileAt b' x y).mine = (tileAt board3 x y).mine ∧
        ((tileAt b' x y).mine = false →
          (tileAt b' x y).adjacentMines = (minesAround 3 3 b' x y : Nat) ∧
          minesAdjacentTo b' x y = .ok (tileAt b' x y).adjacentMines) ∧
        ((tileAt b' x y).mine = true → (tileAt b' x y).adjacentMines = 0) :=
  ⟨rfl, ((C1_adjacency_after_construction 3 3).2.2.1 [(1, 1)] 0 1 true (game3 0 true) rfl).1,
    ((C1_adjacency_after_construction 3 3).2.2.1 [(1, 1)] 0 1 true (game3 0 true) rfl).2.1,
    ((C1_adjacency_after_construction 3 3).2.2.1 [(1, 1)] 0 1 true (game3 0 true) rfl).2.2,
    by decide,
    (C1_adjacency_after_construction 3 3).1 board3 rect_board3 (by decide)⟩

end Minesweeper
